import Mathlib

/-!
Argon2id over BLAKE2b: a shallow embedding of `argon2.c`.

The development follows `src/modules/jarvis-crypto/ios/Argon2/src/argon2.c`
and `include/argon2.h`.

Conventions of the embedding.

* `uint8_t`, `uint32_t`, `uint64_t` and `size_t` values are natural numbers;
  every operation that can leave the range of its C type is followed by an
  explicit reduction `% 2^w`.
* A byte buffer is a `List Nat` (one entry per byte), a `uint64_t[n]` array is
  a `List Nat` (one entry per word).  A pointer/length pair `(in, inlen)` is a
  single list whose length is `inlen`.
* A function that mutates an object through a pointer returns the new value
  of the object.
-/

namespace Argon2

/-! ## BLAKE2b -/

def BLAKE2B_BLOCKBYTES : Nat := 128
def BLAKE2B_OUTBYTES : Nat := 64
def BLAKE2B_KEYBYTES : Nat := 64

/-- The C struct `blake2b_state`; `t0`,`t1` are `t[0]`,`t[1]` and `f0`,`f1`
are `f[0]`,`f[1]`. -/
structure blake2b_state where
  h : List Nat
  t0 : Nat
  t1 : Nat
  f0 : Nat
  f1 : Nat
  buf : List Nat
  buflen : Nat
  outlen : Nat
deriving DecidableEq, Repr

def blake2b_IV : List Nat :=
  [0x6a09e667f3bcc908, 0xbb67ae8584caa73b,
   0x3c6ef372fe94f82b, 0xa54ff53a5f1d36f1,
   0x510e527fade682d1, 0x9b05688c2b3e6c1f,
   0x1f83d9abfb41bd6b, 0x5be0cd19137e2179]

def blake2b_sigma : List (List Nat) :=
  [[0, 1, 2, 3, 4, 5, 6, 7, 8, 9, 10, 11, 12, 13, 14, 15],
   [14, 10, 4, 8, 9, 15, 13, 6, 1, 12, 0, 2, 11, 7, 5, 3],
   [11, 8, 12, 0, 5, 2, 15, 13, 10, 14, 3, 6, 7, 1, 9, 4],
   [7, 9, 3, 1, 13, 12, 11, 14, 2, 6, 5, 10, 4, 0, 15, 8],
   [9, 0, 5, 7, 2, 4, 10, 15, 14, 1, 11, 12, 6, 8, 3, 13],
   [2, 12, 6, 10, 0, 11, 8, 3, 4, 13, 7, 5, 15, 14, 1, 9],
   [12, 5, 1, 15, 14, 13, 4, 10, 0, 7, 6, 3, 9, 2, 8, 11],
   [13, 11, 7, 14, 12, 1, 3, 9, 5, 0, 15, 4, 8, 6, 2, 10],
   [6, 15, 14, 9, 11, 3, 0, 8, 12, 2, 13, 7, 1, 4, 10, 5],
   [10, 2, 8, 4, 7, 6, 1, 5, 15, 11, 9, 14, 3, 12, 13, 0],
   [0, 1, 2, 3, 4, 5, 6, 7, 8, 9, 10, 11, 12, 13, 14, 15],
   [14, 10, 4, 8, 9, 15, 13, 6, 1, 12, 0, 2, 11, 7, 5, 3]]

/-- Entry `blake2b_sigma[r][j]`. -/
def sigma (r j : Nat) : Nat := (blake2b_sigma.getD r []).getD j 0

/-- The C function `rotr64`: `(x >> n) | (x << (64 - n))` on `uint64_t`. -/
def rotr64 (x n : Nat) : Nat := (x >>> n) ||| ((x <<< (64 - n)) % 2 ^ 64)

/-- The C function `load64`: little-endian read of 8 bytes starting at offset `off`. -/
def load64 (src : List Nat) (off : Nat) : Nat :=
  (src.getD off 0) ||| ((src.getD (off + 1) 0) <<< 8) |||
  ((src.getD (off + 2) 0) <<< 16) ||| ((src.getD (off + 3) 0) <<< 24) |||
  ((src.getD (off + 4) 0) <<< 32) ||| ((src.getD (off + 5) 0) <<< 40) |||
  ((src.getD (off + 6) 0) <<< 48) ||| ((src.getD (off + 7) 0) <<< 56)

/-- The C function `store32`: the four bytes written for the `uint32_t` value `w`. -/
def store32 (w : Nat) : List Nat :=
  [w % 256, (w >>> 8) % 256, (w >>> 16) % 256, (w >>> 24) % 256]

/-- The C function `store64`: the eight bytes written for the `uint64_t` value `w`. -/
def store64 (w : Nat) : List Nat :=
  [w % 256, (w >>> 8) % 256, (w >>> 16) % 256, (w >>> 24) % 256,
   (w >>> 32) % 256, (w >>> 40) % 256, (w >>> 48) % 256, (w >>> 56) % 256]

/-- The C call `memcpy(dst + off, src, n)`: the new content of `dst`. -/
def memcpy (dst : List Nat) (off : Nat) (src : List Nat) (n : Nat) : List Nat :=
  dst.take off ++ src.take n ++ dst.drop (off + n)

/-- The C call `memset(dst + off, 0, n)`: the new content of `dst`. -/
def memset0 (dst : List Nat) (off n : Nat) : List Nat :=
  dst.take off ++ List.replicate n 0 ++ dst.drop (off + n)

/-- The macro `G(r, i, a, b, c, d)` applied to the working vector `v`, where
`a b c d` are the (pairwise distinct) indices of the four lvalues. -/
def G (m : List Nat) (r i : Nat) (v : List Nat) (a b c d : Nat) : List Nat :=
  let va := v.getD a 0
  let vb := v.getD b 0
  let vc := v.getD c 0
  let vd := v.getD d 0
  let va := (va + vb + m.getD (sigma r (2 * i + 0)) 0) % 2 ^ 64
  let vd := rotr64 (vd ^^^ va) 32
  let vc := (vc + vd) % 2 ^ 64
  let vb := rotr64 (vb ^^^ vc) 24
  let va := (va + vb + m.getD (sigma r (2 * i + 1)) 0) % 2 ^ 64
  let vd := rotr64 (vd ^^^ va) 16
  let vc := (vc + vd) % 2 ^ 64
  let vb := rotr64 (vb ^^^ vc) 63
  (((v.set a va).set b vb).set c vc).set d vd

/-- The macro `ROUND(r)`. -/
def ROUND (m : List Nat) (r : Nat) (v : List Nat) : List Nat :=
  let v := G m r 0 v 0 4 8 12
  let v := G m r 1 v 1 5 9 13
  let v := G m r 2 v 2 6 10 14
  let v := G m r 3 v 3 7 11 15
  let v := G m r 4 v 0 5 10 15
  let v := G m r 5 v 1 6 11 12
  let v := G m r 6 v 2 7 8 13
  let v := G m r 7 v 3 4 9 14
  v

/-- The C function `blake2b_compress(S, block)`. -/
def blake2b_compress (S : blake2b_state) (block : List Nat) : blake2b_state :=
  let m := (List.range 16).map (fun i => load64 block (i * 8))
  let v := (List.range 8).map (fun i => S.h.getD i 0) ++
    [blake2b_IV.getD 0 0, blake2b_IV.getD 1 0, blake2b_IV.getD 2 0, blake2b_IV.getD 3 0,
     blake2b_IV.getD 4 0 ^^^ S.t0, blake2b_IV.getD 5 0 ^^^ S.t1,
     blake2b_IV.getD 6 0 ^^^ S.f0, blake2b_IV.getD 7 0 ^^^ S.f1]
  let v := ROUND m 0 v
  let v := ROUND m 1 v
  let v := ROUND m 2 v
  let v := ROUND m 3 v
  let v := ROUND m 4 v
  let v := ROUND m 5 v
  let v := ROUND m 6 v
  let v := ROUND m 7 v
  let v := ROUND m 8 v
  let v := ROUND m 9 v
  let v := ROUND m 10 v
  let v := ROUND m 11 v
  let h := (List.range 8).map (fun i => S.h.getD i 0 ^^^ v.getD i 0 ^^^ v.getD (i + 8) 0)
  { S with h := h }

/-- The C function `blake2b_init(S, outlen)`: the state after `memset` and the IV load. -/
def blake2b_init (outlen : Nat) : blake2b_state :=
  let h := (List.range 8).map (fun i => blake2b_IV.getD i 0)
  { h := h.set 0 (h.getD 0 0 ^^^ (0x01010000 ^^^ outlen)),
    t0 := 0, t1 := 0, f0 := 0, f1 := 0,
    buf := List.replicate BLAKE2B_BLOCKBYTES 0,
    buflen := 0,
    outlen := outlen }

/-- The two statements `S->t[0] += n; if (S->t[0] < n) S->t[1]++;`. -/
def bump (S : blake2b_state) (n : Nat) : blake2b_state :=
  let t0 := (S.t0 + n) % 2 ^ 64
  { S with t0 := t0, t1 := if t0 < n then (S.t1 + 1) % 2 ^ 64 else S.t1 }

/-- The inner `while (inlen > BLAKE2B_BLOCKBYTES)` loop of `blake2b_update`;
`pin` is the unread input, from which `blake2b_compress` reads its block.
Each iteration removes 128 bytes, so `fuel = pin.length` always suffices
(`update_loop_fuel`). -/
def update_loop : Nat → blake2b_state → List Nat → blake2b_state × List Nat
  | 0, S, pin => (S, pin)
  | fuel + 1, S, pin =>
    if pin.length > BLAKE2B_BLOCKBYTES then
      update_loop fuel (blake2b_compress (bump S BLAKE2B_BLOCKBYTES) pin)
        (pin.drop BLAKE2B_BLOCKBYTES)
    else (S, pin)

/-- The C function `blake2b_update(S, in, inlen)` with `inlen = inp.length`.  The `size_t`
difference `BLAKE2B_BLOCKBYTES - left` does not wrap on the states reachable
from `blake2b_init`, where `buflen ≤ 128` (`WF_update`). -/
def blake2b_update (S : blake2b_state) (inp : List Nat) : blake2b_state :=
  if inp.length = 0 then S
  else
    let left := S.buflen
    let fill := BLAKE2B_BLOCKBYTES - left
    if inp.length > fill then
      let S1 := { S with buflen := 0 }
      let S2 := { S1 with buf := memcpy S1.buf left inp fill }
      let S3 := bump S2 BLAKE2B_BLOCKBYTES
      let S4 := blake2b_compress S3 S3.buf
      let pin := inp.drop fill
      let r := update_loop pin.length S4 pin
      let S5 := r.1
      let pin := r.2
      { S5 with buf := memcpy S5.buf S5.buflen pin pin.length,
                buflen := S5.buflen + pin.length }
    else
      { S with buf := memcpy S.buf S.buflen inp inp.length,
               buflen := S.buflen + inp.length }

/-- The C function `blake2b_final(S, out)`: the `S->outlen` bytes copied to `out`. -/
def blake2b_final (S : blake2b_state) : List Nat :=
  let S1 := bump S S.buflen
  let S2 := { S1 with f0 := 2 ^ 64 - 1 }
  let S3 := { S2 with buf := memset0 S2.buf S2.buflen (BLAKE2B_BLOCKBYTES - S2.buflen) }
  let S4 := blake2b_compress S3 S3.buf
  let buffer := ((List.range 8).map (fun i => store64 (S4.h.getD i 0))).flatten
  buffer.take S4.outlen

/-- One-shot keyless BLAKE2b with `n` output bytes: `init`, one `update`
with the whole message, `final`. -/
def blake2b (n : Nat) (msg : List Nat) : List Nat :=
  blake2b_final (blake2b_update (blake2b_init n) msg)

/-- The `while (remaining > BLAKE2B_OUTBYTES)` loop of `blake2b_long`.  The
loop state is `(out_buffer, bytes written to out so far, remaining)`.  Each
iteration lowers `remaining` by 32, so `fuel = remaining` always suffices. -/
def long_loop : Nat → List Nat × List Nat × Nat → List Nat × List Nat × Nat
  | 0, st => st
  | fuel + 1, (out_buffer, out, remaining) =>
    if remaining > BLAKE2B_OUTBYTES then
      let S := blake2b_init BLAKE2B_OUTBYTES
      let S := blake2b_update S out_buffer
      let out_buffer := blake2b_final S
      long_loop fuel (out_buffer, out ++ out_buffer.take (BLAKE2B_OUTBYTES / 2),
        remaining - BLAKE2B_OUTBYTES / 2)
    else (out_buffer, out, remaining)

/-- The C function `blake2b_long(out, outlen, in, inlen)` with `inlen = inp.length`: the
bytes written to `out`. -/
def blake2b_long (outlen : Nat) (inp : List Nat) : List Nat :=
  let outlen_bytes := store32 (outlen % 2 ^ 32)
  if outlen ≤ BLAKE2B_OUTBYTES then
    let S := blake2b_init outlen
    let S := blake2b_update S outlen_bytes
    let S := blake2b_update S inp
    blake2b_final S
  else
    let S := blake2b_init BLAKE2B_OUTBYTES
    let S := blake2b_update S outlen_bytes
    let S := blake2b_update S inp
    let out_buffer := blake2b_final S
    let out := out_buffer.take (BLAKE2B_OUTBYTES / 2)
    let remaining := outlen - BLAKE2B_OUTBYTES / 2
    let r := long_loop remaining (out_buffer, out, remaining)
    let S := blake2b_init r.2.2
    let S := blake2b_update S r.1
    r.2.1 ++ blake2b_final S

/-! ## Argon2 core -/

def ARGON2_BLOCK_SIZE : Nat := 1024
def ARGON2_QWORDS_IN_BLOCK : Nat := ARGON2_BLOCK_SIZE / 8
def ARGON2_SYNC_POINTS : Nat := 4
def ARGON2_VERSION_NUMBER : Nat := 0x13

def Argon2_d : Nat := 0
def Argon2_i : Nat := 1
def Argon2_id : Nat := 2

def ARGON2_OK : Int := 0
def ARGON2_OUTPUT_PTR_NULL : Int := -1
def ARGON2_OUTPUT_TOO_SHORT : Int := -2
def ARGON2_OUTPUT_TOO_LONG : Int := -3
def ARGON2_PWD_TOO_LONG : Int := -4
def ARGON2_SALT_TOO_SHORT : Int := -5
def ARGON2_SALT_TOO_LONG : Int := -6
def ARGON2_TIME_TOO_SMALL : Int := -7
def ARGON2_TIME_TOO_LARGE : Int := -8
def ARGON2_MEMORY_TOO_LITTLE : Int := -9
def ARGON2_MEMORY_TOO_MUCH : Int := -10
def ARGON2_LANES_TOO_FEW : Int := -11
def ARGON2_LANES_TOO_MANY : Int := -12
def ARGON2_MEMORY_ALLOCATION_ERROR : Int := -22

/-- The C struct `block`: the 128 words `v[0..127]`. -/
abbrev block := List Nat

/-- A block of 128 zero words (`memset(b.v, 0, sizeof(b.v))`). -/
def zero_block : block := List.replicate ARGON2_QWORDS_IN_BLOCK 0

/-- The C struct `argon2_instance_t`; `memory` is the region obtained from
`calloc`, one list entry per block. -/
structure argon2_instance_t where
  memory : List block
  passes : Nat
  memory_blocks : Nat
  segment_length : Nat
  lane_length : Nat
  lanes : Nat
  type : Nat
  version : Nat
deriving DecidableEq, Repr

/-- The C struct `argon2_position_t`. -/
structure argon2_position_t where
  pass : Nat
  lane : Nat
  slice : Nat
  index : Nat
deriving DecidableEq, Repr

/-- The ways in which the C program leaves defined behaviour that the
embedding tracks: an integer division or remainder by zero, an access
`memory[i]` with `i` outside the allocated region, and an access to a local
array outside its declared size. -/
inductive Fault where
  | division_by_zero
  | block_index_out_of_range
  | array_index_out_of_range
deriving DecidableEq, Repr

deriving instance DecidableEq for Except

/-- The C function `copy_block(dst, src)`: the new content of `*dst`. -/
def copy_block (_dst src : block) : block := src

/-- The C function `xor_block(dst, src)`: the new content of `*dst`. -/
def xor_block (dst src : block) : block :=
  (List.range ARGON2_QWORDS_IN_BLOCK).map (fun i => dst.getD i 0 ^^^ src.getD i 0)

/-- The statement `a = a + b + 2 * (uint32_t)(a) * (uint32_t)(b)` of the macro
`R`: the product `2 * (uint32_t)(a) * (uint32_t)(b)` is evaluated in
`unsigned int` (32 bits), the sum in `uint64_t`. -/
def mul_add (a b : Nat) : Nat :=
  (a + b + ((2 * (a % 2 ^ 32)) % 2 ^ 32 * (b % 2 ^ 32)) % 2 ^ 32) % 2 ^ 64

/-- The macro `R(a, b, c, d)` applied to the word array `v`, where `a b c d`
are the (pairwise distinct) indices of the four lvalues. -/
def R (v : List Nat) (a b c d : Nat) : List Nat :=
  let va := v.getD a 0
  let vb := v.getD b 0
  let vc := v.getD c 0
  let vd := v.getD d 0
  let va := mul_add va vb
  let vd := rotr64 (vd ^^^ va) 32
  let vc := mul_add vc vd
  let vb := rotr64 (vb ^^^ vc) 24
  let va := mul_add va vb
  let vd := rotr64 (vd ^^^ va) 16
  let vc := mul_add vc vd
  let vb := rotr64 (vb ^^^ vc) 63
  (((v.set a va).set b vb).set c vc).set d vd

/-- Body of the first loop of `fill_block`, with `v = blockR.v + o`
(`o = 16 * i`). -/
def fill_block_row (blockR : block) (o : Nat) : block :=
  let b := R blockR (o + 0) (o + 4) (o + 8) (o + 12)
  let b := R b (o + 1) (o + 5) (o + 9) (o + 13)
  let b := R b (o + 2) (o + 6) (o + 10) (o + 14)
  let b := R b (o + 3) (o + 7) (o + 11) (o + 15)
  let b := R b (o + 0) (o + 5) (o + 10) (o + 15)
  let b := R b (o + 1) (o + 6) (o + 11) (o + 12)
  let b := R b (o + 2) (o + 7) (o + 8) (o + 13)
  let b := R b (o + 3) (o + 4) (o + 9) (o + 14)
  b

/-- Body of the second loop of `fill_block`, with `v = blockR.v + o`
(`o = 2 * i`). -/
def fill_block_col (blockR : block) (o : Nat) : block :=
  let b := R blockR (o + 0) (o + 16) (o + 32) (o + 48)
  let b := R b (o + 1) (o + 17) (o + 33) (o + 49)
  let b := R b (o + 64) (o + 80) (o + 96) (o + 112)
  let b := R b (o + 65) (o + 81) (o + 97) (o + 113)
  let b := R b (o + 0) (o + 17) (o + 32) (o + 113)
  let b := R b (o + 1) (o + 16) (o + 33) (o + 112)
  let b := R b (o + 64) (o + 81) (o + 96) (o + 49)
  let b := R b (o + 65) (o + 80) (o + 97) (o + 48)
  b

/-- The two `for` loops of `fill_block` applied to `blockR`: first the 8
groups of 16 consecutive words, then the 8 interleaved groups. -/
def P (blockR : block) : block :=
  let b := (List.range 8).foldl (fun b i => fill_block_row b (16 * i)) blockR
  (List.range 8).foldl (fun b i => fill_block_col b (2 * i)) b

/-- The C function `fill_block(prev, ref, next, with_xor)`: the new content of `*next`, for
`next` not aliasing `prev` (all calls in `fill_segment` satisfy this).  The
argument `next` is the content of `*next` before the call. -/
def fill_block (prev ref next : block) (with_xor : Nat) : block :=
  let blockR := copy_block zero_block ref
  let blockR := xor_block blockR prev
  let blockTmp := copy_block zero_block blockR
  let blockR := P blockR
  let next := copy_block next blockTmp
  let next := xor_block next blockR
  if with_xor ≠ 0 then xor_block next prev else next

/-- The C function `index_alpha(instance, position, pseudo_rand, same_lane)`; all
arithmetic is `uint32_t` except `relative_position64`, which is `uint64_t`.
The final `% instance->lane_length` is a division by zero when
`lane_length = 0`. -/
def index_alpha (inst : argon2_instance_t) (position : argon2_position_t)
    (pseudo_rand : Nat) (same_lane : Bool) : Except Fault Nat :=
  let reference_area_size : Nat :=
    if position.pass = 0 then
      if position.slice = 0 then
        (position.index + (2 ^ 32 - 1)) % 2 ^ 32
      else
        if same_lane then
          (position.slice * inst.segment_length + position.index + (2 ^ 32 - 1)) % 2 ^ 32
        else
          (position.slice * inst.segment_length +
            (if position.index = 0 then 2 ^ 32 - 1 else 0)) % 2 ^ 32
    else
      if same_lane then
        (inst.lane_length + (2 ^ 32 - inst.segment_length) + position.index
          + (2 ^ 32 - 1)) % 2 ^ 32
      else
        (inst.lane_length + (2 ^ 32 - inst.segment_length) +
          (if position.index = 0 then 2 ^ 32 - 1 else 0)) % 2 ^ 32
  let relative_position64 : Nat := pseudo_rand
  let relative_position64 := ((relative_position64 * relative_position64) % 2 ^ 64) >>> 32
  let relative_position64 :=
    ((reference_area_size + (2 ^ 32 - 1)) % 2 ^ 32 +
      (2 ^ 64 - (((reference_area_size * relative_position64) % 2 ^ 64) >>> 32))) % 2 ^ 64
  let relative_position := relative_position64 % 2 ^ 32
  let start_position : Nat :=
    if position.pass ≠ 0 then
      if position.slice = ARGON2_SYNC_POINTS - 1 then 0
      else ((position.slice + 1) * inst.segment_length) % 2 ^ 32
    else 0
  if inst.lane_length = 0 then .error Fault.division_by_zero
  else .ok (((start_position + relative_position) % 2 ^ 32) % inst.lane_length)

/-- Read of `memory[i]`. -/
def read_block (memory : List block) (i : Nat) : Except Fault block :=
  match memory.get? i with
  | some b => .ok b
  | none => .error Fault.block_index_out_of_range

/-- Write of `memory[i]`. -/
def write_block (memory : List block) (i : Nat) (b : block) : Except Fault (List block) :=
  if i < memory.length then .ok (memory.set i b)
  else .error Fault.block_index_out_of_range

/-- The three statements `input_block.v[6]++; fill_block(&zero_block,
&input_block, &address_block, 0); fill_block(&zero_block, &address_block,
&address_block, 0);` of `fill_segment`: the new `(input_block,
address_block)`. -/
def next_addresses (input_block address_block : block) : block × block :=
  let input_block := input_block.set 6 ((input_block.getD 6 0 + 1) % 2 ^ 64)
  let address_block := fill_block zero_block input_block address_block 0
  let address_block := fill_block zero_block address_block address_block 0
  (input_block, address_block)

/-- The variables that change in the `for` loop of `fill_segment`. -/
structure segment_state where
  memory : List block
  input_block : block
  address_block : block
  curr_offset : Nat
  prev_offset : Nat
deriving DecidableEq, Repr

/-- A counted loop `for (i = a; i < b; ++i) body`, whose body does not assign
`i`: `for_loop body (b - a) a s` runs the body for `i = a, a+1, ..., b-1`
from the loop state `s`, stopping at the first fault. -/
def for_loop {σ : Type} (body : σ → Nat → Except Fault σ) : Nat → Nat → σ → Except Fault σ
  | 0, _, s => .ok s
  | n + 1, i, s =>
    match body s i with
    | .ok s1 => for_loop body n (i + 1) s1
    | .error e => .error e

/-- The selection of `pseudo_rand` in the loop body of `fill_segment` (from
`uint64_t pseudo_rand;` to the end of the `if (data_independent)`
statement), with `prev_offset` as already adjusted: the new `input_block`,
the new `address_block` and `pseudo_rand`. -/
def segment_pseudo_rand (data_independent : Bool) (s : segment_state) (prev_offset i : Nat) :
    Except Fault (block × block × Nat) :=
  if data_independent then
    let ab : block × block :=
      if i % ARGON2_QWORDS_IN_BLOCK = 0 then next_addresses s.input_block s.address_block
      else (s.input_block, s.address_block)
    .ok (ab.1, ab.2, ab.2.getD (i % ARGON2_QWORDS_IN_BLOCK) 0)
  else
    match read_block s.memory prev_offset with
    | .ok b => .ok (s.input_block, s.address_block, b.getD 0 0)
    | .error e => .error e

/-- The selection of the reference block in the loop body of `fill_segment`
(from `uint32_t ref_lane = ...` to the call of `index_alpha`):
`(ref_lane, ref_index)`. -/
def segment_reference (inst : argon2_instance_t) (position : argon2_position_t)
    (pseudo_rand i : Nat) : Except Fault (Nat × Nat) :=
  if inst.lanes = 0 then .error Fault.division_by_zero
  else
    let ref_lane := ((pseudo_rand >>> 32) % 2 ^ 32) % inst.lanes
    let ref_lane := if position.pass = 0 ∧ position.slice = 0 then position.lane else ref_lane
    let position := { position with index := i }
    match index_alpha inst position (pseudo_rand % 2 ^ 32) (ref_lane == position.lane) with
    | .ok ref_index => .ok (ref_lane, ref_index)
    | .error e => .error e

/-- One iteration (loop body, then `++curr_offset, ++prev_offset`) of the
`for` loop of `fill_segment`, at loop counter `i`.  The call of `fill_block`
reads `memory[prev_offset]`, `memory[ref_offset]` and the target
`memory[curr_offset]`, and writes the target. -/
def fill_segment_step (inst : argon2_instance_t) (position : argon2_position_t)
    (data_independent : Bool) (s : segment_state) (i : Nat) : Except Fault segment_state := do
  if inst.lane_length = 0 then throw Fault.division_by_zero
  let prev_offset :=
    if s.curr_offset % inst.lane_length = 1 then (s.curr_offset + (2 ^ 32 - 1)) % 2 ^ 32
    else s.prev_offset
  let pr ← segment_pseudo_rand data_independent s prev_offset i
  let pseudo_rand := pr.2.2
  let r ← segment_reference inst position pseudo_rand i
  let ref_lane := r.1
  let ref_index := r.2
  let ref_offset := (ref_lane * inst.lane_length + ref_index) % 2 ^ 32
  let with_xor : Nat := if position.pass ≠ 0 then 1 else 0
  let prev ← read_block s.memory prev_offset
  let ref ← read_block s.memory ref_offset
  let curr ← read_block s.memory s.curr_offset
  let memory ← write_block s.memory s.curr_offset (fill_block prev ref curr with_xor)
  pure { memory := memory, input_block := pr.1, address_block := pr.2.1,
         curr_offset := (s.curr_offset + 1) % 2 ^ 32,
         prev_offset := (prev_offset + 1) % 2 ^ 32 }

/-- The C function `fill_segment(instance, position)`: the content of the memory region
after the call.  Locals that C leaves uninitialised (and does not read) are
zero blocks here. -/
def fill_segment (inst : argon2_instance_t) (position : argon2_position_t) :
    Except Fault (List block) := do
  let data_independent : Bool :=
    inst.type = Argon2_i ∨
    (inst.type = Argon2_id ∧ position.pass = 0 ∧ position.slice < ARGON2_SYNC_POINTS / 2)
  let input_block : block :=
    if data_independent then
      (((((zero_block.set 0 position.pass).set 1 position.lane).set 2 position.slice).set 3
        inst.memory_blocks).set 4 inst.passes).set 5 inst.type
    else zero_block
  let first : Bool := position.pass = 0 ∧ position.slice = 0
  let starting_index : Nat := if first then 2 else 0
  let ab : block × block :=
    if first ∧ data_independent then next_addresses input_block zero_block
    else (input_block, zero_block)
  let curr_offset :=
    (position.lane * inst.lane_length + position.slice * inst.segment_length
      + starting_index) % 2 ^ 32
  let prev_offset := (curr_offset + (2 ^ 32 - 1)) % 2 ^ 32
  if inst.lane_length = 0 then throw Fault.division_by_zero
  let prev_offset :=
    if curr_offset % inst.lane_length = 0 then (prev_offset + inst.lane_length) % 2 ^ 32
    else prev_offset
  let s ← for_loop (fill_segment_step inst position data_independent)
    (inst.segment_length - starting_index) starting_index
    { memory := inst.memory, input_block := ab.1, address_block := ab.2,
      curr_offset := curr_offset, prev_offset := prev_offset }
  pure s.memory

/-- The 1024 bytes of a block in memory (little-endian words). -/
def block_bytes (b : block) : List Nat :=
  ((List.range ARGON2_QWORDS_IN_BLOCK).map (fun i => store64 (b.getD i 0))).flatten

/-- The block whose 1024 bytes in memory are `bytes`
(`memcpy(b.v, bytes, ARGON2_BLOCK_SIZE)` on a little-endian machine). -/
def block_of_bytes (bytes : List Nat) : block :=
  (List.range ARGON2_QWORDS_IN_BLOCK).map (fun i => load64 bytes (i * 8))

/-- The message hashed into the seed digest by `initialize`: the
concatenation of all arguments of its `blake2b_update` calls, in order. -/
def seed_input (inst : argon2_instance_t) (pwd salt : List Nat) : List (List Nat) :=
  [store32 inst.lanes,
   store32 32,
   store32 inst.memory_blocks,
   store32 inst.passes,
   store32 inst.version,
   store32 inst.type,
   store32 (pwd.length % 2 ^ 32),
   pwd,
   store32 (salt.length % 2 ^ 32),
   salt,
   store32 0,
   store32 0]

/-- First part of `initialize` (through `blake2b_final(&BlakeHash,
blockhash)`): the 64-byte seed digest left in `blockhash`. -/
def initial_hash (inst : argon2_instance_t) (pwd salt : List Nat) : List Nat :=
  blake2b_final ((seed_input inst pwd salt).foldl blake2b_update (blake2b_init BLAKE2B_OUTBYTES))

/-- The declared size of the local array `uint8_t blockhash[BLAKE2B_OUTBYTES]`
of `initialize`. -/
def blockhash_size : Nat := BLAKE2B_OUTBYTES

/-- A write of the bytes `src` at `dst + off`, where `dst` is an array of
`size` bytes: the new content of the array, or `none` when a byte written
lies outside the array. -/
def write_bytes (size : Nat) (dst : List Nat) (off : Nat) (src : List Nat) :
    Option (List Nat) :=
  if off + src.length ≤ size then some (memcpy dst off src src.length) else none

/-- A read of the `n` bytes at `src + 0 .. src + n - 1`, where `src` is an
array of `size` bytes: the bytes read, or `none` when a byte read lies outside
the array. -/
def read_bytes (size : Nat) (src : List Nat) (n : Nat) : Option (List Nat) :=
  if n ≤ size then some (src.take n) else none

/-- The write `write_bytes` as a step of the program: a fault when a byte
written lies outside the array. -/
def store_bytes (size : Nat) (dst : List Nat) (off : Nat) (src : List Nat) :
    Except Fault (List Nat) :=
  match write_bytes size dst off src with
  | some b => .ok b
  | none => .error Fault.array_index_out_of_range

/-- The read `read_bytes` as a step of the program: a fault when a byte read
lies outside the array. -/
def load_bytes (size : Nat) (src : List Nat) (n : Nat) : Except Fault (List Nat) :=
  match read_bytes size src n with
  | some b => .ok b
  | none => .error Fault.array_index_out_of_range

/-- Body of the `for (l = 0; l < lanes; ++l)` loop of `initialize`, for a
local array `blockhash` of `size` bytes; the loop state is `(blockhash,
memory)`.  The stores `store32(blockhash + BLAKE2B_OUTBYTES, ...)` and
`store32(blockhash + BLAKE2B_OUTBYTES + 4, l)` write the bytes 64..67 and
68..71 of the array, and `blake2b_long` reads its first `BLAKE2B_OUTBYTES + 8`
bytes; an access outside the array is a fault. -/
def initialise_step_sized (size : Nat) (inst : argon2_instance_t)
    (st : List Nat × List block) (l : Nat) : Except Fault (List Nat × List block) := do
  let blockhash ← store_bytes size st.1 BLAKE2B_OUTBYTES (store32 0)
  let blockhash ← store_bytes size blockhash (BLAKE2B_OUTBYTES + 4) (store32 l)
  let input ← load_bytes size blockhash (BLAKE2B_OUTBYTES + 8)
  let blockhash_bytes := blake2b_long ARGON2_BLOCK_SIZE input
  let memory ← write_block st.2 ((l * inst.lane_length) % 2 ^ 32)
    (block_of_bytes blockhash_bytes)
  let blockhash ← store_bytes size blockhash BLAKE2B_OUTBYTES (store32 1)
  let input ← load_bytes size blockhash (BLAKE2B_OUTBYTES + 8)
  let blockhash_bytes := blake2b_long ARGON2_BLOCK_SIZE input
  let memory ← write_block memory (((l * inst.lane_length) % 2 ^ 32 + 1) % 2 ^ 32)
    (block_of_bytes blockhash_bytes)
  pure (blockhash, memory)

/-- Body of the `for (l = 0; l < lanes; ++l)` loop of `initialize`, with the
array `blockhash` of `BLAKE2B_OUTBYTES` bytes that the source declares. -/
def initialise_step (inst : argon2_instance_t) (st : List Nat × List block) (l : Nat) :
    Except Fault (List Nat × List block) :=
  initialise_step_sized blockhash_size inst st l

/-- The C function `initialize(instance, pwd, pwdlen, salt, saltlen)` for a
local array `blockhash` of `size` bytes: the return value and the content of
the memory region after the call.  `blake2b_final` writes the 64 bytes of the
seed digest to the array, and the final `memset` clears `sizeof(blockhash)`
bytes. -/
def initialise_sized (size : Nat) (inst : argon2_instance_t) (pwd salt : List Nat) :
    Except Fault (Int × List block) := do
  let blockhash ← store_bytes size [] 0 (initial_hash inst pwd salt)
  let st ← for_loop (initialise_step_sized size inst) inst.lanes 0 (blockhash, inst.memory)
  let _ ← store_bytes size st.1 0 (List.replicate size 0)
  pure (ARGON2_OK, st.2)

/-- The C function `initialize(instance, pwd, pwdlen, salt, saltlen)` (the
name is reserved in Lean), with the array `blockhash` of `BLAKE2B_OUTBYTES`
bytes that the source declares. -/
def initialise (inst : argon2_instance_t) (pwd salt : List Nat) :
    Except Fault (Int × List block) :=
  initialise_sized blockhash_size inst pwd salt

/-- Body of the `for (l = 1; l < lanes; ++l)` loop of `finalize`; the loop
state is the local `blockhash`.  The index `l * lane_length` is a `uint32_t`
product, the remaining additions are pointer arithmetic. -/
def finalize_step (inst : argon2_instance_t) (blockhash : block) (l : Nat) :
    Except Fault block := do
  if (l * inst.lane_length) % 2 ^ 32 + inst.lane_length = 0 then
    throw Fault.block_index_out_of_range
  let b ← read_block inst.memory ((l * inst.lane_length) % 2 ^ 32 + inst.lane_length - 1)
  pure (xor_block blockhash b)

/-- The C function `finalize(instance, out, outlen)`: the `outlen` bytes written to `out`. -/
def finalize (inst : argon2_instance_t) (outlen : Nat) : Except Fault (List Nat) := do
  if inst.lane_length = 0 then throw Fault.block_index_out_of_range
  let b ← read_block inst.memory (inst.lane_length - 1)
  let blockhash := copy_block zero_block b
  let blockhash ← for_loop (finalize_step inst) (inst.lanes - 1) 1 blockhash
  pure (blake2b_long outlen (block_bytes blockhash))

/-! ## The entry point -/

/-- The six precondition checks at the head of `argon2id_hash_raw`: the
error code returned, or `none` when all checks pass.  `hash_null` says
whether `hash == NULL`; the product `8 * parallelism` is `uint32_t`. -/
def validate (t_cost m_cost parallelism saltlen : Nat) (hash_null : Bool) (hashlen : Nat) :
    Option Int :=
  if hash_null then some ARGON2_OUTPUT_PTR_NULL
  else if hashlen < 4 then some ARGON2_OUTPUT_TOO_SHORT
  else if saltlen < 8 then some ARGON2_SALT_TOO_SHORT
  else if t_cost < 1 then some ARGON2_TIME_TOO_SMALL
  else if m_cost < (8 * parallelism) % 2 ^ 32 then some ARGON2_MEMORY_TOO_LITTLE
  else if parallelism < 1 then some ARGON2_LANES_TOO_FEW
  else none

/-- The derivation of the instance in `argon2id_hash_raw` (from `uint32_t
memory_blocks = m_cost` to `instance.version = ...`), before `calloc`; all
arithmetic is `uint32_t`.  The division is by zero when `parallelism *
ARGON2_SYNC_POINTS` wraps to 0. -/
def derive_instance (t_cost m_cost parallelism : Nat) : Except Fault argon2_instance_t :=
  let memory_blocks := m_cost
  let memory_blocks :=
    if memory_blocks < (2 * ARGON2_SYNC_POINTS * parallelism) % 2 ^ 32 then
      (2 * ARGON2_SYNC_POINTS * parallelism) % 2 ^ 32
    else memory_blocks
  if (parallelism * ARGON2_SYNC_POINTS) % 2 ^ 32 = 0 then .error Fault.division_by_zero
  else
    let segment_length := memory_blocks / ((parallelism * ARGON2_SYNC_POINTS) % 2 ^ 32)
    let memory_blocks :=
      (((segment_length * parallelism) % 2 ^ 32) * ARGON2_SYNC_POINTS) % 2 ^ 32
    .ok { memory := [],
          passes := t_cost,
          memory_blocks := memory_blocks,
          segment_length := segment_length,
          lane_length := (segment_length * ARGON2_SYNC_POINTS) % 2 ^ 32,
          lanes := parallelism,
          type := Argon2_id,
          version := ARGON2_VERSION_NUMBER }

/-- Body of the innermost loop of `argon2id_hash_raw`: one `fill_segment`
call; the loop state is the memory region. -/
def lane_step (inst : argon2_instance_t) (pass slice : Nat) (memory : List block)
    (lane : Nat) : Except Fault (List block) :=
  fill_segment { inst with memory := memory }
    { pass := pass, lane := lane, slice := slice, index := 0 }

/-- Body of the `slice` loop of `argon2id_hash_raw`. -/
def slice_step (inst : argon2_instance_t) (pass : Nat) (memory : List block)
    (slice : Nat) : Except Fault (List block) :=
  for_loop (lane_step inst pass slice) inst.lanes 0 memory

/-- Body of the `pass` loop of `argon2id_hash_raw`. -/
def pass_step (inst : argon2_instance_t) (memory : List block) (pass : Nat) :
    Except Fault (List block) :=
  for_loop (slice_step inst pass) ARGON2_SYNC_POINTS 0 memory

/-- The C function `argon2id_hash_raw(t_cost, m_cost, parallelism, pwd, pwdlen, salt,
saltlen, hash, hashlen)` with `pwdlen = pwd.length`, `saltlen = salt.length`,
for a local array `blockhash` of `size` bytes in `initialize`.
`hash_null` says whether `hash == NULL` and `calloc_ok` whether the
allocation succeeds.  The result is the return value together with the bytes
written to `hash` (none when an error code is returned), or the fault at
which the C program leaves defined behaviour. -/
def argon2id_hash_raw_sized (size : Nat) (t_cost m_cost parallelism : Nat)
    (pwd salt : List Nat) (hash_null : Bool) (hashlen : Nat) (calloc_ok : Bool) :
    Except Fault (Int × List Nat) :=
  match validate t_cost m_cost parallelism salt.length hash_null hashlen with
  | some err => .ok (err, [])
  | none => do
    let inst ← derive_instance t_cost m_cost parallelism
    if !calloc_ok then return (ARGON2_MEMORY_ALLOCATION_ERROR, [])
    let inst := { inst with memory := List.replicate inst.memory_blocks zero_block }
    let r ← initialise_sized size inst pwd salt
    if r.1 ≠ ARGON2_OK then return (r.1, [])
    let inst := { inst with memory := r.2 }
    let memory ← for_loop (pass_step inst) inst.passes 0 inst.memory
    let inst := { inst with memory := memory }
    let out ← finalize inst hashlen
    pure (ARGON2_OK, out)

/-- The C function `argon2id_hash_raw(t_cost, m_cost, parallelism, pwd, pwdlen, salt,
saltlen, hash, hashlen)`, with the array `blockhash` of `BLAKE2B_OUTBYTES`
bytes that the source declares in `initialize`. -/
def argon2id_hash_raw (t_cost m_cost parallelism : Nat) (pwd salt : List Nat)
    (hash_null : Bool) (hashlen : Nat) (calloc_ok : Bool) : Except Fault (Int × List Nat) :=
  argon2id_hash_raw_sized blockhash_size t_cost m_cost parallelism pwd salt hash_null hashlen
    calloc_ok

/-- The chain of C9 as the specification words it: `V 1 = BLAKE2b_64(LE32(outlen)
|| in)` and `V (i+1) = BLAKE2b_64(V i)`. -/
def V (outlen : Nat) (inp : List Nat) : Nat → List Nat
  | 0 => []
  | 1 => blake2b 64 (store32 outlen ++ inp)
  | i + 2 => blake2b 64 (V outlen inp (i + 1))

/-- The long hash as the specification words it: for `outlen ≤ 64` one hash
of `LE32(outlen) || in`; otherwise the first halves of `V 1, ..., V r` with
`r = ceil(outlen/32) - 2`, then `BLAKE2b_k(V r)` with `k = outlen - 32 r`. -/
def blake2b_long_spec (outlen : Nat) (inp : List Nat) : List Nat :=
  if outlen ≤ 64 then blake2b outlen (store32 outlen ++ inp)
  else
    let r := (outlen + 31) / 32 - 2
    let k := outlen - 32 * r
    ((List.range r).map (fun i => (V outlen inp (i + 1)).take 32)).flatten ++
      blake2b k (V outlen inp r)

/-- The seed message as the specification words it: `LE32(p) || LE32(hashlen)
|| LE32(memory_blocks) || LE32(t) || LE32(0x13) || LE32(2) || LE32(|pwd|) ||
pwd || LE32(|salt|) || salt || LE32(0) || LE32(0)`. -/
def seed_message_spec (p hashlen memory_blocks t : Nat) (pwd salt : List Nat) : List Nat :=
  store32 p ++ store32 hashlen ++ store32 memory_blocks ++ store32 t ++ store32 0x13 ++
    store32 2 ++ store32 pwd.length ++ pwd ++ store32 salt.length ++ salt ++
    store32 0 ++ store32 0

/-- The memory size as the specification words it, in integers:
`4p * floor(max(m_cost, 8p) / (4p))`. -/
def memory_blocks_spec (m_cost p : Nat) : Nat :=
  4 * p * (max m_cost (8 * p) / (4 * p))

/-! ## Auxiliary definitions for the BLAKE2b streaming proofs -/

/-- The blocks of the message `s` that `blake2b_update` compresses straight
away: all full blocks except the last 1..128 bytes, which stay pending. -/
def absorb (S : blake2b_state) (s : List Nat) : blake2b_state × List Nat :=
  update_loop s.length S s

/-- The state without its input buffer. -/
def strip (S : blake2b_state) : blake2b_state := { S with buf := [], buflen := 0 }

/-- The buffered bytes not yet compressed. -/
def pending (S : blake2b_state) : List Nat := S.buf.take S.buflen

/-- Well-formed states: a 128-byte buffer holding at most 128 pending bytes. -/
def WF (S : blake2b_state) : Prop :=
  S.buf.length = BLAKE2B_BLOCKBYTES ∧ S.buflen ≤ BLAKE2B_BLOCKBYTES

/-- The buffer content compressed first when the input overflows the buffer. -/
def first_block (S : blake2b_state) (x : List Nat) : List Nat :=
  memcpy S.buf S.buflen x (BLAKE2B_BLOCKBYTES - S.buflen)

/-- The state after the buffer has been filled up and compressed. -/
def after_first (S : blake2b_state) (x : List Nat) : blake2b_state :=
  blake2b_compress (bump { S with buflen := 0, buf := first_block S x } BLAKE2B_BLOCKBYTES)
    (first_block S x)

/-- The result of `blake2b_update` from what the inner loop leaves. -/
def refill (r : blake2b_state × List Nat) : blake2b_state :=
  { r.1 with buf := memcpy r.1.buf r.1.buflen r.2 r.2.length,
             buflen := r.1.buflen + r.2.length }

/-- A smallest valid instance (one lane of eight blocks), zero-filled. -/
def small_instance : argon2_instance_t :=
  { memory := List.replicate 8 zero_block, passes := 1, memory_blocks := 8,
    segment_length := 2, lane_length := 8, lanes := 1, type := Argon2_id,
    version := ARGON2_VERSION_NUMBER }

/-! ## Named parts of `index_alpha` and `fill_segment` -/

/-- The value of the local `reference_area_size` of `index_alpha`
(`uint32_t` arithmetic; the `int` operand `-1` is converted to `2^32 - 1`). -/
def reference_area_size (inst : argon2_instance_t) (position : argon2_position_t)
    (same_lane : Bool) : Nat :=
  if position.pass = 0 then
    if position.slice = 0 then
      (position.index + (2 ^ 32 - 1)) % 2 ^ 32
    else
      if same_lane then
        (position.slice * inst.segment_length + position.index + (2 ^ 32 - 1)) % 2 ^ 32
      else
        (position.slice * inst.segment_length +
          (if position.index = 0 then 2 ^ 32 - 1 else 0)) % 2 ^ 32
  else
    if same_lane then
      (inst.lane_length + (2 ^ 32 - inst.segment_length) + position.index
        + (2 ^ 32 - 1)) % 2 ^ 32
    else
      (inst.lane_length + (2 ^ 32 - inst.segment_length) +
        (if position.index = 0 then 2 ^ 32 - 1 else 0)) % 2 ^ 32

/-- The value of the local `relative_position` of `index_alpha`, from
`reference_area_size` and `pseudo_rand`. -/
def relative_position (reference_area_size pseudo_rand : Nat) : Nat :=
  let relative_position64 : Nat := pseudo_rand
  let relative_position64 := ((relative_position64 * relative_position64) % 2 ^ 64) >>> 32
  let relative_position64 :=
    ((reference_area_size + (2 ^ 32 - 1)) % 2 ^ 32 +
      (2 ^ 64 - (((reference_area_size * relative_position64) % 2 ^ 64) >>> 32))) % 2 ^ 64
  relative_position64 % 2 ^ 32

/-- The value of the local `start_position` of `index_alpha`. -/
def start_position (inst : argon2_instance_t) (position : argon2_position_t) : Nat :=
  if position.pass ≠ 0 then
    if position.slice = ARGON2_SYNC_POINTS - 1 then 0
    else ((position.slice + 1) * inst.segment_length) % 2 ^ 32
  else 0

/-- The value of the local `data_independent` of `fill_segment`. -/
def segment_data_independent (inst : argon2_instance_t) (position : argon2_position_t) :
    Bool :=
  inst.type = Argon2_i ∨
  (inst.type = Argon2_id ∧ position.pass = 0 ∧ position.slice < ARGON2_SYNC_POINTS / 2)

/-- The value of the local `starting_index` of `fill_segment`. -/
def segment_starting_index (position : argon2_position_t) : Nat :=
  let first : Bool := position.pass = 0 ∧ position.slice = 0
  if first then 2 else 0

/-- The loop state of `fill_segment` on entry to its `for` loop. -/
def segment_start (inst : argon2_instance_t) (position : argon2_position_t) : segment_state :=
  let data_independent : Bool := segment_data_independent inst position
  let input_block : block :=
    if data_independent then
      (((((zero_block.set 0 position.pass).set 1 position.lane).set 2 position.slice).set 3
        inst.memory_blocks).set 4 inst.passes).set 5 inst.type
    else zero_block
  let first : Bool := position.pass = 0 ∧ position.slice = 0
  let starting_index : Nat := if first then 2 else 0
  let ab : block × block :=
    if first ∧ data_independent then next_addresses input_block zero_block
    else (input_block, zero_block)
  let curr_offset :=
    (position.lane * inst.lane_length + position.slice * inst.segment_length
      + starting_index) % 2 ^ 32
  let prev_offset := (curr_offset + (2 ^ 32 - 1)) % 2 ^ 32
  let prev_offset :=
    if curr_offset % inst.lane_length = 0 then (prev_offset + inst.lane_length) % 2 ^ 32
    else prev_offset
  { memory := inst.memory, input_block := ab.1, address_block := ab.2,
    curr_offset := curr_offset, prev_offset := prev_offset }

/-- The offset `prev_offset` that one iteration of the loop of `fill_segment`
uses, after the adjustment at the head of the loop body. -/
def step_prev_offset (inst : argon2_instance_t) (s : segment_state) : Nat :=
  if s.curr_offset % inst.lane_length = 1 then (s.curr_offset + (2 ^ 32 - 1)) % 2 ^ 32
  else s.prev_offset

/-- The pair `(ref_lane, ref_index)` that one iteration of the loop of
`fill_segment` selects. -/
def step_reference (inst : argon2_instance_t) (position : argon2_position_t)
    (data_independent : Bool) (s : segment_state) (i : Nat) : Except Fault (Nat × Nat) :=
  match segment_pseudo_rand data_independent s (step_prev_offset inst s) i with
  | .ok pr => segment_reference inst position pr.2.2 i
  | .error e => .error e

/-- The observations `obs s i` of the loop states `s` on which the body of
`for_loop body n i s` runs, in order. -/
def for_loop_trace {σ α : Type} (body : σ → Nat → Except Fault σ) (obs : σ → Nat → α) :
    Nat → Nat → σ → List α
  | 0, _, _ => []
  | n + 1, i, s =>
    obs s i ::
      (match body s i with
       | .ok s1 => for_loop_trace body obs n (i + 1) s1
       | .error _ => [])

/-- The sequence, over the iterations `i` of the loop of `fill_segment`, of
`(i, curr_offset, prev_offset)` as used by the iteration. -/
def fill_segment_offsets (inst : argon2_instance_t) (position : argon2_position_t) :
    List (Nat × Nat × Nat) :=
  for_loop_trace (fill_segment_step inst position (segment_data_independent inst position))
    (fun s i => (i, s.curr_offset, step_prev_offset inst s))
    (inst.segment_length - segment_starting_index position) (segment_starting_index position)
    (segment_start inst position)

/-- The sequence, over the iterations `i` of the loop of `fill_segment`, of
`(i, (ref_lane, ref_index))` as selected by the iteration. -/
def fill_segment_refs (inst : argon2_instance_t) (position : argon2_position_t) :
    List (Nat × Except Fault (Nat × Nat)) :=
  for_loop_trace (fill_segment_step inst position (segment_data_independent inst position))
    (fun s i => (i, step_reference inst position (segment_data_independent inst position) s i))
    (inst.segment_length - segment_starting_index position) (segment_starting_index position)
    (segment_start inst position)

/-- The configurations and positions on which `fill_segment` is called in a
run without wraparound: lanes of four segments tiling a region of `N < 2^32`
blocks, a lane index below `lanes` and a slice index below 4. -/
def segment_config (inst : argon2_instance_t) (position : argon2_position_t) (N : Nat) :
    Prop :=
  1 ≤ inst.segment_length ∧ inst.lane_length = 4 * inst.segment_length ∧
  inst.lanes * inst.lane_length = N ∧ N < 2 ^ 32 ∧
  position.lane < inst.lanes ∧ position.slice < 4

/-- The loop invariant of `fill_segment` at loop counter `k`: the region has
`N` blocks, `curr_offset` is the `k`-th block of the segment, and
`prev_offset` is the lane's last block when the current block is the lane's
first and `curr_offset - 1` from the lane's third block on. -/
def segment_inv (inst : argon2_instance_t) (position : argon2_position_t) (N k : Nat)
    (s : segment_state) : Prop :=
  s.memory.length = N ∧
  s.curr_offset = position.lane * inst.lane_length +
    position.slice * inst.segment_length + k ∧
  (position.slice * inst.segment_length + k = 0 →
    s.prev_offset = position.lane * inst.lane_length + inst.lane_length - 1) ∧
  (2 ≤ position.slice * inst.segment_length + k → s.prev_offset + 1 = s.curr_offset)

/-- The positions at which `fill_segment` calls `index_alpha`, in a
configuration with `segment_length ≥ 2` and `lane_length = 4 * segment_length
< 2^31`: `slice < 4`, `index < segment_length`, and `index ≥ 2` in slice 0 of
pass 0. -/
def index_alpha_call (inst : argon2_instance_t) (position : argon2_position_t) : Prop :=
  2 ≤ inst.segment_length ∧ inst.lane_length = 4 * inst.segment_length ∧
  inst.lane_length < 2 ^ 31 ∧ position.slice < 4 ∧
  position.index < inst.segment_length ∧
  (position.pass = 0 → position.slice = 0 → 2 ≤ position.index)

/-- The size of the reference window over the integers, as the source
expressions of `index_alpha` read without wraparound. -/
def reference_area_size_int (inst : argon2_instance_t) (position : argon2_position_t)
    (same_lane : Bool) : Int :=
  if position.pass = 0 then
    if position.slice = 0 then
      (position.index : Int) - 1
    else
      if same_lane then
        (position.slice : Int) * inst.segment_length + position.index - 1
      else
        (position.slice : Int) * inst.segment_length + (if position.index = 0 then -1 else 0)
  else
    if same_lane then
      (inst.lane_length : Int) - inst.segment_length + position.index - 1
    else
      (inst.lane_length : Int) - inst.segment_length + (if position.index = 0 then -1 else 0)

/-- The word-wise XOR, over all lanes `l < lanes`, of the blocks
`memory[l * lane_length + lane_length - 1]`, as the specification words it. -/
def xor_last_blocks (memory : List block) (lanes lane_length : Nat) : block :=
  (List.range ARGON2_QWORDS_IN_BLOCK).map (fun i =>
    (List.range lanes).foldl
      (fun acc l => acc ^^^ (memory.getD (l * lane_length + lane_length - 1) []).getD i 0) 0)

/-- A valid instance with two lanes of sixteen blocks; block `k` of the
region holds the word `k` everywhere. -/
def two_lanes : argon2_instance_t :=
  { memory := (List.range 32).map (fun k => List.replicate ARGON2_QWORDS_IN_BLOCK k),
    passes := 2, memory_blocks := 32, segment_length := 4, lane_length := 16, lanes := 2,
    type := Argon2_id, version := ARGON2_VERSION_NUMBER }

/-- The position of the first segment of a run: pass 0, lane 0, slice 0. -/
def first_segment : argon2_position_t := { pass := 0, lane := 0, slice := 0, index := 0 }

/-- The position of the first segment of lane 1 in the second pass. -/
def second_pass : argon2_position_t := { pass := 1, lane := 1, slice := 0, index := 0 }

/-- The instance `two_lanes` with another content of the memory region (all
blocks zero) and another version number. -/
def two_lanes_zeroed : argon2_instance_t :=
  { two_lanes with memory := List.replicate 32 zero_block, version := 16 }

/-! ## The local array `blockhash` of `initialize` -/

/-- A counted loop `for (i = a; i < b; ++i) body` as `for_loop`, for a body
that gives `none` at an access outside an object. -/
def checked_loop {σ : Type} (body : σ → Nat → Option σ) : Nat → Nat → σ → Option σ
  | 0, _, s => some s
  | n + 1, i, s =>
    match body s i with
    | some s1 => checked_loop body n (i + 1) s1
    | none => none

/-- Body of the `for (l = 0; l < lanes; ++l)` loop of `initialize`, statement
by statement as `initialise_step_sized`, with every access to `blockhash` checked
against the size `size` of the array: `none` when an access lies outside
`blockhash` or outside the memory region. -/
def initialise_step_checked (size : Nat) (inst : argon2_instance_t)
    (st : List Nat × List block) (l : Nat) : Option (List Nat × List block) := do
  let blockhash ← write_bytes size st.1 BLAKE2B_OUTBYTES (store32 0)
  let blockhash ← write_bytes size blockhash (BLAKE2B_OUTBYTES + 4) (store32 l)
  let input ← read_bytes size blockhash (BLAKE2B_OUTBYTES + 8)
  let blockhash_bytes := blake2b_long ARGON2_BLOCK_SIZE input
  let memory ← (write_block st.2 ((l * inst.lane_length) % 2 ^ 32)
    (block_of_bytes blockhash_bytes)).toOption
  let blockhash ← write_bytes size blockhash BLAKE2B_OUTBYTES (store32 1)
  let input ← read_bytes size blockhash (BLAKE2B_OUTBYTES + 8)
  let blockhash_bytes := blake2b_long ARGON2_BLOCK_SIZE input
  let memory ← (write_block memory (((l * inst.lane_length) % 2 ^ 32 + 1) % 2 ^ 32)
    (block_of_bytes blockhash_bytes)).toOption
  pure (blockhash, memory)

/-- The C function `initialize(instance, pwd, pwdlen, salt, saltlen)` as
`initialise_sized`, for a local array `blockhash` of `size` bytes, with every access
to the array checked (the 64 bytes written by `blake2b_final`, the stores and
reads in the loop, the final `memset` of `sizeof(blockhash)` bytes): `none`
when an access lies outside `blockhash` or outside the memory region. -/
def initialise_checked (size : Nat) (inst : argon2_instance_t) (pwd salt : List Nat) :
    Option (Int × List block) := do
  let blockhash ← write_bytes size [] 0 (initial_hash inst pwd salt)
  let st ← checked_loop (initialise_step_checked size inst) inst.lanes 0
    (blockhash, inst.memory)
  let _ ← write_bytes size st.1 0 (List.replicate size 0)
  pure (ARGON2_OK, st.2)

/-! ## BLAKE2b: streaming lemmas -/

theorem update_loop_fuel (f1 : Nat) : ∀ (f2 : Nat) (S : blake2b_state) (pin : List Nat),
    pin.length ≤ f1 → pin.length ≤ f2 → update_loop f1 S pin = update_loop f2 S pin := by
  induction f1 with
  | zero =>
    intro f2 S pin h1 _
    have h0 : pin.length = 0 := Nat.le_zero.mp h1
    cases f2 with
    | zero => rfl
    | succ f2 => simp [update_loop, h0, BLAKE2B_BLOCKBYTES]
  | succ f1 ih =>
    intro f2 S pin h1 h2
    by_cases hlen : pin.length > BLAKE2B_BLOCKBYTES
    · cases f2 with
      | zero => simp [BLAKE2B_BLOCKBYTES] at hlen; omega
      | succ f2 =>
        simp only [update_loop, hlen, if_true]
        apply ih
        · simp [BLAKE2B_BLOCKBYTES] at hlen ⊢; omega
        · simp [BLAKE2B_BLOCKBYTES] at hlen ⊢; omega
    · cases f2 with
      | zero => simp [update_loop, hlen]
      | succ f2 => simp [update_loop, hlen]

theorem absorb_short (S : blake2b_state) (s : List Nat) (h : s.length ≤ BLAKE2B_BLOCKBYTES) :
    absorb S s = (S, s) := by
  unfold absorb
  cases hs : s.length with
  | zero => rfl
  | succ n =>
    have : ¬ (s.length > BLAKE2B_BLOCKBYTES) := by omega
    simp [update_loop, this]

theorem absorb_long (S : blake2b_state) (s : List Nat) (h : s.length > BLAKE2B_BLOCKBYTES) :
    absorb S s = absorb (blake2b_compress (bump S BLAKE2B_BLOCKBYTES) s)
      (s.drop BLAKE2B_BLOCKBYTES) := by
  unfold absorb
  cases hs : s.length with
  | zero => simp [BLAKE2B_BLOCKBYTES] at h; omega
  | succ n =>
    have h' : s.length > BLAKE2B_BLOCKBYTES := h
    simp only [update_loop, h', if_true]
    apply update_loop_fuel
    · simp [BLAKE2B_BLOCKBYTES] at h ⊢; omega
    · simp

theorem load64_append (s b : List Nat) (off : Nat) (h : off + 8 ≤ s.length) :
    load64 (s ++ b) off = load64 s off := by
  unfold load64
  rw [List.getD_append s b 0 off (by omega), List.getD_append s b 0 (off + 1) (by omega),
    List.getD_append s b 0 (off + 2) (by omega), List.getD_append s b 0 (off + 3) (by omega),
    List.getD_append s b 0 (off + 4) (by omega), List.getD_append s b 0 (off + 5) (by omega),
    List.getD_append s b 0 (off + 6) (by omega), List.getD_append s b 0 (off + 7) (by omega)]

theorem compress_congr (S : blake2b_state) (b1 b2 : List Nat)
    (h : (List.range 16).map (fun i => load64 b1 (i * 8)) =
         (List.range 16).map (fun i => load64 b2 (i * 8))) :
    blake2b_compress S b1 = blake2b_compress S b2 := by
  unfold blake2b_compress
  rw [h]

theorem compress_append (S : blake2b_state) (s b : List Nat)
    (h : BLAKE2B_BLOCKBYTES ≤ s.length) :
    blake2b_compress S (s ++ b) = blake2b_compress S s := by
  apply compress_congr
  apply List.map_congr_left
  intro i hi
  have hi' : i < 16 := List.mem_range.mp hi
  apply load64_append
  simp [BLAKE2B_BLOCKBYTES] at h
  omega

theorem compress_take (S : blake2b_state) (s : List Nat)
    (h : BLAKE2B_BLOCKBYTES ≤ s.length) :
    blake2b_compress S (s.take BLAKE2B_BLOCKBYTES) = blake2b_compress S s := by
  have := compress_append S (s.take BLAKE2B_BLOCKBYTES) (s.drop BLAKE2B_BLOCKBYTES)
    (by simp [List.length_take]; omega)
  rw [List.take_append_drop] at this
  exact this.symm

theorem strip_bump (S : blake2b_state) (n : Nat) : strip (bump S n) = bump (strip S) n := rfl

theorem strip_compress (S : blake2b_state) (b : List Nat) :
    strip (blake2b_compress S b) = blake2b_compress (strip S) b := rfl

theorem compress_buf (S : blake2b_state) (b : List Nat) :
    (blake2b_compress S b).buf = S.buf ∧ (blake2b_compress S b).buflen = S.buflen := ⟨rfl, rfl⟩

theorem update_loop_strip (fuel : Nat) : ∀ (S : blake2b_state) (pin : List Nat),
    update_loop fuel (strip S) pin =
      (strip (update_loop fuel S pin).1, (update_loop fuel S pin).2) := by
  induction fuel with
  | zero => intro S pin; rfl
  | succ n ih =>
    intro S pin
    by_cases h : pin.length > BLAKE2B_BLOCKBYTES
    · simp only [update_loop, h, if_true]
      rw [← strip_bump, ← strip_compress]
      exact ih _ _
    · simp only [update_loop, h, if_false]

theorem update_loop_buf (fuel : Nat) : ∀ (S : blake2b_state) (pin : List Nat),
    (update_loop fuel S pin).1.buf = S.buf ∧ (update_loop fuel S pin).1.buflen = S.buflen := by
  induction fuel with
  | zero => intro S pin; exact ⟨rfl, rfl⟩
  | succ n ih =>
    intro S pin
    by_cases h : pin.length > BLAKE2B_BLOCKBYTES
    · simp only [update_loop, h, if_true]
      exact ih _ _
    · simp [update_loop, h]

theorem absorb_length (n : Nat) : ∀ (S : blake2b_state) (s : List Nat), s.length ≤ n →
    (absorb S s).2.length ≤ BLAKE2B_BLOCKBYTES ∧ (s ≠ [] → (absorb S s).2 ≠ []) := by
  induction n with
  | zero =>
    intro S s h
    have : s.length ≤ BLAKE2B_BLOCKBYTES := by omega
    rw [absorb_short S s this]
    exact ⟨this, id⟩
  | succ n ih =>
    intro S s h
    by_cases hl : s.length > BLAKE2B_BLOCKBYTES
    · rw [absorb_long S s hl]
      have hd : (s.drop BLAKE2B_BLOCKBYTES).length ≤ n := by
        simp [BLAKE2B_BLOCKBYTES] at hl ⊢; omega
      refine ⟨(ih _ _ hd).1, fun _ => (ih _ _ hd).2 ?_⟩
      intro hnil
      have := congrArg List.length hnil
      simp [BLAKE2B_BLOCKBYTES] at this hl
      omega
    · have : s.length ≤ BLAKE2B_BLOCKBYTES := by omega
      rw [absorb_short S s this]
      exact ⟨this, id⟩

/-- Absorbing `s ++ b` is absorbing `s`, then absorbing what is pending
followed by `b`. -/
theorem absorb_append (n : Nat) : ∀ (S : blake2b_state) (s b : List Nat), s.length ≤ n →
    absorb S (s ++ b) = absorb (absorb S s).1 ((absorb S s).2 ++ b) := by
  induction n with
  | zero =>
    intro S s b h
    rw [absorb_short S s (by omega)]
  | succ n ih =>
    intro S s b h
    by_cases hl : s.length > BLAKE2B_BLOCKBYTES
    · have hl' : (s ++ b).length > BLAKE2B_BLOCKBYTES := by
        simp [BLAKE2B_BLOCKBYTES] at hl ⊢; omega
      rw [absorb_long S s hl, absorb_long S (s ++ b) hl',
        compress_append _ s b (Nat.le_of_lt hl),
        List.drop_append_of_le_length (Nat.le_of_lt hl)]
      apply ih
      simp [BLAKE2B_BLOCKBYTES] at hl ⊢; omega
    · rw [absorb_short S s (by omega)]

theorem pending_length (S : blake2b_state) (h : WF S) : (pending S).length = S.buflen := by
  unfold pending
  rw [List.length_take]
  exact Nat.min_eq_left (by rw [h.1]; exact h.2)

theorem WF_init (n : Nat) : WF (blake2b_init n) := by
  simp [WF, blake2b_init, BLAKE2B_BLOCKBYTES]

theorem update_nil (S : blake2b_state) : blake2b_update S [] = S := by
  simp [blake2b_update]

theorem update_short (S : blake2b_state) (x : List Nat) (hx : x ≠ [])
    (h : ¬ x.length > BLAKE2B_BLOCKBYTES - S.buflen) :
    blake2b_update S x =
      { S with buf := memcpy S.buf S.buflen x x.length, buflen := S.buflen + x.length } := by
  have h0 : ¬ x.length = 0 := fun h0 => hx (List.length_eq_zero.mp h0)
  simp only [blake2b_update, h0, h, if_false]

theorem update_long (S : blake2b_state) (x : List Nat)
    (h : x.length > BLAKE2B_BLOCKBYTES - S.buflen) :
    blake2b_update S x =
      refill (absorb (after_first S x) (x.drop (BLAKE2B_BLOCKBYTES - S.buflen))) := by
  have h0 : ¬ x.length = 0 := by omega
  unfold blake2b_update
  rw [if_neg h0]
  simp only []
  rw [if_pos h]
  rfl

theorem absorb_strip (S : blake2b_state) (s : List Nat) :
    absorb (strip S) s = (strip (absorb S s).1, (absorb S s).2) :=
  update_loop_strip _ _ _

theorem absorb_buf (S : blake2b_state) (s : List Nat) :
    (absorb S s).1.buf = S.buf ∧ (absorb S s).1.buflen = S.buflen :=
  update_loop_buf _ _ _

/-- What `blake2b_update` does, seen on the state without buffer and the
pending bytes: it absorbs the pending bytes followed by the new input. -/
theorem update_view (S : blake2b_state) (x : List Nat) (hwf : WF S) :
    WF (blake2b_update S x) ∧
    strip (blake2b_update S x) = (absorb (strip S) (pending S ++ x)).1 ∧
    pending (blake2b_update S x) = (absorb (strip S) (pending S ++ x)).2 := by
  have hp := pending_length S hwf
  obtain ⟨hb, hl⟩ := hwf
  by_cases hx : x = []
  · subst hx
    rw [update_nil, List.append_nil, absorb_short _ _ (by rw [hp]; exact hl)]
    exact ⟨⟨hb, hl⟩, rfl, rfl⟩
  by_cases h : x.length > BLAKE2B_BLOCKBYTES - S.buflen
  · -- the buffer overflows: one block from the buffer, then blocks from the input
    rw [update_long S x h]
    have hB0 : first_block S x = pending S ++ x.take (BLAKE2B_BLOCKBYTES - S.buflen) := by
      unfold first_block memcpy pending
      rw [show S.buflen + (BLAKE2B_BLOCKBYTES - S.buflen) = S.buf.length by omega,
        List.drop_length, List.append_nil]
    have hB0len : (first_block S x).length = BLAKE2B_BLOCKBYTES := by
      rw [hB0, List.length_append, hp, List.length_take]; omega
    have hsplit : pending S ++ x = first_block S x ++
        x.drop (BLAKE2B_BLOCKBYTES - S.buflen) := by
      rw [hB0, List.append_assoc, List.take_append_drop]
    have hlong : (pending S ++ x).length > BLAKE2B_BLOCKBYTES := by
      rw [List.length_append, hp]; omega
    have habs : absorb (strip S) (pending S ++ x) =
        absorb (strip (after_first S x)) (x.drop (BLAKE2B_BLOCKBYTES - S.buflen)) := by
      have e0 : strip { S with buflen := 0, buf := first_block S x } = strip S := rfl
      have e1 : blake2b_compress (bump (strip S) BLAKE2B_BLOCKBYTES) (pending S ++ x) =
          strip (after_first S x) := by
        unfold after_first
        rw [strip_compress, strip_bump, e0, hsplit,
          compress_append _ _ _ (Nat.le_of_eq hB0len.symm)]
      have e2 : (pending S ++ x).drop BLAKE2B_BLOCKBYTES =
          x.drop (BLAKE2B_BLOCKBYTES - S.buflen) := by
        rw [hsplit, List.drop_append_of_le_length (Nat.le_of_eq hB0len.symm),
          ← hB0len, List.drop_length, List.nil_append]
      rw [absorb_long _ _ hlong, e1, e2]
    have hS4buf : (after_first S x).buf = first_block S x ∧ (after_first S x).buflen = 0 :=
      ⟨rfl, rfl⟩
    have hbuf := absorb_buf (after_first S x) (x.drop (BLAKE2B_BLOCKBYTES - S.buflen))
    have hlen := (absorb_length _ (after_first S x) (x.drop (BLAKE2B_BLOCKBYTES - S.buflen))
      (Nat.le_refl _)).1
    rw [habs, absorb_strip, hS4buf.1, hS4buf.2] at *
    generalize absorb (after_first S x) (x.drop (BLAKE2B_BLOCKBYTES - S.buflen)) = r
      at hbuf hlen ⊢
    obtain ⟨r1, r2⟩ := r
    simp only at hbuf hlen ⊢
    refine ⟨⟨?_, ?_⟩, rfl, ?_⟩
    · simp only [refill, hbuf.1, hbuf.2, memcpy, List.take_zero, List.nil_append, Nat.zero_add,
        List.length_append, List.length_take, List.length_drop, Nat.min_self]
      rw [hB0len]
      omega
    · simpa [refill, hbuf.2] using hlen
    · simp [pending, refill, memcpy, hbuf.2]
  · -- the input fits into the buffer
    rw [update_short S x hx h]
    have hshort : (pending S ++ x).length ≤ BLAKE2B_BLOCKBYTES := by
      rw [List.length_append, hp]; omega
    rw [absorb_short _ _ hshort]
    refine ⟨⟨?_, ?_⟩, rfl, ?_⟩
    · simp only [memcpy, List.length_append, List.length_take, List.length_drop, Nat.min_self]
      omega
    · simp only; omega
    · simp only [pending, memcpy, List.take_length]
      rw [List.append_assoc, List.take_append_eq_append_take, List.take_take,
        List.length_take]
      have h1 : min (S.buflen + x.length) S.buflen = S.buflen := by omega
      have h2 : min S.buflen S.buf.length = S.buflen := by omega
      rw [h1, h2, show S.buflen + x.length - S.buflen = x.length by omega,
        List.take_append_eq_append_take, List.take_length, Nat.sub_self, List.take_zero,
        List.append_nil]

theorem final_congr (S S' : blake2b_state) (hwf : WF S) (hwf' : WF S')
    (hs : strip S = strip S') (hp : pending S = pending S') :
    blake2b_final S = blake2b_final S' := by
  have hl := pending_length S hwf
  have hl' := pending_length S' hwf'
  have hbl : S.buflen = S'.buflen := by rw [← hl, ← hl', hp]
  have hm : memset0 S.buf S.buflen (BLAKE2B_BLOCKBYTES - S.buflen) =
      memset0 S'.buf S'.buflen (BLAKE2B_BLOCKBYTES - S'.buflen) := by
    unfold memset0
    rw [show S.buflen + (BLAKE2B_BLOCKBYTES - S.buflen) = S.buf.length by
          have := hwf.1; have := hwf.2; omega,
      show S'.buflen + (BLAKE2B_BLOCKBYTES - S'.buflen) = S'.buf.length by
          have := hwf'.1; have := hwf'.2; omega,
      List.drop_length, List.drop_length]
    show pending S ++ _ ++ _ = pending S' ++ _ ++ _
    rw [hp, hbl]
  obtain ⟨h, t0, t1, f0, f1, buf, buflen, outlen⟩ := S
  obtain ⟨h', t0', t1', f0', f1', buf', buflen', outlen'⟩ := S'
  simp only [strip, blake2b_state.mk.injEq] at hs
  obtain ⟨rfl, rfl, rfl, rfl, rfl, _, _, rfl⟩ := hs
  simp only at hbl hm
  subst hbl
  unfold blake2b_final bump
  simp only []
  rw [hm]

/-- Feeding `a` and then `b` leaves the same unbuffered state and the same
pending bytes as feeding `a ++ b`. -/
theorem update_append (S : blake2b_state) (a b : List Nat) (hwf : WF S) :
    WF (blake2b_update (blake2b_update S a) b) ∧ WF (blake2b_update S (a ++ b)) ∧
    strip (blake2b_update (blake2b_update S a) b) = strip (blake2b_update S (a ++ b)) ∧
    pending (blake2b_update (blake2b_update S a) b) = pending (blake2b_update S (a ++ b)) := by
  obtain ⟨wa, sa, pa⟩ := update_view S a hwf
  obtain ⟨wab, sab, pab⟩ := update_view (blake2b_update S a) b wa
  obtain ⟨w2, s2, p2⟩ := update_view S (a ++ b) hwf
  have key := absorb_append (pending S ++ a).length (strip S) (pending S ++ a) b (Nat.le_refl _)
  rw [List.append_assoc] at key
  rw [sa, pa] at sab pab
  refine ⟨wab, w2, ?_, ?_⟩
  · rw [sab, s2, key]
  · rw [pab, p2, key]

theorem final_update_append (S : blake2b_state) (a b : List Nat) (hwf : WF S) :
    blake2b_final (blake2b_update (blake2b_update S a) b) =
      blake2b_final (blake2b_update S (a ++ b)) := by
  obtain ⟨w1, w2, hs, hp⟩ := update_append S a b hwf
  exact final_congr _ _ w1 w2 hs hp

theorem WF_update (S : blake2b_state) (x : List Nat) (hwf : WF S) : WF (blake2b_update S x) :=
  (update_view S x hwf).1

/-- Any sequence of `blake2b_update` calls hashes the concatenation of its
arguments. -/
theorem final_foldl_update (xs : List (List Nat)) : ∀ (S : blake2b_state), WF S →
    blake2b_final (xs.foldl blake2b_update S) = blake2b_final (blake2b_update S xs.flatten) := by
  induction xs with
  | nil => intro S _; simp [update_nil]
  | cons x xs ih =>
    intro S hwf
    rw [List.foldl_cons, ih _ (WF_update S x hwf), List.flatten_cons,
      final_update_append S x xs.flatten hwf]

theorem update_loop_outlen (fuel : Nat) : ∀ (S : blake2b_state) (pin : List Nat),
    (update_loop fuel S pin).1.outlen = S.outlen := by
  induction fuel with
  | zero => intro S pin; rfl
  | succ n ih =>
    intro S pin
    by_cases h : pin.length > BLAKE2B_BLOCKBYTES
    · simp only [update_loop, h, if_true]
      rw [ih]; rfl
    · simp [update_loop, h]

theorem update_outlen (S : blake2b_state) (x : List Nat) :
    (blake2b_update S x).outlen = S.outlen := by
  by_cases hx : x = []
  · subst hx; rw [update_nil]
  by_cases h : x.length > BLAKE2B_BLOCKBYTES - S.buflen
  · rw [update_long S x h]
    show (absorb _ _).1.outlen = _
    unfold absorb
    rw [update_loop_outlen]; rfl
  · rw [update_short S x hx h]

theorem store64_length (w : Nat) : (store64 w).length = 8 := rfl

theorem final_length (S : blake2b_state) (h : S.outlen ≤ BLAKE2B_OUTBYTES) :
    (blake2b_final S).length = S.outlen := by
  unfold blake2b_final
  simp only []
  rw [List.length_take]
  have hlen : ∀ (f : Nat → Nat), ((List.range 8).map (fun i => store64 (f i))).flatten.length
      = 64 := by
    intro f
    simp [List.range_succ, store64_length]
  rw [hlen]
  show min S.outlen 64 = S.outlen
  simp [BLAKE2B_OUTBYTES] at h
  omega

theorem blake2b_length (n : Nat) (msg : List Nat) (h : n ≤ BLAKE2B_OUTBYTES) :
    (blake2b n msg).length = n := by
  unfold blake2b
  rw [final_length _ (by rw [update_outlen]; exact h), update_outlen]
  rfl

theorem V_succ (outlen : Nat) (inp : List Nat) (i : Nat) :
    V outlen inp (i + 1) = (blake2b 64)^[i] (V outlen inp 1) := by
  induction i with
  | zero => rfl
  | succ i ih =>
    rw [Function.iterate_succ_apply', ← ih]
    rfl

theorem long_loop_step (fuel : Nat) (v out : List Nat) (remaining : Nat)
    (hr : remaining > 64) :
    long_loop (fuel + 1) (v, out, remaining) =
      long_loop fuel (blake2b 64 v, out ++ (blake2b 64 v).take 32, remaining - 32) := by
  have hr' : remaining > BLAKE2B_OUTBYTES := hr
  rw [long_loop, if_pos hr']
  rfl

theorem long_loop_stop (fuel : Nat) (v out : List Nat) (remaining : Nat)
    (hr : remaining ≤ 64) :
    long_loop fuel (v, out, remaining) = (v, out, remaining) := by
  have hr' : ¬ remaining > BLAKE2B_OUTBYTES := Nat.not_lt.mpr hr
  cases fuel with
  | zero => rfl
  | succ fuel => rw [long_loop, if_neg hr']

theorem long_loop_spec (fuel : Nat) : ∀ (v out : List Nat) (remaining : Nat),
    remaining ≤ fuel → 32 < remaining →
    long_loop fuel (v, out, remaining) =
      ((blake2b 64)^[(remaining - 33) / 32] v,
       out ++ ((List.range ((remaining - 33) / 32)).map
         (fun i => ((blake2b 64)^[i + 1] v).take 32)).flatten,
       remaining - 32 * ((remaining - 33) / 32)) := by
  induction fuel with
  | zero => intro v out remaining h h32; omega
  | succ fuel ih =>
    intro v out remaining h h32
    by_cases hr : remaining > 64
    · have hj : (remaining - 33) / 32 = (remaining - 32 - 33) / 32 + 1 := by omega
      rw [long_loop_step fuel v out remaining hr, ih _ _ _ (by omega) (by omega), hj]
      generalize (remaining - 32 - 33) / 32 = j
      have hlist : (List.range (j + 1)).map (fun i => ((blake2b 64)^[i + 1] v).take 32) =
          (blake2b 64 v).take 32 ::
            (List.range j).map (fun i => ((blake2b 64)^[i + 1] (blake2b 64 v)).take 32) := by
        rw [List.range_succ_eq_map, List.map_cons, List.map_map]
        rfl
      rw [hlist, List.flatten_cons, List.append_assoc, Function.iterate_succ_apply]
      refine Prod.ext rfl (Prod.ext rfl ?_)
      show remaining - 32 - 32 * j = remaining - 32 * (j + 1)
      omega
    · have hj : (remaining - 33) / 32 = 0 := by omega
      rw [long_loop_stop (fuel + 1) v out remaining (by omega), hj]
      simp

theorem flatten_take32_length (r : Nat) (f : Nat → List Nat)
    (hf : ∀ i, (f i).length = 64) :
    ((List.range r).map (fun i => (f i).take 32)).flatten.length = 32 * r := by
  induction r with
  | zero => rfl
  | succ r ih =>
    rw [List.range_succ, List.map_append, List.flatten_append, List.length_append, ih]
    simp [hf]
    omega

theorem V_length (outlen : Nat) (inp : List Nat) (i : Nat) :
    (V outlen inp (i + 1)).length = 64 := by
  cases i with
  | zero => exact blake2b_length 64 _ (by decide)
  | succ i => exact blake2b_length 64 _ (by decide)

theorem blake2b_long_short (outlen : Nat) (inp : List Nat) (h : outlen ≤ 64) :
    blake2b_long outlen inp =
      blake2b_final (blake2b_update (blake2b_update (blake2b_init outlen)
        (store32 (outlen % 2 ^ 32))) inp) := by
  have h' : outlen ≤ BLAKE2B_OUTBYTES := h
  rw [blake2b_long]
  simp only []
  rw [if_pos h']

theorem blake2b_long_long (outlen : Nat) (inp : List Nat) (h : ¬ outlen ≤ 64) :
    blake2b_long outlen inp =
      (long_loop (outlen - 32)
        (blake2b_final (blake2b_update (blake2b_update (blake2b_init 64)
          (store32 (outlen % 2 ^ 32))) inp),
         (blake2b_final (blake2b_update (blake2b_update (blake2b_init 64)
          (store32 (outlen % 2 ^ 32))) inp)).take 32, outlen - 32)).2.1 ++
      blake2b
        (long_loop (outlen - 32)
        (blake2b_final (blake2b_update (blake2b_update (blake2b_init 64)
          (store32 (outlen % 2 ^ 32))) inp),
         (blake2b_final (blake2b_update (blake2b_update (blake2b_init 64)
          (store32 (outlen % 2 ^ 32))) inp)).take 32, outlen - 32)).2.2
        (long_loop (outlen - 32)
        (blake2b_final (blake2b_update (blake2b_update (blake2b_init 64)
          (store32 (outlen % 2 ^ 32))) inp),
         (blake2b_final (blake2b_update (blake2b_update (blake2b_init 64)
          (store32 (outlen % 2 ^ 32))) inp)).take 32, outlen - 32)).1 := by
  have h' : ¬ outlen ≤ BLAKE2B_OUTBYTES := h
  rw [blake2b_long]
  simp only []
  rw [if_neg h']
  rfl

theorem blake2b_long_eq_spec (outlen : Nat) (inp : List Nat) (h32 : outlen < 2 ^ 32) :
    blake2b_long outlen inp = blake2b_long_spec outlen inp := by
  by_cases h : outlen ≤ 64
  · rw [blake2b_long_short outlen inp h, blake2b_long_spec, if_pos h, Nat.mod_eq_of_lt h32,
      final_update_append _ _ _ (WF_init outlen)]
    rfl
  · rw [blake2b_long_long outlen inp h, blake2b_long_spec, if_neg h, Nat.mod_eq_of_lt h32,
      final_update_append _ _ _ (WF_init _)]
    have hV1 : blake2b_final (blake2b_update (blake2b_init 64)
        (store32 outlen ++ inp)) = V outlen inp 1 := rfl
    rw [hV1, long_loop_spec _ _ _ _ (Nat.le_refl _) (by omega)]
    simp only []
    have hr : (outlen + 31) / 32 - 2 = (outlen - 32 - 33) / 32 + 1 := by omega
    have hk : outlen - 32 - 32 * ((outlen - 32 - 33) / 32) =
        outlen - 32 * ((outlen - 32 - 33) / 32 + 1) := by omega
    rw [hr, hk]
    generalize (outlen - 32 - 33) / 32 = j
    have hlist : (List.range (j + 1)).map (fun i => (V outlen inp (i + 1)).take 32) =
        (V outlen inp 1).take 32 ::
          (List.range j).map (fun i => ((blake2b 64)^[i + 1] (V outlen inp 1)).take 32) := by
      rw [List.range_succ_eq_map, List.map_cons, List.map_map]
      congr 1
      apply List.map_congr_left
      intro i _
      show (V outlen inp (i + 1 + 1)).take 32 = _
      rw [V_succ]
    rw [hlist, List.flatten_cons, List.append_assoc, V_succ outlen inp j, List.append_assoc]

/-! ## BLAKE2b: claims -/

set_option maxRecDepth 100000 in
/-- C7: `blake2b_init(S, 64); blake2b_update(S, "abc", 3); blake2b_final(S, out)`
yields the 64 bytes of the RFC 7693 test vector `ba80a53f...d4009923`. -/
theorem blake2b_abc_vector :
    blake2b_final (blake2b_update (blake2b_init 64) [0x61, 0x62, 0x63]) =
      [0xba, 0x80, 0xa5, 0x3f, 0x98, 0x1c, 0x4d, 0x0d, 0x6a, 0x27, 0x97, 0xb6, 0x9f, 0x12,
       0xf6, 0xe9, 0x4c, 0x21, 0x2f, 0x14, 0x68, 0x5a, 0xc4, 0xb7, 0x4b, 0x12, 0xbb, 0x6f,
       0xdb, 0xff, 0xa2, 0xd1, 0x7d, 0x87, 0xc5, 0x39, 0x2a, 0xab, 0x79, 0x2d, 0xc2, 0x52,
       0xd5, 0xde, 0x45, 0x33, 0xcc, 0x95, 0x18, 0xd3, 0x8a, 0xa8, 0xdb, 0xf1, 0x92, 0x5a,
       0xb9, 0x23, 0x86, 0xed, 0xd4, 0x00, 0x99, 0x23] := by
  decide

/-- C8: for every output length `n ≤ 64` (in particular `1 ≤ n ≤ 64`) and all
byte strings `a`, `b`, `init(n); update(a); update(b); final` produces the
same `n` bytes as `init(n); update(a ++ b); final`, and a zero-length update
leaves every state unchanged. -/
theorem blake2b_update_split (n : Nat) (a b : List Nat) (h64 : n ≤ 64) :
    blake2b_final (blake2b_update (blake2b_update (blake2b_init n) a) b) =
      blake2b_final (blake2b_update (blake2b_init n) (a ++ b)) ∧
    (blake2b_final (blake2b_update (blake2b_init n) (a ++ b))).length = n ∧
    (∀ S : blake2b_state, blake2b_update S [] = S) := by
  exact ⟨final_update_append _ a b (WF_init n), blake2b_length n (a ++ b) h64, update_nil⟩

theorem blake2b_update_split_witness :
    32 ≤ 64 ∧
    (blake2b_final (blake2b_update (blake2b_update (blake2b_init 32) [1, 2]) [3]) =
      blake2b_final (blake2b_update (blake2b_init 32) ([1, 2] ++ [3])) ∧
    (blake2b_final (blake2b_update (blake2b_init 32) ([1, 2] ++ [3]))).length = 32 ∧
    (∀ S : blake2b_state, blake2b_update S [] = S)) :=
  ⟨by decide, blake2b_update_split 32 [1, 2] [3] (by decide)⟩

/-- C9: for `outlen < 2^32`, `blake2b_long(outlen, in)` writes exactly
`outlen` bytes and equals the specification's construction: for `outlen ≤ 64`
it is `BLAKE2b_outlen(LE32(outlen) || in)`; for `outlen > 64` it is the first
32 bytes of `V 1, ..., V r` followed by `BLAKE2b_k(V r)`, where
`r = ceil(outlen/32) - 2` and `k = outlen - 32 r` lies in `33..64`. -/
theorem blake2b_long_correct (outlen : Nat) (inp : List Nat) (h32 : outlen < 2 ^ 32) :
    blake2b_long outlen inp = blake2b_long_spec outlen inp ∧
    (blake2b_long outlen inp).length = outlen ∧
    (outlen ≤ 64 ∨
      (33 ≤ outlen - 32 * ((outlen + 31) / 32 - 2) ∧
       outlen - 32 * ((outlen + 31) / 32 - 2) ≤ 64)) := by
  refine ⟨blake2b_long_eq_spec outlen inp h32, ?_, ?_⟩
  · rw [blake2b_long_eq_spec outlen inp h32, blake2b_long_spec]
    by_cases h : outlen ≤ 64
    · rw [if_pos h]
      exact blake2b_length _ _ h
    · rw [if_neg h]
      simp only []
      rw [List.length_append, flatten_take32_length _ (fun i => V outlen inp (i + 1))
        (V_length outlen inp), blake2b_length _ _ (by show _ ≤ 64; omega)]
      omega
  · by_cases h : outlen ≤ 64
    · exact Or.inl h
    · exact Or.inr (by omega)

theorem blake2b_long_correct_witness :
    1024 < 2 ^ 32 ∧
    (blake2b_long 1024 [7] = blake2b_long_spec 1024 [7] ∧
     (blake2b_long 1024 [7]).length = 1024 ∧
     (1024 ≤ 64 ∨
      (33 ≤ 1024 - 32 * ((1024 + 31) / 32 - 2) ∧ 1024 - 32 * ((1024 + 31) / 32 - 2) ≤ 64))) :=
  ⟨by decide, blake2b_long_correct 1024 [7] (by decide)⟩

/-! ## Block mixing -/

theorem xor_block_comm (a b : block) : xor_block a b = xor_block b a := by
  unfold xor_block
  apply List.map_congr_left
  intro i _
  exact Nat.xor_comm _ _

/-- The first half of C1: without `with_xor` the new block is
`P(ref XOR prev) XOR (ref XOR prev)`, whatever the target block held. -/
theorem fill_block_without_xor (prev ref old : block) :
    fill_block prev ref old 0 =
      xor_block (P (xor_block ref prev)) (xor_block ref prev) := by
  rw [xor_block_comm]
  rfl

/-- With `with_xor` the code XORs `prev` (not the old target block) into the
result. -/
theorem fill_block_with_xor (prev ref old : block) (w : Nat) (hw : w ≠ 0) :
    fill_block prev ref old w =
      xor_block (xor_block (P (xor_block ref prev)) (xor_block ref prev)) prev := by
  rw [xor_block_comm (P _)]
  unfold fill_block
  simp only []
  rw [if_pos hw]
  rfl

/-- The result of `fill_block` never depends on what the target block held. -/
theorem fill_block_old_irrelevant (prev ref old old' : block) (w : Nat) :
    fill_block prev ref old w = fill_block prev ref old' w := rfl

set_option maxRecDepth 100000 in
/-- C1 (failing input): with `prev = ref = 0`, an old target block of all-one
words and `with_xor = 1`, `fill_block` leaves the zero block, while
`P(ref XOR prev) XOR (ref XOR prev) XOR old` is the old block. -/
theorem fill_block_with_xor_drops_old :
    fill_block zero_block zero_block (List.replicate 128 1) 1 = zero_block ∧
    xor_block (xor_block (P (xor_block zero_block zero_block))
      (xor_block zero_block zero_block)) (List.replicate 128 1) = List.replicate 128 1 ∧
    fill_block zero_block zero_block (List.replicate 128 1) 1 ≠
      xor_block (xor_block (P (xor_block zero_block zero_block))
        (xor_block zero_block zero_block)) (List.replicate 128 1) := by
  decide

/-! ## Validation and derivation -/

theorem hash_raw_of_validate_some (t m p : Nat) (pwd salt : List Nat) (hn : Bool)
    (hashlen : Nat) (c : Bool) (e : Int)
    (h : validate t m p salt.length hn hashlen = some e) :
    argon2id_hash_raw t m p pwd salt hn hashlen c = .ok (e, []) := by
  unfold argon2id_hash_raw argon2id_hash_raw_sized
  rw [h]

/-- C3: the first failing precondition decides the return value, whatever the
remaining arguments: a NULL `hash` gives -1; otherwise `hashlen < 4` gives -2;
otherwise `saltlen < 8` gives -5; otherwise `t_cost < 1` gives -7; and
when these four pass and `parallelism = 0` the result is -11 for every
`m_cost`. -/
theorem validation_priority (t m p : Nat) (pwd salt : List Nat) (hn : Bool)
    (hashlen : Nat) (c : Bool)
    (h : hn = true ∨ hashlen < 4 ∨ salt.length < 8 ∨ t < 1 ∨ p = 0) :
    argon2id_hash_raw t m p pwd salt hn hashlen c =
      .ok (if hn = true then ARGON2_OUTPUT_PTR_NULL
           else if hashlen < 4 then ARGON2_OUTPUT_TOO_SHORT
           else if salt.length < 8 then ARGON2_SALT_TOO_SHORT
           else if t < 1 then ARGON2_TIME_TOO_SMALL
           else ARGON2_LANES_TOO_FEW, []) := by
  apply hash_raw_of_validate_some
  unfold validate
  by_cases h1 : hn = true
  · simp [h1]
  by_cases h2 : hashlen < 4
  · simp [h1, h2]
  by_cases h3 : salt.length < 8
  · simp [h1, h2, h3]
  by_cases h4 : t < 1
  · simp [h1, h2, h3, h4]
  have h5 : p = 0 := by
    rcases h with h | h | h | h | h
    · exact absurd h h1
    · exact absurd h h2
    · exact absurd h h3
    · exact absurd h h4
    · exact h
  subst h5
  simp [h1, h2, h3, h4]

theorem validation_priority_witness :
    ((false = true ∨ 32 < 4 ∨ [1, 2, 3, 4, 5, 6, 7, 8].length < 8 ∨ 3 < 1 ∨ 0 = 0) ∧
    argon2id_hash_raw 3 4096 0 [112] [1, 2, 3, 4, 5, 6, 7, 8] false 32 true =
      .ok (if false = true then ARGON2_OUTPUT_PTR_NULL
           else if 32 < 4 then ARGON2_OUTPUT_TOO_SHORT
           else if [1, 2, 3, 4, 5, 6, 7, 8].length < 8 then ARGON2_SALT_TOO_SHORT
           else if 3 < 1 then ARGON2_TIME_TOO_SMALL
           else ARGON2_LANES_TOO_FEW, [])) ∧
    argon2id_hash_raw 3 4096 0 [112] [1, 2, 3, 4, 5, 6, 7, 8] false 32 true =
      .ok (ARGON2_LANES_TOO_FEW, []) :=
  ⟨⟨by decide, validation_priority 3 4096 0 [112] [1, 2, 3, 4, 5, 6, 7, 8] false 32 true
    (by decide)⟩, by decide⟩

/-- Where `8 * parallelism` does not wrap, a memory cost below it is rejected
at the fifth check with `ARGON2_MEMORY_TOO_LITTLE`. -/
theorem memory_too_little_without_wrap (t m p : Nat) (pwd salt : List Nat)
    (hashlen : Nat) (c : Bool) (h1 : 4 ≤ hashlen) (h2 : 8 ≤ salt.length) (h3 : 1 ≤ t)
    (hp : 8 * p < 2 ^ 32) (hm : m < 8 * p) :
    validate t m p salt.length false hashlen = some ARGON2_MEMORY_TOO_LITTLE ∧
    argon2id_hash_raw t m p pwd salt false hashlen c = .ok (ARGON2_MEMORY_TOO_LITTLE, []) := by
  have hv : validate t m p salt.length false hashlen = some ARGON2_MEMORY_TOO_LITTLE := by
    unfold validate
    rw [Nat.mod_eq_of_lt hp]
    simp [Nat.not_lt.mpr h1, Nat.not_lt.mpr h2, Nat.not_lt.mpr h3, hm]
  exact ⟨hv, hash_raw_of_validate_some _ _ _ _ _ _ _ _ _ hv⟩

/-- C4 (failing input): `m_cost = 100`, `parallelism = 2^29`.  As integers
`100 < 8 * 2^29`, but the `uint32_t` product is 0, every check passes, and
the call goes on to allocate (no `ARGON2_MEMORY_TOO_LITTLE`). -/
theorem memory_too_little_check_wraps :
    (100 : Nat) < 8 * 2 ^ 29 ∧
    validate 1 100 (2 ^ 29) 8 false 32 = none ∧
    argon2id_hash_raw 1 100 (2 ^ 29) [] [0, 0, 0, 0, 0, 0, 0, 0] false 32 false =
      .ok (ARGON2_MEMORY_ALLOCATION_ERROR, []) ∧
    argon2id_hash_raw 1 100 (2 ^ 29) [] [0, 0, 0, 0, 0, 0, 0, 0] false 32 true ≠
      .ok (ARGON2_MEMORY_TOO_LITTLE, []) := by
  decide

/-- Where `8 * parallelism` does not wrap, the derived instance is the one of
the specification: `memory_blocks` is the largest multiple of `4p` not above
`max(m_cost, 8p)`, `segment_length = memory_blocks / (4p) ≥ 2`, `lane_length =
4 * segment_length` and `memory_blocks = segment_length * lanes * 4`. -/
theorem derive_instance_without_wrap (t m p saltlen hashlen : Nat) (hn : Bool)
    (hm32 : m < 2 ^ 32) (hp : 8 * p < 2 ^ 32)
    (hv : validate t m p saltlen hn hashlen = none) :
    ∃ inst, derive_instance t m p = .ok inst ∧
      inst.lanes = p ∧ inst.passes = t ∧
      inst.memory_blocks = memory_blocks_spec m p ∧
      inst.segment_length = inst.memory_blocks / (4 * p) ∧
      2 ≤ inst.segment_length ∧
      inst.lane_length = 4 * inst.segment_length ∧
      inst.memory_blocks = inst.segment_length * inst.lanes * 4 ∧
      inst.memory_blocks ≤ m := by
  have hchecks : ¬ m < 8 * p ∧ ¬ p < 1 := by
    unfold validate at hv
    rw [Nat.mod_eq_of_lt hp] at hv
    split_ifs at hv with a1 a2 a3 a4 a5 a6
    exact ⟨a5, a6⟩
  obtain ⟨hm, hp1⟩ := hchecks
  have hp4 : (p * 4) % 2 ^ 32 = p * 4 := Nat.mod_eq_of_lt (by omega)
  have h8 : (2 * 4 * p) % 2 ^ 32 = 8 * p := by
    rw [Nat.mod_eq_of_lt (by omega)]
  have hdiv : m / (p * 4) * (p * 4) ≤ m := Nat.div_mul_le_self m (p * 4)
  have hseg2 : 2 ≤ m / (p * 4) := by
    rw [Nat.le_div_iff_mul_le (by omega)]
    omega
  have hmax : max m (8 * p) = m := by omega
  have hsp : (m / (p * 4) * p) % 2 ^ 32 = m / (p * 4) * p := by
    apply Nat.mod_eq_of_lt
    have : m / (p * 4) * p * 4 ≤ m := by rw [Nat.mul_assoc]; exact hdiv
    omega
  have hsp4 : (m / (p * 4) * p * 4) % 2 ^ 32 = m / (p * 4) * p * 4 := by
    apply Nat.mod_eq_of_lt
    have : m / (p * 4) * p * 4 ≤ m := by rw [Nat.mul_assoc]; exact hdiv
    omega
  have hs4 : (m / (p * 4) * 4) % 2 ^ 32 = m / (p * 4) * 4 := by
    apply Nat.mod_eq_of_lt
    have h1 : m / (p * 4) * 4 ≤ m / (p * 4) * (p * 4) :=
      Nat.mul_le_mul_left _ (by omega)
    omega
  have hmb : m / (p * 4) * p * 4 = memory_blocks_spec m p := by
    unfold memory_blocks_spec
    rw [hmax, show 4 * p = p * 4 by omega, Nat.mul_assoc, Nat.mul_comm]
  have hne : ¬ (p * 4) % 2 ^ 32 = 0 := by rw [hp4]; omega
  have hlt : ¬ m < (2 * 4 * p) % 2 ^ 32 := by rw [h8]; exact hm
  have hd : derive_instance t m p =
      .ok { memory := [], passes := t, memory_blocks := m / (p * 4) * p * 4,
            segment_length := m / (p * 4), lane_length := m / (p * 4) * 4, lanes := p,
            type := Argon2_id, version := ARGON2_VERSION_NUMBER } := by
    unfold derive_instance
    simp only [ARGON2_SYNC_POINTS]
    rw [if_neg hlt, if_neg hne]
    simp only [hp4, hsp, hsp4, hs4]
  refine ⟨_, hd, rfl, rfl, hmb, ?_, hseg2, ?_, rfl, ?_⟩
  · show m / (p * 4) = m / (p * 4) * p * 4 / (4 * p)
    rw [show 4 * p = p * 4 by omega, Nat.mul_assoc, Nat.mul_div_cancel _ (by omega)]
  · show m / (p * 4) * 4 = 4 * (m / (p * 4))
    omega
  · show m / (p * 4) * p * 4 ≤ m
    rw [Nat.mul_assoc]; exact hdiv

/-- C6 (failing input): `m_cost = 100`, `parallelism = 2^29` passes the
validation, and the derived instance has `segment_length = 0` and
`memory_blocks = 0`, where the specification's value is `2^32`. -/
theorem derive_instance_wraps :
    validate 1 100 (2 ^ 29) 8 false 32 = none ∧
    derive_instance 1 100 (2 ^ 29) =
      .ok { memory := [], passes := 1, memory_blocks := 0, segment_length := 0,
            lane_length := 0, lanes := 2 ^ 29, type := Argon2_id,
            version := ARGON2_VERSION_NUMBER } ∧
    memory_blocks_spec 100 (2 ^ 29) = 2 ^ 32 := by
  decide

set_option maxRecDepth 100000 in
/-- C5 (failing input): `m_cost = 0`, `parallelism = 2^30` passes all six
checks as the code evaluates them (`8 * parallelism` wraps to 0), and the
derivation divides by `parallelism * 4 = 0`.  With `m_cost = 100` and
`parallelism = 2^29` the checks pass too and the derived region is empty:
once `blockhash` has the `BLAKE2B_OUTBYTES + 8` bytes that `initialize` uses,
the first block index `memory[0]` is out of range. -/
theorem hash_raw_divides_by_zero :
    validate 1 0 (2 ^ 30) 8 false 32 = none ∧
    argon2id_hash_raw 1 0 (2 ^ 30) [] [0, 0, 0, 0, 0, 0, 0, 0] false 32 true =
      .error Fault.division_by_zero ∧
    validate 1 100 (2 ^ 29) 8 false 32 = none ∧
    argon2id_hash_raw_sized (BLAKE2B_OUTBYTES + 8) 1 100 (2 ^ 29) []
        [0, 0, 0, 0, 0, 0, 0, 0] false 32 true =
      .error Fault.block_index_out_of_range := by
  decide

/-! ## The seed digest -/

/-- The seed digest is one BLAKE2b-64 hash of the concatenated fields, whose
second field is the constant 32. -/
theorem initial_hash_eq (inst : argon2_instance_t) (pwd salt : List Nat) :
    initial_hash inst pwd salt = blake2b 64 (seed_input inst pwd salt).flatten :=
  final_foldl_update _ _ (WF_init _)

/-- On an instance derived by `argon2id_hash_raw`, the seed digest is the
specification's hash with 32 in place of the requested output length. -/
theorem initial_hash_eq_spec_32 (inst : argon2_instance_t) (pwd salt : List Nat)
    (hty : inst.type = Argon2_id) (hver : inst.version = ARGON2_VERSION_NUMBER)
    (hpwd : pwd.length < 2 ^ 32) (hsalt : salt.length < 2 ^ 32) :
    initial_hash inst pwd salt =
      blake2b 64 (seed_message_spec inst.lanes 32 inst.memory_blocks inst.passes pwd salt) := by
  rw [initial_hash_eq]
  unfold seed_input seed_message_spec
  rw [hty, hver, Nat.mod_eq_of_lt hpwd, Nat.mod_eq_of_lt hsalt]
  simp [Argon2_id, ARGON2_VERSION_NUMBER]

set_option maxRecDepth 100000 in
/-- C2 (failing input): `t = 1, m = 8, p = 1`, empty password, salt of eight
zero bytes, `hashlen = 64`.  The input passes validation and `memory_blocks`
is 8; the seed digest computed by the code is the specification's digest for
output length 32, and differs from the specification's digest for the
requested output length 64. -/
theorem seed_digest_ignores_hashlen :
    validate 1 8 1 8 false 64 = none ∧
    (derive_instance 1 8 1).map (fun inst => inst.memory_blocks) = .ok 8 ∧
    (derive_instance 1 8 1).map (fun inst => initial_hash inst [] [0, 0, 0, 0, 0, 0, 0, 0]) =
      .ok (blake2b 64 (seed_message_spec 1 32 8 1 [] [0, 0, 0, 0, 0, 0, 0, 0])) ∧
    (derive_instance 1 8 1).map (fun inst => initial_hash inst [] [0, 0, 0, 0, 0, 0, 0, 0]) ≠
      .ok (blake2b 64 (seed_message_spec 1 64 8 1 [] [0, 0, 0, 0, 0, 0, 0, 0])) := by
  decide

/-! ## Loops and memory accesses -/

/-- Invariant rule for `for_loop`: an invariant that every iteration in
range preserves (without fault) holds after the loop, which ends without
fault. -/
theorem for_loop_invariant {σ : Type} (body : σ → Nat → Except Fault σ)
    (I : Nat → σ → Prop) : ∀ (n i : Nat) (s : σ), I i s →
    (∀ k s, i ≤ k → k < i + n → I k s → ∃ s', body s k = .ok s' ∧ I (k + 1) s') →
    ∃ s', for_loop body n i s = .ok s' ∧ I (i + n) s' := by
  intro n
  induction n with
  | zero => intro i s h0 _; exact ⟨s, rfl, h0⟩
  | succ n ih =>
    intro i s h0 hstep
    obtain ⟨s1, hb, h1⟩ := hstep i s (Nat.le_refl _) (by omega) h0
    obtain ⟨s2, hl, h2⟩ := ih (i + 1) s1 h1
      (fun k s hk hk' hI => hstep k s (by omega) (by omega) hI)
    refine ⟨s2, ?_, ?_⟩
    · rw [for_loop, hb]; exact hl
    · rw [show i + (n + 1) = i + 1 + n by omega]; exact h2

theorem write_block_ok (memory : List block) (i : Nat) (b : block) (h : i < memory.length) :
    write_block memory i b = .ok (memory.set i b) := by
  unfold write_block
  rw [if_pos h]

theorem read_block_ok (memory : List block) (i : Nat) (b : block) (h : memory[i]? = some b) :
    read_block memory i = .ok b := by
  unfold read_block
  rw [List.get?_eq_getElem?, h]

theorem memcpy_at (a rest t : List Nat) :
    memcpy (a ++ rest) a.length t t.length = a ++ t ++ rest.drop t.length := by
  unfold memcpy
  rw [List.take_left, List.take_length, List.drop_append]

theorem memcpy_at' (a rest t : List Nat) (n k : Nat) (ha : a.length = n) (ht : t.length = k) :
    memcpy (a ++ rest) n t k = a ++ t ++ rest.drop k := by
  subst ha; subst ht
  exact memcpy_at a rest t

theorem store32_length (w : Nat) : (store32 w).length = 4 := rfl

/-- The bytes at `blockhash + 0 .. blockhash + 71` after the two stores
`store32(blockhash + 64, a); store32(blockhash + 68, l)`. -/
theorem blockhash_two_stores (bh : List Nat) (a l : Nat) (h : 64 ≤ bh.length) :
    memcpy (memcpy bh BLAKE2B_OUTBYTES (store32 a) 4) (BLAKE2B_OUTBYTES + 4) (store32 l) 4 =
      bh.take 64 ++ store32 a ++ store32 l ++ ((bh.drop 64).drop 4).drop 4 := by
  have hs : (bh.take 64).length = 64 := by rw [List.length_take]; omega
  conv_lhs => rw [← List.take_append_drop 64 bh]
  rw [show BLAKE2B_OUTBYTES = 64 from rfl,
    memcpy_at' (bh.take 64) (bh.drop 64) (store32 a) 64 4 hs rfl,
    memcpy_at' (bh.take 64 ++ store32 a) _ (store32 l) (64 + 4) 4
      (by rw [List.length_append, hs, store32_length]) rfl]

/-- The bytes after the further store `store32(blockhash + 64, a)`. -/
theorem blockhash_third_store (s c ln rest : List Nat) (a : Nat)
    (hs : s.length = 64) (hc : c.length = 4) :
    memcpy (s ++ c ++ ln ++ rest) BLAKE2B_OUTBYTES (store32 a) 4 =
      s ++ store32 a ++ ln ++ rest := by
  rw [show BLAKE2B_OUTBYTES = 64 from rfl, List.append_assoc, List.append_assoc,
    memcpy_at' s _ (store32 a) 64 4 hs rfl, List.drop_left' hc, List.append_assoc,
    List.append_assoc, List.append_assoc]

theorem take72 (s c ln rest : List Nat) (hs : s.length = 64) (hc : c.length = 4)
    (hl : ln.length = 4) :
    (s ++ c ++ ln ++ rest).take (BLAKE2B_OUTBYTES + 8) = s ++ c ++ ln := by
  apply List.take_left'
  rw [List.length_append, List.length_append, hs, hc, hl]
  rfl

theorem take64 (s c ln rest : List Nat) (hs : s.length = 64) :
    (s ++ c ++ ln ++ rest).take 64 = s := by
  rw [List.append_assoc, List.append_assoc]
  exact List.take_left' hs

theorem memcpy_nil (src : List Nat) : memcpy [] 0 src src.length = src := by
  unfold memcpy
  simp

theorem store_bytes_ok (size : Nat) (dst : List Nat) (off : Nat) (src : List Nat)
    (h : off + src.length ≤ size) :
    store_bytes size dst off src = .ok (memcpy dst off src src.length) := by
  unfold store_bytes write_bytes
  rw [if_pos h]

theorem store_bytes_fault (size : Nat) (dst : List Nat) (off : Nat) (src : List Nat)
    (h : size < off + src.length) :
    store_bytes size dst off src = .error Fault.array_index_out_of_range := by
  unfold store_bytes write_bytes
  rw [if_neg (by omega)]

theorem store32_ok (size : Nat) (dst : List Nat) (off w : Nat) (h : off + 4 ≤ size) :
    store_bytes size dst off (store32 w) = .ok (memcpy dst off (store32 w) 4) :=
  store_bytes_ok size dst off (store32 w) h

theorem load_bytes_ok (size : Nat) (src : List Nat) (n : Nat) (h : n ≤ size) :
    load_bytes size src n = .ok (src.take n) := by
  unfold load_bytes read_bytes
  rw [if_pos h]

/-- One iteration of the lane loop of `initialize`, for an array `blockhash`
of at least `BLAKE2B_OUTBYTES + 8` bytes, when both block indices are in
range. -/
theorem initialise_step_sized_ok (size : Nat) (inst : argon2_instance_t) (bh : List Nat)
    (mem : List block) (l : Nat) (hsize : BLAKE2B_OUTBYTES + 8 ≤ size)
    (hbh : 64 ≤ bh.length) (h32 : l * inst.lane_length + 1 < 2 ^ 32)
    (hidx : l * inst.lane_length + 1 < mem.length) :
    ∃ bh', initialise_step_sized size inst (bh, mem) l =
        .ok (bh', (mem.set (l * inst.lane_length)
          (block_of_bytes (blake2b_long ARGON2_BLOCK_SIZE
            (bh.take 64 ++ store32 0 ++ store32 l)))).set (l * inst.lane_length + 1)
          (block_of_bytes (blake2b_long ARGON2_BLOCK_SIZE
            (bh.take 64 ++ store32 1 ++ store32 l)))) ∧
      bh'.take 64 = bh.take 64 ∧ 64 ≤ bh'.length := by
  have hs : (bh.take 64).length = 64 := by rw [List.length_take]; omega
  have hm0 : (l * inst.lane_length) % 2 ^ 32 = l * inst.lane_length :=
    Nat.mod_eq_of_lt (by omega)
  have hm1 : (l * inst.lane_length + 1) % 2 ^ 32 = l * inst.lane_length + 1 :=
    Nat.mod_eq_of_lt h32
  have h64 : BLAKE2B_OUTBYTES + 4 ≤ size := by omega
  have h68 : BLAKE2B_OUTBYTES + 4 + 4 ≤ size := by omega
  refine ⟨bh.take 64 ++ store32 1 ++ store32 l ++ ((bh.drop 64).drop 4).drop 4, ?_,
    take64 _ _ _ _ hs, ?_⟩
  · unfold initialise_step_sized
    simp only [bind, Except.bind, pure, Except.pure, store32_ok size _ _ _ h64,
      store32_ok size _ _ _ h68, load_bytes_ok size _ _ hsize]
    rw [blockhash_two_stores bh 0 l hbh,
      blockhash_third_store _ _ _ _ 1 hs (store32_length 0),
      take72 _ _ _ _ hs (store32_length 0) (store32_length l),
      take72 _ _ _ _ hs (store32_length 1) (store32_length l), hm0, hm1,
      write_block_ok _ _ _ (by omega)]
    simp only []
    rw [write_block_ok _ _ _ (by rw [List.length_set]; exact hidx)]
  · rw [List.length_append, List.length_append, List.length_append, hs]
    omega

/-- With the array of `BLAKE2B_OUTBYTES` bytes that the source declares, the
first statement of the loop body, `store32(blockhash + BLAKE2B_OUTBYTES, 0)`,
is an access outside the array. -/
theorem initialise_step_fault (inst : argon2_instance_t) (st : List Nat × List block)
    (l : Nat) : initialise_step inst st l = .error Fault.array_index_out_of_range := by
  unfold initialise_step initialise_step_sized
  rw [store_bytes_fault _ _ _ _ (by decide)]
  rfl

/-! ## Initialisation of the memory region -/

theorem initial_hash_length (inst : argon2_instance_t) (pwd salt : List Nat) :
    (initial_hash inst pwd salt).length = 64 := by
  rw [initial_hash_eq]
  exact blake2b_length 64 _ (by decide)

/-- The function `initialize` around its lane loop, for an array `blockhash`
of at least `BLAKE2B_OUTBYTES + 8` bytes: the write of the seed digest and the
final `memset` are inside the array. -/
theorem initialise_sized_of_loop (size : Nat) (inst : argon2_instance_t) (pwd salt : List Nat)
    (st : List Nat × List block) (hsize : BLAKE2B_OUTBYTES + 8 ≤ size)
    (hrun : for_loop (initialise_step_sized size inst) inst.lanes 0
      (initial_hash inst pwd salt, inst.memory) = .ok st) :
    initialise_sized size inst pwd salt = .ok (ARGON2_OK, st.2) := by
  have h64 : 0 + (initial_hash inst pwd salt).length ≤ size := by
    rw [initial_hash_length]
    exact Nat.le_trans (by decide) hsize
  have hz : 0 + (List.replicate size 0).length ≤ size := by
    rw [List.length_replicate]
    omega
  unfold initialise_sized
  simp only [bind, Except.bind, pure, Except.pure, store_bytes_ok _ _ _ _ h64, memcpy_nil,
    hrun, store_bytes_ok _ _ _ _ hz]

/-- With the array of `BLAKE2B_OUTBYTES` bytes that the source declares,
every call of `initialize` on an instance with at least one lane stops at the
first store of the lane loop, an access outside the array. -/
theorem initialise_fault (inst : argon2_instance_t) (pwd salt : List Nat)
    (hl : 1 ≤ inst.lanes) :
    initialise inst pwd salt = .error Fault.array_index_out_of_range := by
  have h64 : 0 + (initial_hash inst pwd salt).length ≤ blockhash_size := by
    rw [initial_hash_length]
    decide
  obtain ⟨n, hn⟩ : ∃ n, inst.lanes = n + 1 := ⟨inst.lanes - 1, by omega⟩
  have hstep : ∀ st l, initialise_step_sized blockhash_size inst st l =
      .error Fault.array_index_out_of_range := initialise_step_fault inst
  unfold initialise initialise_sized
  simp only [bind, Except.bind, store_bytes_ok _ _ _ _ h64, hn, for_loop, hstep]

/-- With an array `blockhash` of at least `BLAKE2B_OUTBYTES + 8` bytes:
after `initialize` on a zero-filled memory region of `lanes * lane_length`
blocks (`lane_length ≥ 2`, size below `2^32`), for every lane `l` the block
`memory[l * lane_length]` is `blake2b_long(1024, seed || LE32(0) || LE32(l))`
and `memory[l * lane_length + 1]` is `blake2b_long(1024, seed || LE32(1) ||
LE32(l))`, each read as 128 little-endian words, and every other block is
still zero. -/
theorem initialise_sized_memory (size : Nat) (inst : argon2_instance_t) (pwd salt : List Nat)
    (hsize : BLAKE2B_OUTBYTES + 8 ≤ size) (hll : 2 ≤ inst.lane_length)
    (hmb : inst.memory_blocks = inst.lanes * inst.lane_length)
    (h32 : inst.memory_blocks < 2 ^ 32)
    (hmem : inst.memory = List.replicate inst.memory_blocks zero_block) :
    ∃ mem, initialise_sized size inst pwd salt = .ok (ARGON2_OK, mem) ∧
      mem.length = inst.memory_blocks ∧
      (∀ l, l < inst.lanes →
        mem[l * inst.lane_length]? = some (block_of_bytes (blake2b_long 1024
          (initial_hash inst pwd salt ++ store32 0 ++ store32 l))) ∧
        mem[l * inst.lane_length + 1]? = some (block_of_bytes (blake2b_long 1024
          (initial_hash inst pwd salt ++ store32 1 ++ store32 l)))) ∧
      (∀ j, j < inst.memory_blocks →
        (∀ l, l < inst.lanes → j ≠ l * inst.lane_length ∧ j ≠ l * inst.lane_length + 1) →
        mem[j]? = some zero_block) := by
  have hseed := initial_hash_length inst pwd salt
  have hlane : ∀ l, l < inst.lanes → l * inst.lane_length + inst.lane_length
      ≤ inst.memory_blocks := by
    intro l hl
    rw [hmb, ← Nat.succ_mul]
    exact Nat.mul_le_mul_right _ hl
  have hloop := for_loop_invariant (initialise_step_sized size inst)
    (fun l st => st.1.take 64 = initial_hash inst pwd salt ∧ 64 ≤ st.1.length ∧
      st.2.length = inst.memory_blocks ∧
      (∀ l', l' < l →
        st.2[l' * inst.lane_length]? = some (block_of_bytes (blake2b_long 1024
          (initial_hash inst pwd salt ++ store32 0 ++ store32 l'))) ∧
        st.2[l' * inst.lane_length + 1]? = some (block_of_bytes (blake2b_long 1024
          (initial_hash inst pwd salt ++ store32 1 ++ store32 l')))) ∧
      (∀ j, j < inst.memory_blocks →
        (∀ l', l' < l → j ≠ l' * inst.lane_length ∧ j ≠ l' * inst.lane_length + 1) →
        st.2[j]? = some zero_block))
    inst.lanes 0 (initial_hash inst pwd salt, inst.memory)
    (by
      refine ⟨?_, ?_, ?_, ?_, ?_⟩
      · exact List.take_of_length_le (by rw [hseed])
      · rw [hseed]
      · rw [hmem, List.length_replicate]
      · intro l' hl'; omega
      · intro j hj _
        rw [hmem]
        exact List.getElem?_replicate_of_lt hj)
    (by
      intro l st _ hl ⟨hs, hlen, hml, hdone, hzero⟩
      obtain ⟨bh, mem⟩ := st
      simp only at hs hlen hml hdone hzero
      have hl' : l < inst.lanes := by omega
      have hb := hlane l hl'
      obtain ⟨bh', hstep, htake, hlen'⟩ := initialise_step_sized_ok size inst bh mem l hsize hlen
        (by omega) (by omega)
      rw [hs] at hstep htake
      refine ⟨_, hstep, htake, hlen', ?_, ?_, ?_⟩
      · simp only [List.length_set]; exact hml
      · intro l2 hl2
        by_cases h2 : l2 = l
        · subst h2
          simp only []
          rw [List.getElem?_set_ne (by omega),
            List.getElem?_set_self (by omega),
            List.getElem?_set_self (by rw [List.length_set]; omega)]
          exact ⟨rfl, rfl⟩
        · have hl2' : l2 < l := by omega
          have hb2 : l2 * inst.lane_length + inst.lane_length ≤ l * inst.lane_length := by
            rw [← Nat.succ_mul]
            exact Nat.mul_le_mul_right _ hl2'
          simp only []
          rw [List.getElem?_set_ne (by omega), List.getElem?_set_ne (by omega),
            List.getElem?_set_ne (by omega), List.getElem?_set_ne (by omega)]
          exact hdone l2 hl2'
      · intro j hj hne
        have hj0 := hne l (by omega)
        simp only []
        rw [List.getElem?_set_ne (by omega), List.getElem?_set_ne (by omega)]
        exact hzero j hj (fun l2 hl2 => hne l2 (by omega)))
  rw [Nat.zero_add] at hloop
  obtain ⟨st, hrun, _, _, hml, hdone, hzero⟩ := hloop
  refine ⟨st.2, ?_, hml, ?_, hzero⟩
  · exact initialise_sized_of_loop size inst pwd salt st hsize hrun
  · intro l hl
    exact hdone l (by omega)

/-- C10 (failing input): on the instance that `argon2id_hash_raw(1, 8, 1,
...)` passes to `initialize` (one lane of eight zeroed blocks), with an empty
password and a salt of 8 zero bytes, `initialize` does not leave the two seed
blocks in the region: its first store in the lane loop, `store32(blockhash +
BLAKE2B_OUTBYTES, 0)`, is outside the 64-byte array `blockhash`, and the call
stops there, at an access outside the array.  With an array of
`BLAKE2B_OUTBYTES + 8` bytes the call returns `ARGON2_OK` and leaves the
region as claimed: the two seed blocks at the head of the lane and zero
blocks elsewhere. -/
theorem initialise_seed_blocks_fault :
    blockhash_size = 64 ∧
    (derive_instance 1 8 1).map
        (fun inst => { inst with memory := List.replicate inst.memory_blocks zero_block }) =
      .ok small_instance ∧
    initialise small_instance [] (List.replicate 8 0) =
      .error Fault.array_index_out_of_range ∧
    ∃ mem, initialise_sized (BLAKE2B_OUTBYTES + 8) small_instance [] (List.replicate 8 0) =
        .ok (ARGON2_OK, mem) ∧
      mem.length = 8 ∧
      mem[0]? = some (block_of_bytes (blake2b_long 1024
        (initial_hash small_instance [] (List.replicate 8 0) ++ store32 0 ++ store32 0))) ∧
      mem[1]? = some (block_of_bytes (blake2b_long 1024
        (initial_hash small_instance [] (List.replicate 8 0) ++ store32 1 ++ store32 0))) ∧
      ∀ j, 2 ≤ j → j < 8 → mem[j]? = some zero_block := by
  refine ⟨rfl, rfl, initialise_fault _ _ _ (by decide), ?_⟩
  obtain ⟨mem, hrun, hlen, hseed, hzero⟩ :=
    initialise_sized_memory (BLAKE2B_OUTBYTES + 8) small_instance [] (List.replicate 8 0)
      (Nat.le_refl _) (by decide) (by decide) (by decide) rfl
  have h0 := hseed 0 (by decide)
  refine ⟨mem, hrun, hlen, h0.1, h0.2, ?_⟩
  intro j h2 h8
  refine hzero j h8 ?_
  intro l hl
  have hl0 : l = 0 := by
    have : l < 1 := hl
    omega
  subst hl0
  have h10 : 0 * small_instance.lane_length = 0 := by decide
  rw [h10]
  omega

/-! ## Segment filling stays inside the memory region -/

theorem index_alpha_ok (inst : argon2_instance_t) (position : argon2_position_t)
    (pseudo_rand : Nat) (same_lane : Bool) (hll : inst.lane_length ≠ 0) :
    ∃ r, index_alpha inst position pseudo_rand same_lane = .ok r ∧ r < inst.lane_length := by
  unfold index_alpha
  simp only []
  rw [if_neg hll]
  exact ⟨_, rfl, Nat.mod_lt _ (Nat.pos_of_ne_zero hll)⟩

theorem read_block_lt (memory : List block) (i : Nat) (h : i < memory.length) :
    ∃ b, read_block memory i = .ok b := by
  unfold read_block
  rw [List.get?_eq_getElem?, List.getElem?_eq_getElem h]
  exact ⟨_, rfl⟩

theorem segment_pseudo_rand_ok (di : Bool) (s : segment_state) (prev_offset i : Nat)
    (h : prev_offset < s.memory.length) :
    ∃ r, segment_pseudo_rand di s prev_offset i = .ok r := by
  unfold segment_pseudo_rand
  obtain ⟨b, hb⟩ := read_block_lt s.memory prev_offset h
  by_cases hdi : di = true
  · rw [if_pos hdi]; exact ⟨_, rfl⟩
  · rw [if_neg hdi, hb]; exact ⟨_, rfl⟩

theorem segment_reference_ok (inst : argon2_instance_t) (position : argon2_position_t)
    (pseudo_rand i : Nat) (hll : inst.lane_length ≠ 0) (hlane : position.lane < inst.lanes) :
    ∃ r, segment_reference inst position pseudo_rand i = .ok r ∧
      r.1 < inst.lanes ∧ r.2 < inst.lane_length := by
  have hlanes0 : inst.lanes ≠ 0 := by omega
  unfold segment_reference
  rw [if_neg hlanes0]
  simp only []
  generalize hrl : (if position.pass = 0 ∧ position.slice = 0 then position.lane
      else pseudo_rand >>> 32 % 2 ^ 32 % inst.lanes) = ref_lane
  have hrl' : ref_lane < inst.lanes := by
    rw [← hrl]
    by_cases h0 : position.pass = 0 ∧ position.slice = 0
    · rw [if_pos h0]; exact hlane
    · rw [if_neg h0]; exact Nat.mod_lt _ (Nat.pos_of_ne_zero hlanes0)
  obtain ⟨ri, hri, hrilt⟩ := index_alpha_ok inst
    { pass := position.pass, lane := position.lane, slice := position.slice, index := i }
    (pseudo_rand % 2 ^ 32) (ref_lane == position.lane) hll
  rw [hri]
  exact ⟨_, rfl, hrl', hrilt⟩

/-- One iteration of the loop of `fill_segment` runs without fault when the
current block, and the previous block it will use, are inside the region. -/
theorem fill_segment_step_ok (inst : argon2_instance_t) (position : argon2_position_t)
    (di : Bool) (s : segment_state) (i N : Nat)
    (hll : inst.lane_length ≠ 0) (hlane : position.lane < inst.lanes)
    (hN : inst.lanes * inst.lane_length = N) (hN32 : N < 2 ^ 32)
    (hmem : s.memory.length = N) (hcurr : s.curr_offset < N)
    (hprev : s.curr_offset % inst.lane_length = 1 ∨ s.prev_offset < N) :
    ∃ s', fill_segment_step inst position di s i = .ok s' ∧
      s'.memory.length = N ∧
      s'.curr_offset = s.curr_offset + 1 ∧
      s'.prev_offset =
        ((if s.curr_offset % inst.lane_length = 1 then s.curr_offset - 1
          else s.prev_offset) + 1) % 2 ^ 32 ∧
      (if s.curr_offset % inst.lane_length = 1 then s.curr_offset - 1
          else s.prev_offset) < N := by
  -- the previous block
  have hprev' : (if s.curr_offset % inst.lane_length = 1
      then (s.curr_offset + (2 ^ 32 - 1)) % 2 ^ 32 else s.prev_offset) =
      (if s.curr_offset % inst.lane_length = 1 then s.curr_offset - 1 else s.prev_offset) := by
    by_cases h1 : s.curr_offset % inst.lane_length = 1
    · rw [if_pos h1, if_pos h1]
      have : 1 ≤ s.curr_offset := by
        rcases Nat.eq_zero_or_pos s.curr_offset with h0 | h0
        · rw [h0, Nat.zero_mod] at h1; omega
        · exact h0
      omega
    · rw [if_neg h1, if_neg h1]
  have hprevlt : (if s.curr_offset % inst.lane_length = 1 then s.curr_offset - 1
      else s.prev_offset) < N := by
    by_cases h1 : s.curr_offset % inst.lane_length = 1
    · rw [if_pos h1]; omega
    · rw [if_neg h1]
      rcases hprev with h | h
      · exact absurd h h1
      · exact h
  generalize hp : (if s.curr_offset % inst.lane_length = 1 then s.curr_offset - 1
      else s.prev_offset) = prev at hprev' hprevlt
  obtain ⟨pb, hpb⟩ := read_block_lt s.memory prev (by omega)
  obtain ⟨cb, hcb⟩ := read_block_lt s.memory s.curr_offset (by omega)
  obtain ⟨pr, hpr⟩ := segment_pseudo_rand_ok di s prev i (by omega)
  obtain ⟨r, hr, hr1, hr2⟩ := segment_reference_ok inst position pr.2.2 i hll hlane
  have hroff : r.1 * inst.lane_length + r.2 < N := by
    have h1 : r.1 * inst.lane_length + inst.lane_length ≤ inst.lanes * inst.lane_length := by
      rw [← Nat.succ_mul]
      exact Nat.mul_le_mul_right _ hr1
    omega
  obtain ⟨rb, hrb⟩ := read_block_lt s.memory ((r.1 * inst.lane_length + r.2) % 2 ^ 32)
    (by rw [Nat.mod_eq_of_lt (by omega)]; omega)
  unfold fill_segment_step
  simp only [bind, Except.bind, pure, Except.pure, hprev', hpb, hpr, hr, hrb, hcb]
  rw [if_neg hll, write_block_ok _ _ _ (by omega)]
  refine ⟨_, rfl, ?_, ?_, rfl, ?_⟩
  · simp only [List.length_set]; exact hmem
  · exact Nat.mod_eq_of_lt (by omega)
  · exact hprevlt

theorem add_one_mod_of_mod_zero (c n : Nat) (hn : 2 ≤ n) (h : c % n = 0) : (c + 1) % n = 1 := by
  rw [Nat.add_mod, h, Nat.zero_add, Nat.mod_mod, Nat.mod_eq_of_lt hn]

/-- The function `fill_segment` runs without fault on every instance whose lanes consist
of four segments and tile a region of fewer than `2^32` blocks, for every
content of the region; the region keeps its size. -/
theorem fill_segment_ok (inst : argon2_instance_t) (position : argon2_position_t) (N : Nat)
    (hsl : 1 ≤ inst.segment_length) (hll : inst.lane_length = 4 * inst.segment_length)
    (hN : inst.lanes * inst.lane_length = N) (hN32 : N < 2 ^ 32)
    (hmem : inst.memory.length = N) (hlane : position.lane < inst.lanes)
    (hslice : position.slice < 4) :
    ∃ mem, fill_segment inst position = .ok mem ∧ mem.length = N := by
  have hll0 : inst.lane_length ≠ 0 := by omega
  have hlaneN : position.lane * inst.lane_length + inst.lane_length ≤ N := by
    rw [← hN, ← Nat.succ_mul]
    exact Nat.mul_le_mul_right _ hlane
  have hslice3 : position.slice * inst.segment_length ≤ 3 * inst.segment_length :=
    Nat.mul_le_mul_right _ (by omega)
  have hstart : (if decide (position.pass = 0 ∧ position.slice = 0) = true then 2 else 0) = 0 ∨
      ((if decide (position.pass = 0 ∧ position.slice = 0) = true then 2 else 0) = 2 ∧
        position.slice = 0) := by
    by_cases h : position.pass = 0 ∧ position.slice = 0
    · right; simp [h]
    · left; simp [h]
  unfold fill_segment
  simp only [bind, Except.bind, pure, Except.pure]
  rw [if_neg hll0]
  generalize (if decide (position.pass = 0 ∧ position.slice = 0) = true then 2 else 0) = start
    at hstart ⊢
  generalize decide (inst.type = Argon2_i ∨ inst.type = Argon2_id ∧ position.pass = 0 ∧
    position.slice < ARGON2_SYNC_POINTS / 2) = di
  generalize (if decide (position.pass = 0 ∧ position.slice = 0) = true ∧ di = true then
      next_addresses (if di = true then
        (((((List.set zero_block 0 position.pass).set 1 position.lane).set 2
          position.slice).set 3 inst.memory_blocks).set 4 inst.passes).set 5 inst.type
        else zero_block) zero_block
    else (if di = true then
        (((((List.set zero_block 0 position.pass).set 1 position.lane).set 2
          position.slice).set 3 inst.memory_blocks).set 4 inst.passes).set 5 inst.type
        else zero_block, zero_block)) = ab
  -- the lane-relative index of the first block written is below `lane_length`
  have hc0 : position.slice * inst.segment_length + start < inst.lane_length := by
    rcases hstart with h | ⟨h, h0⟩
    · omega
    · rw [h, h0]; omega
  have hcurr0 : (position.lane * inst.lane_length + position.slice * inst.segment_length
      + start) % 2 ^ 32 = position.lane * inst.lane_length +
        position.slice * inst.segment_length + start := Nat.mod_eq_of_lt (by omega)
  rw [hcurr0]
  have hmod0 : (position.lane * inst.lane_length + position.slice * inst.segment_length
      + start) % inst.lane_length = position.slice * inst.segment_length + start := by
    rw [Nat.add_assoc, Nat.mul_comm, Nat.mul_add_mod, Nat.mod_eq_of_lt hc0]
  rw [hmod0]
  have hloop := for_loop_invariant (fill_segment_step inst position di)
    (fun k s => s.memory.length = N ∧
      s.curr_offset = position.lane * inst.lane_length +
        position.slice * inst.segment_length + k ∧
      (s.curr_offset % inst.lane_length = 1 ∨
        (s.curr_offset % inst.lane_length = 0 ∧ s.prev_offset < N) ∨
        s.prev_offset + 1 = s.curr_offset))
    (inst.segment_length - start) start
    { memory := inst.memory, input_block := ab.1, address_block := ab.2,
      curr_offset := position.lane * inst.lane_length +
        position.slice * inst.segment_length + start,
      prev_offset :=
        if position.slice * inst.segment_length + start = 0 then
          ((position.lane * inst.lane_length + position.slice * inst.segment_length + start
            + (2 ^ 32 - 1)) % 2 ^ 32 + inst.lane_length) % 2 ^ 32
        else (position.lane * inst.lane_length + position.slice * inst.segment_length + start
            + (2 ^ 32 - 1)) % 2 ^ 32 }
    (by
      refine ⟨hmem, rfl, ?_⟩
      simp only []
      rw [hmod0]
      by_cases h0 : position.slice * inst.segment_length + start = 0
      · right; left
        refine ⟨h0, ?_⟩
        rw [if_pos h0]
        omega
      · right; right
        rw [if_neg h0]
        omega)
    (by
      intro k s hk hk' ⟨hsm, hsc, hsp⟩
      have hk2 : k < inst.segment_length := by omega
      have hcurr : s.curr_offset < N := by rw [hsc]; omega
      obtain ⟨s', hs', hm', hc', hp', hplt⟩ := fill_segment_step_ok inst position di s k N
        hll0 hlane hN hN32 hsm hcurr
        (by
          rcases hsp with h | ⟨_, h⟩ | h
          · exact Or.inl h
          · exact Or.inr h
          · exact Or.inr (by omega))
      refine ⟨s', hs', hm', by rw [hc', hsc]; rfl, ?_⟩
      by_cases h1 : s.curr_offset % inst.lane_length = 1
      · right; right
        rw [if_pos h1] at hp' hplt
        have : 1 ≤ s.curr_offset := by
          rcases Nat.eq_zero_or_pos s.curr_offset with h0 | h0
          · rw [h0, Nat.zero_mod] at h1; omega
          · exact h0
        rw [hp', hc']
        omega
      · rw [if_neg h1] at hp' hplt
        rcases hsp with h | ⟨h, _⟩ | h
        · exact absurd h h1
        · left
          rw [hc']
          exact add_one_mod_of_mod_zero _ _ (by omega) h
        · right; right
          rw [hp', hc']
          omega)
  obtain ⟨s', hrun, hm', _⟩ := hloop
  rw [hrun]
  exact ⟨s'.memory, rfl, hm'⟩

/-! ## The whole run -/

theorem blake2b_long_length (outlen : Nat) (inp : List Nat) :
    (blake2b_long outlen inp).length = outlen := by
  by_cases h : outlen ≤ 64
  · rw [blake2b_long_short outlen inp h,
      final_length _ (by rw [update_outlen, update_outlen]; exact h), update_outlen,
      update_outlen]
    rfl
  · rw [blake2b_long_long outlen inp h, long_loop_spec _ _ _ _ (Nat.le_refl _) (by omega)]
    simp only []
    rw [List.length_append, List.length_append, List.length_take,
      final_length _ (by rw [update_outlen, update_outlen]; exact Nat.le_refl _),
      update_outlen, update_outlen,
      flatten_take32_length _ (fun i => (blake2b 64)^[i + 1] _)
        (fun i => by
          show ((blake2b 64)^[i + 1] _).length = 64
          rw [Function.iterate_succ_apply']
          exact blake2b_length 64 _ (by decide)),
      blake2b_length _ _ (by show _ ≤ 64; omega)]
    show min 32 64 + _ + _ = _
    omega

/-- With an array `blockhash` of at least `BLAKE2B_OUTBYTES + 8` bytes,
`initialize` returns `ARGON2_OK` without fault. -/
theorem initialise_ok (size : Nat) (inst : argon2_instance_t) (pwd salt : List Nat) (N : Nat)
    (hsize : BLAKE2B_OUTBYTES + 8 ≤ size)
    (hll : 2 ≤ inst.lane_length) (hN : inst.lanes * inst.lane_length = N)
    (hN32 : N < 2 ^ 32) (hmem : inst.memory.length = N) :
    ∃ mem, initialise_sized size inst pwd salt = .ok (ARGON2_OK, mem) ∧ mem.length = N := by
  have hloop := for_loop_invariant (initialise_step_sized size inst)
    (fun _ st => 64 ≤ st.1.length ∧ st.2.length = N)
    inst.lanes 0 (initial_hash inst pwd salt, inst.memory)
    ⟨by rw [initial_hash_length], hmem⟩
    (by
      intro l st _ hl ⟨hlen, hml⟩
      obtain ⟨bh, mem⟩ := st
      simp only at hlen hml
      have hb : l * inst.lane_length + inst.lane_length ≤ N := by
        rw [← hN, ← Nat.succ_mul]
        exact Nat.mul_le_mul_right _ (by omega)
      obtain ⟨bh', hstep, _, hlen'⟩ := initialise_step_sized_ok size inst bh mem l hsize hlen
        (by omega) (by omega)
      refine ⟨_, hstep, hlen', ?_⟩
      simp only [List.length_set]
      exact hml)
  obtain ⟨st, hrun, _, hml⟩ := hloop
  exact ⟨st.2, initialise_sized_of_loop size inst pwd salt st hsize hrun, hml⟩

theorem finalize_ok (inst : argon2_instance_t) (outlen N : Nat)
    (hll : 1 ≤ inst.lane_length) (hlanes : 1 ≤ inst.lanes)
    (hN : inst.lanes * inst.lane_length = N)
    (hN32 : N < 2 ^ 32) (hmem : inst.memory.length = N) :
    ∃ out, finalize inst outlen = .ok out ∧ out.length = outlen := by
  have hll0 : inst.lane_length ≠ 0 := by omega
  have hlane : ∀ l, l < inst.lanes → l * inst.lane_length + inst.lane_length ≤ N := by
    intro l hl
    rw [← hN, ← Nat.succ_mul]
    exact Nat.mul_le_mul_right _ hl
  have h0 := hlane 0 (by omega)
  obtain ⟨b, hb⟩ := read_block_lt inst.memory (inst.lane_length - 1) (by omega)
  have hloop := for_loop_invariant (finalize_step inst) (fun _ _ => True)
    (inst.lanes - 1) 1 (copy_block zero_block b) trivial
    (by
      intro l blockhash hl1 hl2 _
      have hl := hlane l (by omega)
      have hm : (l * inst.lane_length) % 2 ^ 32 = l * inst.lane_length :=
        Nat.mod_eq_of_lt (by omega)
      obtain ⟨b', hb'⟩ := read_block_lt inst.memory
        (l * inst.lane_length + inst.lane_length - 1) (by omega)
      refine ⟨xor_block blockhash b', ?_, trivial⟩
      unfold finalize_step
      simp only [bind, Except.bind, pure, Except.pure, hm, hb']
      rw [if_neg (by omega)])
  obtain ⟨bh, hrun, _⟩ := hloop
  refine ⟨blake2b_long outlen (block_bytes bh), ?_, blake2b_long_length _ _⟩
  unfold finalize
  simp only [bind, Except.bind, pure, Except.pure, hb, hrun]
  rw [if_neg hll0]

/-- All passes over the memory region run without fault. -/
theorem passes_ok (inst : argon2_instance_t) (N : Nat)
    (hsl : 1 ≤ inst.segment_length) (hll : inst.lane_length = 4 * inst.segment_length)
    (hN : inst.lanes * inst.lane_length = N) (hN32 : N < 2 ^ 32)
    (mem : List block) (hmem : mem.length = N) :
    ∃ mem', for_loop (pass_step inst) inst.passes 0 mem = .ok mem' ∧ mem'.length = N := by
  have hlanes : ∀ pass slice, slice < 4 → ∀ m : List block, m.length = N →
      ∃ m', slice_step inst pass m slice = .ok m' ∧ m'.length = N := by
    intro pass slice hs m hm
    have h := for_loop_invariant (lane_step inst pass slice) (fun _ m => m.length = N)
      inst.lanes 0 m hm
      (by
        intro lane m1 _ hl hm1
        exact fill_segment_ok { inst with memory := m1 }
          { pass := pass, lane := lane, slice := slice, index := 0 } N hsl hll hN hN32 hm1
          (by simpa using hl) hs)
    obtain ⟨m', hrun, hm'⟩ := h
    exact ⟨m', hrun, hm'⟩
  have hslices : ∀ pass, ∀ m : List block, m.length = N →
      ∃ m', pass_step inst m pass = .ok m' ∧ m'.length = N := by
    intro pass m hm
    have h := for_loop_invariant (slice_step inst pass) (fun _ m => m.length = N)
      ARGON2_SYNC_POINTS 0 m hm
      (by
        intro slice m1 _ hs hm1
        exact hlanes pass slice (by simpa [ARGON2_SYNC_POINTS] using hs) m1 hm1)
    obtain ⟨m', hrun, hm'⟩ := h
    exact ⟨m', hrun, hm'⟩
  have h := for_loop_invariant (pass_step inst) (fun _ m => m.length = N)
    inst.passes 0 mem hmem
    (by
      intro pass m1 _ _ hm1
      exact hslices pass m1 hm1)
  obtain ⟨m', hrun, hm'⟩ := h
  exact ⟨m', hrun, hm'⟩

/-- With an array `blockhash` of at least `BLAKE2B_OUTBYTES + 8` bytes and
where `8 * parallelism` does not wrap (`8 * parallelism ≤ m_cost < 2^32`),
every call that passes the other checks runs to completion without fault, for
every `m_cost` (multiple of `4 * parallelism` or not), and returns `ARGON2_OK`
with exactly `hashlen` output bytes. -/
theorem hash_raw_ok_without_wrap (size t m p : Nat) (pwd salt : List Nat) (hashlen : Nat)
    (hsize : BLAKE2B_OUTBYTES + 8 ≤ size)
    (h1 : 4 ≤ hashlen) (h2 : 8 ≤ salt.length) (h3 : 1 ≤ t)
    (hm32 : m < 2 ^ 32) (hm : 8 * p ≤ m) (hp1 : 1 ≤ p) :
    ∃ out, argon2id_hash_raw_sized size t m p pwd salt false hashlen true =
        .ok (ARGON2_OK, out) ∧
      out.length = hashlen := by
  have hp : 8 * p < 2 ^ 32 := by omega
  have hv : validate t m p salt.length false hashlen = none := by
    unfold validate
    rw [Nat.mod_eq_of_lt hp]
    simp [Nat.not_lt.mpr h1, Nat.not_lt.mpr h2, Nat.not_lt.mpr h3, Nat.not_lt.mpr hm,
      Nat.not_lt.mpr hp1]
  obtain ⟨inst, hd, hlanes, hpasses, _, _, hseg, hll, hmb, hle⟩ :=
    derive_instance_without_wrap t m p salt.length hashlen false hm32 hp hv
  have hN : inst.lanes * inst.lane_length = inst.memory_blocks := by
    rw [hll, hmb, Nat.mul_comm 4, ← Nat.mul_assoc, Nat.mul_comm inst.lanes]
  have hN32 : inst.memory_blocks < 2 ^ 32 := by omega
  obtain ⟨mem1, hi, hl1⟩ := initialise_ok size
    { inst with memory := List.replicate inst.memory_blocks zero_block } pwd salt
    inst.memory_blocks hsize (by show 2 ≤ inst.lane_length; omega) hN hN32
    (List.length_replicate _ _)
  obtain ⟨mem2, hpass, hl2⟩ := passes_ok
    { inst with memory := mem1 } inst.memory_blocks
    (by show 1 ≤ inst.segment_length; omega) hll hN hN32 mem1 hl1
  obtain ⟨out, hfin, hout⟩ := finalize_ok { inst with memory := mem2 } hashlen
    inst.memory_blocks (by show 1 ≤ inst.lane_length; omega)
    (by show 1 ≤ inst.lanes; omega) hN hN32 hl2
  refine ⟨out, ?_, hout⟩
  unfold argon2id_hash_raw_sized
  rw [hv]
  simp only [bind, Except.bind, pure, Except.pure, hd, hi]
  simp only [Bool.not_true, Bool.false_eq_true, if_false, ne_eq, not_true_eq_false]
  rw [hpass]
  simp only []
  rw [hfin]

/-- With the array of `BLAKE2B_OUTBYTES` bytes that the source declares and
where `8 * parallelism` does not wrap, every call that passes the checks and
whose allocation succeeds stops in `initialize`, at the first store of the
lane loop, an access outside the array. -/
theorem hash_raw_fault_without_wrap (t m p : Nat) (pwd salt : List Nat) (hashlen : Nat)
    (h1 : 4 ≤ hashlen) (h2 : 8 ≤ salt.length) (h3 : 1 ≤ t)
    (hm32 : m < 2 ^ 32) (hm : 8 * p ≤ m) (hp1 : 1 ≤ p) :
    argon2id_hash_raw t m p pwd salt false hashlen true =
      .error Fault.array_index_out_of_range := by
  have hp : 8 * p < 2 ^ 32 := by omega
  have hv : validate t m p salt.length false hashlen = none := by
    unfold validate
    rw [Nat.mod_eq_of_lt hp]
    simp [Nat.not_lt.mpr h1, Nat.not_lt.mpr h2, Nat.not_lt.mpr h3, Nat.not_lt.mpr hm,
      Nat.not_lt.mpr hp1]
  obtain ⟨inst, hd, hlanes, _⟩ :=
    derive_instance_without_wrap t m p salt.length hashlen false hm32 hp hv
  have hi := initialise_fault
    { inst with memory := List.replicate inst.memory_blocks zero_block } pwd salt
    (by show 1 ≤ inst.lanes; omega)
  unfold initialise at hi
  unfold argon2id_hash_raw argon2id_hash_raw_sized
  rw [hv]
  simp only [bind, Except.bind, pure, Except.pure, hd, hi]
  rfl

/-! ## The named parts are the parts of the functions -/

theorem index_alpha_eq (inst : argon2_instance_t) (position : argon2_position_t)
    (pseudo_rand : Nat) (same_lane : Bool) :
    index_alpha inst position pseudo_rand same_lane =
      if inst.lane_length = 0 then .error Fault.division_by_zero
      else .ok (((start_position inst position +
        relative_position (reference_area_size inst position same_lane) pseudo_rand)
          % 2 ^ 32) % inst.lane_length) := rfl

theorem fill_segment_eq (inst : argon2_instance_t) (position : argon2_position_t) :
    fill_segment inst position =
      if inst.lane_length = 0 then .error Fault.division_by_zero
      else
        (for_loop
          (fill_segment_step inst position (segment_data_independent inst position))
          (inst.segment_length - segment_starting_index position)
          (segment_starting_index position) (segment_start inst position)).bind
          (fun s => .ok s.memory) := rfl

/-! ## The loop of `fill_segment`, iteration by iteration -/

theorem segment_config_bounds (inst : argon2_instance_t) (position : argon2_position_t)
    (N : Nat) (hc : segment_config inst position N) :
    position.lane * inst.lane_length + inst.lane_length ≤ N ∧
    position.slice * inst.segment_length + inst.segment_length ≤ inst.lane_length ∧
    (segment_starting_index position = 0 ∨
      (segment_starting_index position = 2 ∧ position.pass = 0 ∧ position.slice = 0)) := by
  obtain ⟨hsl, hll, hN, hN32, hlane, hslice⟩ := hc
  refine ⟨?_, ?_, ?_⟩
  · rw [← hN, ← Nat.succ_mul]
    exact Nat.mul_le_mul_right _ hlane
  · have : position.slice * inst.segment_length ≤ 3 * inst.segment_length :=
      Nat.mul_le_mul_right _ (by omega)
    omega
  · unfold segment_starting_index
    by_cases h : position.pass = 0 ∧ position.slice = 0
    · right; simp [h]
    · left; simp [h]

theorem lane_offset_mod (a n c : Nat) (h : c < n) : (a * n + c) % n = c := by
  rw [Nat.mul_comm, Nat.mul_add_mod, Nat.mod_eq_of_lt h]

theorem cyclic_pred (c n : Nat) (hn : 1 ≤ n) (hc : c < n) :
    (c + n - 1) % n = if c = 0 then n - 1 else c - 1 := by
  by_cases h0 : c = 0
  · subst h0
    rw [if_pos rfl, Nat.zero_add, Nat.mod_eq_of_lt (by omega)]
  · rw [if_neg h0, show c + n - 1 = n + (c - 1) by omega, Nat.add_mod_left,
      Nat.mod_eq_of_lt (by omega)]

/-- Under the loop invariant, the previous block that the iteration uses is
the cyclic predecessor of the current block in its lane. -/
theorem step_prev_offset_of_inv (inst : argon2_instance_t) (position : argon2_position_t)
    (N k : Nat) (s : segment_state) (hc : segment_config inst position N)
    (hk : k < inst.segment_length) (hinv : segment_inv inst position N k s) :
    s.curr_offset % inst.lane_length = position.slice * inst.segment_length + k ∧
    s.curr_offset < N ∧
    step_prev_offset inst s = position.lane * inst.lane_length +
      (position.slice * inst.segment_length + k + inst.lane_length - 1) % inst.lane_length ∧
    step_prev_offset inst s < N ∧
    (position.slice * inst.segment_length + k ≠ 0 →
      step_prev_offset inst s + 1 = s.curr_offset) := by
  obtain ⟨hb1, hb2, _⟩ := segment_config_bounds inst position N hc
  obtain ⟨hsl, hll, hN, hN32, hlane, hslice⟩ := hc
  obtain ⟨hm, hcur, hp0, hp2⟩ := hinv
  have hclt : position.slice * inst.segment_length + k < inst.lane_length := by omega
  have hmod : s.curr_offset % inst.lane_length = position.slice * inst.segment_length + k := by
    rw [hcur, Nat.add_assoc]
    exact lane_offset_mod _ _ _ hclt
  have hcp := cyclic_pred _ _ (by omega : 1 ≤ inst.lane_length) hclt
  refine ⟨hmod, by omega, ?_, ?_, ?_⟩
  · unfold step_prev_offset
    rw [hmod, hcp]
    by_cases h1 : position.slice * inst.segment_length + k = 1
    · rw [if_pos h1, if_neg (by omega)]
      omega
    · rw [if_neg h1]
      by_cases h0 : position.slice * inst.segment_length + k = 0
      · rw [if_pos h0, hp0 h0]
        omega
      · rw [if_neg h0]
        have := hp2 (by omega)
        omega
  · unfold step_prev_offset
    rw [hmod]
    by_cases h1 : position.slice * inst.segment_length + k = 1
    · rw [if_pos h1]; omega
    · rw [if_neg h1]
      by_cases h0 : position.slice * inst.segment_length + k = 0
      · rw [hp0 h0]; omega
      · have := hp2 (by omega)
        omega
  · intro hne
    unfold step_prev_offset
    rw [hmod]
    by_cases h1 : position.slice * inst.segment_length + k = 1
    · rw [if_pos h1]; omega
    · rw [if_neg h1]
      exact hp2 (by omega)

/-- The loop invariant holds on entry to the loop. -/
theorem segment_inv_start (inst : argon2_instance_t) (position : argon2_position_t)
    (N : Nat) (hc : segment_config inst position N) (hmem : inst.memory.length = N) :
    segment_inv inst position N (segment_starting_index position)
      (segment_start inst position) := by
  obtain ⟨hb1, hb2, hst⟩ := segment_config_bounds inst position N hc
  obtain ⟨hsl, hll, hN, hN32, hlane, hslice⟩ := hc
  have hstart : segment_starting_index position =
      (if decide (position.pass = 0 ∧ position.slice = 0) = true then 2 else 0) := rfl
  have hc0 : position.slice * inst.segment_length + segment_starting_index position
      < inst.lane_length := by
    rcases hst with h | ⟨h, _, h0⟩
    · omega
    · rw [h, h0]; omega
  have hcurr : (segment_start inst position).curr_offset =
      position.lane * inst.lane_length + position.slice * inst.segment_length +
        segment_starting_index position := by
    show (position.lane * inst.lane_length + position.slice * inst.segment_length +
      (if decide (position.pass = 0 ∧ position.slice = 0) = true then 2 else 0)) % 2 ^ 32 = _
    rw [← hstart]
    exact Nat.mod_eq_of_lt (by omega)
  have hprev : (segment_start inst position).prev_offset =
      if (segment_start inst position).curr_offset % inst.lane_length = 0 then
        (((segment_start inst position).curr_offset + (2 ^ 32 - 1)) % 2 ^ 32
          + inst.lane_length) % 2 ^ 32
      else ((segment_start inst position).curr_offset + (2 ^ 32 - 1)) % 2 ^ 32 := rfl
  have hmod : (segment_start inst position).curr_offset % inst.lane_length =
      position.slice * inst.segment_length + segment_starting_index position := by
    rw [hcurr, Nat.add_assoc]
    exact lane_offset_mod _ _ _ hc0
  refine ⟨hmem, hcurr, ?_, ?_⟩
  · intro h0
    rw [hprev, hmod, if_pos h0, hcurr]
    omega
  · intro h2
    rw [hprev, hmod, if_neg (by omega), hcurr]
    omega

/-- One iteration of the loop of `fill_segment` under the loop invariant: what
it reads, what it selects, the state it leaves, and the invariant after
it. -/
theorem segment_inv_step (inst : argon2_instance_t) (position : argon2_position_t)
    (di : Bool) (N k : Nat) (s : segment_state) (hc : segment_config inst position N)
    (hk : k < inst.segment_length) (hinv : segment_inv inst position N k s) :
    ∃ pr r pb rb cb,
      segment_pseudo_rand di s (step_prev_offset inst s) k = .ok pr ∧
      segment_reference inst position pr.2.2 k = .ok r ∧
      step_reference inst position di s k = .ok r ∧
      r.1 < inst.lanes ∧ r.2 < inst.lane_length ∧
      (r.1 * inst.lane_length + r.2) % 2 ^ 32 = r.1 * inst.lane_length + r.2 ∧
      r.1 * inst.lane_length + r.2 < N ∧
      read_block s.memory (step_prev_offset inst s) = .ok pb ∧
      read_block s.memory (r.1 * inst.lane_length + r.2) = .ok rb ∧
      read_block s.memory s.curr_offset = .ok cb ∧
      fill_segment_step inst position di s k =
        .ok { memory := s.memory.set s.curr_offset
                (fill_block pb rb cb (if position.pass ≠ 0 then 1 else 0)),
              input_block := pr.1, address_block := pr.2.1,
              curr_offset := s.curr_offset + 1,
              prev_offset := step_prev_offset inst s + 1 } ∧
      segment_inv inst position N (k + 1)
        { memory := s.memory.set s.curr_offset
            (fill_block pb rb cb (if position.pass ≠ 0 then 1 else 0)),
          input_block := pr.1, address_block := pr.2.1,
          curr_offset := s.curr_offset + 1,
          prev_offset := step_prev_offset inst s + 1 } := by
  obtain ⟨hmod, hcurr, hprev, hprevlt, hprev1⟩ :=
    step_prev_offset_of_inv inst position N k s hc hk hinv
  obtain ⟨hsl, hll, hN, hN32, hlane, hslice⟩ := hc
  obtain ⟨hm, hcur, hp0, hp2⟩ := hinv
  have hll0 : inst.lane_length ≠ 0 := by omega
  obtain ⟨pb, hpb⟩ := read_block_lt s.memory (step_prev_offset inst s) (by omega)
  obtain ⟨cb, hcb⟩ := read_block_lt s.memory s.curr_offset (by omega)
  obtain ⟨pr, hpr⟩ := segment_pseudo_rand_ok di s (step_prev_offset inst s) k (by omega)
  obtain ⟨r, hr, hr1, hr2⟩ := segment_reference_ok inst position pr.2.2 k hll0 hlane
  have hroff : r.1 * inst.lane_length + r.2 < N := by
    have h1 : r.1 * inst.lane_length + inst.lane_length ≤ inst.lanes * inst.lane_length := by
      rw [← Nat.succ_mul]
      exact Nat.mul_le_mul_right _ hr1
    omega
  have hrmod : (r.1 * inst.lane_length + r.2) % 2 ^ 32 = r.1 * inst.lane_length + r.2 :=
    Nat.mod_eq_of_lt (by omega)
  obtain ⟨rb, hrb⟩ := read_block_lt s.memory (r.1 * inst.lane_length + r.2) (by omega)
  have hsr : step_reference inst position di s k = .ok r := by
    unfold step_reference
    rw [hpr]
    exact hr
  refine ⟨pr, r, pb, rb, cb, hpr, hr, hsr, hr1, hr2, hrmod, hroff, hpb, hrb, hcb, ?_, ?_⟩
  · have hpb' := hpb
    have hpr' := hpr
    unfold step_prev_offset at hpb' hpr'
    unfold fill_segment_step
    simp only [bind, Except.bind, pure, Except.pure, hpb', hpr', hr, hrmod, hrb, hcb]
    rw [if_neg hll0, write_block_ok _ _ _ (by omega), Nat.mod_eq_of_lt (by omega)]
    have hpm : ((if s.curr_offset % inst.lane_length = 1
        then (s.curr_offset + (2 ^ 32 - 1)) % 2 ^ 32 else s.prev_offset) + 1) % 2 ^ 32 =
        step_prev_offset inst s + 1 := by
      show (step_prev_offset inst s + 1) % 2 ^ 32 = _
      exact Nat.mod_eq_of_lt (by omega)
    rw [hpm]
  · refine ⟨?_, ?_, ?_, ?_⟩
    · simp only [List.length_set]; exact hm
    · show s.curr_offset + 1 = _
      rw [hcur]; rfl
    · intro h0; omega
    · intro _
      show step_prev_offset inst s + 1 + 1 = s.curr_offset + 1
      by_cases h0 : position.slice * inst.segment_length + k = 0
      · omega
      · rw [hprev1 h0]

/-! ## Observations along a loop -/

theorem for_loop_trace_succ_ok {σ α : Type} (body : σ → Nat → Except Fault σ)
    (obs : σ → Nat → α) (n i : Nat) (s s1 : σ) (h : body s i = .ok s1) :
    for_loop_trace body obs (n + 1) i s = obs s i :: for_loop_trace body obs n (i + 1) s1 := by
  rw [for_loop_trace, h]

/-- Observing `g (obs s i)` gives the image under `g` of the observations. -/
theorem for_loop_trace_map {σ α β : Type} (body : σ → Nat → Except Fault σ)
    (obs : σ → Nat → α) (g : α → β) : ∀ (n i : Nat) (s : σ),
    for_loop_trace body (fun s i => g (obs s i)) n i s =
      (for_loop_trace body obs n i s).map g := by
  intro n
  induction n with
  | zero => intro i s; rfl
  | succ n ih =>
    intro i s
    rw [for_loop_trace, for_loop_trace, List.map_cons]
    cases body s i with
    | ok s1 => simp only []; rw [ih]
    | error e => rfl

/-- When every iteration in range preserves an invariant without fault, and
under the invariant the observation at loop counter `k` is `f k`, the
observations are `f i, f (i+1), ..., f (i+n-1)`. -/
theorem for_loop_trace_eq_map {σ α : Type} (body : σ → Nat → Except Fault σ)
    (obs : σ → Nat → α) (I : Nat → σ → Prop) (f : Nat → α) : ∀ (n i : Nat) (s : σ), I i s →
    (∀ k s, i ≤ k → k < i + n → I k s →
      obs s k = f k ∧ ∃ s', body s k = .ok s' ∧ I (k + 1) s') →
    for_loop_trace body obs n i s = (List.range' i n).map f := by
  intro n
  induction n with
  | zero => intro i s _ _; rfl
  | succ n ih =>
    intro i s h0 hstep
    obtain ⟨hobs, s1, hb, h1⟩ := hstep i s (Nat.le_refl _) (by omega) h0
    rw [for_loop_trace_succ_ok body obs n i s s1 hb, hobs,
      ih (i + 1) s1 h1 (fun k s hk hk' hI => hstep k s (by omega) (by omega) hI)]
    rfl

/-- When every iteration in range preserves an invariant without fault, and
under the invariant the observation satisfies `P`, the loop makes `n`
observations and all of them satisfy `P`. -/
theorem for_loop_trace_all {σ α : Type} (body : σ → Nat → Except Fault σ)
    (obs : σ → Nat → α) (I : Nat → σ → Prop) (P : α → Prop) : ∀ (n i : Nat) (s : σ), I i s →
    (∀ k s, i ≤ k → k < i + n → I k s →
      P (obs s k) ∧ ∃ s', body s k = .ok s' ∧ I (k + 1) s') →
    (for_loop_trace body obs n i s).length = n ∧
      ∀ x, x ∈ for_loop_trace body obs n i s → P x := by
  intro n
  induction n with
  | zero => intro i s _ _; exact ⟨rfl, fun x hx => by cases hx⟩
  | succ n ih =>
    intro i s h0 hstep
    obtain ⟨hobs, s1, hb, h1⟩ := hstep i s (Nat.le_refl _) (by omega) h0
    obtain ⟨hlen, hall⟩ :=
      ih (i + 1) s1 h1 (fun k s hk hk' hI => hstep k s (by omega) (by omega) hI)
    rw [for_loop_trace_succ_ok body obs n i s s1 hb]
    refine ⟨by rw [List.length_cons, hlen], ?_⟩
    intro x hx
    rcases List.mem_cons.mp hx with h | h
    · rw [h]; exact hobs
    · exact hall x h

/-- Two loops whose states stay related, and whose observations agree on
related states, make the same observations. -/
theorem for_loop_trace_rel {σ τ α : Type} (b1 : σ → Nat → Except Fault σ)
    (b2 : τ → Nat → Except Fault τ) (o1 : σ → Nat → α) (o2 : τ → Nat → α)
    (Rel : Nat → σ → τ → Prop) : ∀ (n i : Nat) (s : σ) (t : τ), Rel i s t →
    (∀ k s t, i ≤ k → k < i + n → Rel k s t →
      o1 s k = o2 t k ∧ ∃ s' t', b1 s k = .ok s' ∧ b2 t k = .ok t' ∧ Rel (k + 1) s' t') →
    for_loop_trace b1 o1 n i s = for_loop_trace b2 o2 n i t := by
  intro n
  induction n with
  | zero => intro i s t _ _; rfl
  | succ n ih =>
    intro i s t h0 hstep
    obtain ⟨hobs, s1, t1, hb1, hb2, h1⟩ := hstep i s t (Nat.le_refl _) (by omega) h0
    rw [for_loop_trace_succ_ok b1 o1 n i s s1 hb1, for_loop_trace_succ_ok b2 o2 n i t t1 hb2,
      hobs, ih (i + 1) s1 t1 h1 (fun k s t hk hk' hR => hstep k s t (by omega) (by omega) hR)]

/-! ## The reference window of `index_alpha` -/

theorem relative_position_eq (ras pr : Nat) (h1 : 1 ≤ ras) (h32 : ras < 2 ^ 32)
    (hpr : pr < 2 ^ 32) :
    relative_position ras pr = ras - 1 - ras * (pr * pr / 2 ^ 32) / 2 ^ 32 ∧
    relative_position ras pr < ras := by
  have hpp : pr * pr < 2 ^ 64 := by
    calc pr * pr < 2 ^ 32 * 2 ^ 32 := Nat.mul_lt_mul'' hpr hpr
      _ = 2 ^ 64 := by norm_num
  have hx : pr * pr / 2 ^ 32 < 2 ^ 32 :=
    Nat.div_lt_of_lt_mul (by rw [show (2:Nat) ^ 32 * 2 ^ 32 = 2 ^ 64 by norm_num]; exact hpp)
  have hrx : ras * (pr * pr / 2 ^ 32) < 2 ^ 64 := by
    calc ras * (pr * pr / 2 ^ 32) < 2 ^ 32 * 2 ^ 32 := Nat.mul_lt_mul'' h32 hx
      _ = 2 ^ 64 := by norm_num
  have hy : ras * (pr * pr / 2 ^ 32) / 2 ^ 32 < ras := by
    apply Nat.div_lt_of_lt_mul
    rw [Nat.mul_comm (2 ^ 32) ras]
    exact Nat.mul_lt_mul_of_pos_left hx h1
  have hval : relative_position ras pr =
      ((ras + (2 ^ 32 - 1)) % 2 ^ 32 +
        (2 ^ 64 - ras * (pr * pr / 2 ^ 32) / 2 ^ 32)) % 2 ^ 64 % 2 ^ 32 := by
    unfold relative_position
    simp only [Nat.shiftRight_eq_div_pow]
    rw [Nat.mod_eq_of_lt hpp, Nat.mod_eq_of_lt hrx]
  rw [hval]
  generalize ras * (pr * pr / 2 ^ 32) / 2 ^ 32 = y at hy ⊢
  constructor <;> omega

/-- The `uint32_t` value of `reference_area_size` at a position where
`fill_segment` calls `index_alpha`. -/
theorem reference_area_size_value (inst : argon2_instance_t) (position : argon2_position_t)
    (same_lane : Bool) (hcall : index_alpha_call inst position) :
    reference_area_size inst position same_lane =
      if position.pass = 0 then
        if position.slice = 0 then position.index - 1
        else if same_lane = true then
          position.slice * inst.segment_length + position.index - 1
        else position.slice * inst.segment_length - (if position.index = 0 then 1 else 0)
      else
        if same_lane = true then 3 * inst.segment_length + position.index - 1
        else 3 * inst.segment_length - (if position.index = 0 then 1 else 0) := by
  obtain ⟨hsl, hll, h31, hslice, hidx, hfirst⟩ := hcall
  have hm3 : position.slice * inst.segment_length ≤ 3 * inst.segment_length :=
    Nat.mul_le_mul_right _ (by omega)
  have hm1 : position.slice ≠ 0 → inst.segment_length ≤
      position.slice * inst.segment_length := fun h =>
    Nat.le_mul_of_pos_left _ (Nat.pos_of_ne_zero h)
  unfold reference_area_size
  by_cases hp : position.pass = 0
  · rw [if_pos hp, if_pos hp]
    by_cases hs : position.slice = 0
    · have := hfirst hp hs
      rw [if_pos hs, if_pos hs]
      omega
    · have := hm1 hs
      rw [if_neg hs, if_neg hs]
      by_cases hsame : same_lane = true
      · rw [if_pos hsame, if_pos hsame]
        omega
      · rw [if_neg hsame, if_neg hsame]
        by_cases h0 : position.index = 0
        · rw [if_pos h0, if_pos h0]
          omega
        · rw [if_neg h0, if_neg h0]
          omega
  · rw [if_neg hp, if_neg hp]
    by_cases hsame : same_lane = true
    · rw [if_pos hsame, if_pos hsame]
      omega
    · rw [if_neg hsame, if_neg hsame]
      by_cases h0 : position.index = 0
      · rw [if_pos h0, if_pos h0]
        omega
      · rw [if_neg h0, if_neg h0]
        omega

/-- At every position where `fill_segment` calls `index_alpha`, the `uint32_t`
value of `reference_area_size` is the integer value of its source expression,
is at least 1 and is below `lane_length`. -/
theorem reference_area_size_exact (inst : argon2_instance_t) (position : argon2_position_t)
    (same_lane : Bool) (hcall : index_alpha_call inst position) :
    (reference_area_size inst position same_lane : Int) =
      reference_area_size_int inst position same_lane ∧
    1 ≤ reference_area_size inst position same_lane ∧
    reference_area_size inst position same_lane < inst.lane_length := by
  rw [reference_area_size_value inst position same_lane hcall]
  obtain ⟨hsl, hll, h31, hslice, hidx, hfirst⟩ := hcall
  have hm3 : position.slice * inst.segment_length ≤ 3 * inst.segment_length :=
    Nat.mul_le_mul_right _ (by omega)
  have hm1 : position.slice ≠ 0 → inst.segment_length ≤
      position.slice * inst.segment_length := fun h =>
    Nat.le_mul_of_pos_left _ (Nat.pos_of_ne_zero h)
  unfold reference_area_size_int
  by_cases hp : position.pass = 0
  · rw [if_pos hp, if_pos hp]
    by_cases hs : position.slice = 0
    · have := hfirst hp hs
      rw [if_pos hs, if_pos hs]
      refine ⟨?_, ?_, ?_⟩ <;> omega
    · have := hm1 hs
      rw [if_neg hs, if_neg hs]
      by_cases hsame : same_lane = true
      · rw [if_pos hsame, if_pos hsame]
        refine ⟨?_, ?_, ?_⟩ <;> omega
      · rw [if_neg hsame, if_neg hsame]
        by_cases h0 : position.index = 0
        · rw [if_pos h0, if_pos h0]
          refine ⟨?_, ?_, ?_⟩ <;> omega
        · rw [if_neg h0, if_neg h0]
          refine ⟨?_, ?_, ?_⟩ <;> omega
  · rw [if_neg hp, if_neg hp]
    by_cases hsame : same_lane = true
    · rw [if_pos hsame, if_pos hsame]
      refine ⟨?_, ?_, ?_⟩ <;> omega
    · rw [if_neg hsame, if_neg hsame]
      by_cases h0 : position.index = 0
      · rw [if_pos h0, if_pos h0]
        refine ⟨?_, ?_, ?_⟩ <;> omega
      · rw [if_neg h0, if_neg h0]
        refine ⟨?_, ?_, ?_⟩ <;> omega

theorem mod_lt_two (a n : Nat) (h : a < 2 * n) :
    a % n = if a < n then a else a - n := by
  by_cases h1 : a < n
  · rw [if_pos h1, Nat.mod_eq_of_lt h1]
  · rw [if_neg h1, Nat.mod_eq_sub_mod (by omega), Nat.mod_eq_of_lt (by omega)]

theorem start_position_eq (inst : argon2_instance_t) (position : argon2_position_t)
    (hcall : index_alpha_call inst position) :
    start_position inst position =
      if position.pass = 0 then 0
      else if position.slice = 3 then 0
      else position.slice * inst.segment_length + inst.segment_length := by
  obtain ⟨hsl, hll, h31, hslice, hidx, hfirst⟩ := hcall
  have hm3 : position.slice * inst.segment_length ≤ 3 * inst.segment_length :=
    Nat.mul_le_mul_right _ (by omega)
  unfold start_position
  by_cases hp : position.pass = 0
  · rw [if_neg (by simpa using hp), if_pos hp]
  · rw [if_pos hp, if_neg hp]
    by_cases h3 : position.slice = 3
    · rw [if_pos (by rw [h3]; rfl), if_pos h3]
    · rw [if_neg (by show ¬ position.slice = 3; exact h3), if_neg h3, Nat.succ_mul]
      exact Nat.mod_eq_of_lt (by omega)

/-- The result of `index_alpha` at a position where `fill_segment` calls it:
the window start plus a relative position below the window size, reduced
into the lane. -/
theorem index_alpha_run (inst : argon2_instance_t) (position : argon2_position_t)
    (pseudo_rand : Nat) (same_lane : Bool) (hcall : index_alpha_call inst position)
    (hpr : pseudo_rand < 2 ^ 32) :
    ∃ rp, rp = relative_position (reference_area_size inst position same_lane) pseudo_rand ∧
      rp < reference_area_size inst position same_lane ∧
      index_alpha inst position pseudo_rand same_lane =
        .ok (if start_position inst position + rp < inst.lane_length
             then start_position inst position + rp
             else start_position inst position + rp - inst.lane_length) := by
  obtain ⟨_, hr1, hrl⟩ := reference_area_size_exact inst position same_lane hcall
  have hst := start_position_eq inst position hcall
  obtain ⟨hsl, hll, h31, hslice, hidx, hfirst⟩ := hcall
  have hm3 : position.slice * inst.segment_length ≤ 3 * inst.segment_length :=
    Nat.mul_le_mul_right _ (by omega)
  have hrp := (relative_position_eq (reference_area_size inst position same_lane)
    pseudo_rand hr1 (by omega) hpr).2
  have hstlt : start_position inst position < inst.lane_length := by
    rw [hst]
    by_cases hp : position.pass = 0
    · rw [if_pos hp]; omega
    · rw [if_neg hp]
      by_cases h3 : position.slice = 3
      · rw [if_pos h3]; omega
      · rw [if_neg h3]
        have hm2 : position.slice * inst.segment_length ≤ 2 * inst.segment_length :=
          Nat.mul_le_mul_right _ (by omega)
        omega
  clear hst
  have hll0 : ¬ inst.lane_length = 0 := by omega
  have h32 : start_position inst position +
      relative_position (reference_area_size inst position same_lane) pseudo_rand
        < 2 ^ 32 := by omega
  have h2l : start_position inst position +
      relative_position (reference_area_size inst position same_lane) pseudo_rand
        < 2 * inst.lane_length := by omega
  refine ⟨_, rfl, hrp, ?_⟩
  rw [index_alpha_eq, if_neg hll0, Nat.mod_eq_of_lt h32, mod_lt_two _ _ h2l]

/-! ## The final block -/

theorem block_bytes_congr (b1 b2 : block)
    (h : ∀ i, i < ARGON2_QWORDS_IN_BLOCK → b1.getD i 0 = b2.getD i 0) :
    block_bytes b1 = block_bytes b2 := by
  unfold block_bytes
  congr 1
  apply List.map_congr_left
  intro i hi
  rw [h i (List.mem_range.mp hi)]

theorem xor_block_getD (dst src : block) (i : Nat) (hi : i < ARGON2_QWORDS_IN_BLOCK) :
    (xor_block dst src).getD i 0 = dst.getD i 0 ^^^ src.getD i 0 := by
  unfold xor_block
  rw [List.getD_eq_getElem?_getD, List.getElem?_map, List.getElem?_range hi]
  rfl

theorem xor_last_blocks_getD (memory : List block) (lanes lane_length i : Nat)
    (hi : i < ARGON2_QWORDS_IN_BLOCK) :
    (xor_last_blocks memory lanes lane_length).getD i 0 =
      (List.range lanes).foldl
        (fun acc l => acc ^^^ (memory.getD (l * lane_length + lane_length - 1) []).getD i 0)
        0 := by
  unfold xor_last_blocks
  rw [List.getD_eq_getElem?_getD, List.getElem?_map, List.getElem?_range hi]
  rfl

theorem read_block_getD (memory : List block) (i : Nat) (b : block)
    (h : read_block memory i = .ok b) : memory.getD i [] = b := by
  unfold read_block at h
  rw [List.get?_eq_getElem?] at h
  rw [List.getD_eq_getElem?_getD]
  cases hm : memory[i]? with
  | none => rw [hm] at h; cases h
  | some c => rw [hm] at h; cases h; rfl

/-- The loop of `finalize` leaves in `blockhash`, word by word, the XOR of
the last blocks of all lanes. -/
theorem finalize_loop (inst : argon2_instance_t) (N : Nat)
    (hll : 1 ≤ inst.lane_length) (hlanes : 1 ≤ inst.lanes)
    (hN : inst.lanes * inst.lane_length = N)
    (hN32 : N < 2 ^ 32) (hmem : inst.memory.length = N) :
    ∃ b bh, read_block inst.memory (inst.lane_length - 1) = .ok b ∧
      for_loop (finalize_step inst) (inst.lanes - 1) 1 (copy_block zero_block b) = .ok bh ∧
      ∀ i, i < ARGON2_QWORDS_IN_BLOCK →
        bh.getD i 0 = (xor_last_blocks inst.memory inst.lanes inst.lane_length).getD i 0 := by
  have hlane : ∀ l, l < inst.lanes → l * inst.lane_length + inst.lane_length ≤ N := by
    intro l hl
    rw [← hN, ← Nat.succ_mul]
    exact Nat.mul_le_mul_right _ hl
  have h0 := hlane 0 (by omega)
  obtain ⟨b, hb⟩ := read_block_lt inst.memory (inst.lane_length - 1) (by omega)
  have hloop := for_loop_invariant (finalize_step inst)
    (fun l bh => ∀ i, i < ARGON2_QWORDS_IN_BLOCK → bh.getD i 0 =
      (List.range l).foldl (fun acc l =>
        acc ^^^ (inst.memory.getD (l * inst.lane_length + inst.lane_length - 1) []).getD i 0)
        0)
    (inst.lanes - 1) 1 (copy_block zero_block b)
    (by
      intro i _
      have hb0 := read_block_getD _ _ _ hb
      simp only [List.range_succ, List.range_zero, List.nil_append, List.foldl_cons, List.foldl_nil, Nat.zero_mul, Nat.zero_add,
        hb0, Nat.zero_xor]
      rfl)
    (by
      intro l blockhash hl1 hl2 hI
      have hl := hlane l (by omega)
      have hm : (l * inst.lane_length) % 2 ^ 32 = l * inst.lane_length :=
        Nat.mod_eq_of_lt (by omega)
      obtain ⟨b', hb'⟩ := read_block_lt inst.memory
        (l * inst.lane_length + inst.lane_length - 1) (by omega)
      refine ⟨xor_block blockhash b', ?_, ?_⟩
      · unfold finalize_step
        simp only [bind, Except.bind, pure, Except.pure, hm, hb']
        rw [if_neg (by omega)]
      · intro i hi
        rw [xor_block_getD _ _ _ hi, hI i hi, List.range_succ, List.foldl_append,
          List.foldl_cons, List.foldl_nil, read_block_getD _ _ _ hb'])
  obtain ⟨bh, hrun, hI⟩ := hloop
  refine ⟨b, bh, hb, hrun, ?_⟩
  intro i hi
  rw [xor_last_blocks_getD _ _ _ _ hi, hI i hi, show 1 + (inst.lanes - 1) = inst.lanes by omega]

/-! ## The loop of `fill_segment`: what each iteration uses -/

/-- The loop of `fill_segment` runs for the counters `starting_index ≤ i <
segment_length`; iteration `i` writes the `i`-th block of the segment and
uses as previous block the cyclic predecessor of that block in its lane. -/
theorem fill_segment_offsets_eq (inst : argon2_instance_t) (position : argon2_position_t)
    (N : Nat) (hc : segment_config inst position N) (hmem : inst.memory.length = N) :
    fill_segment_offsets inst position =
      (List.range' (segment_starting_index position)
        (inst.segment_length - segment_starting_index position)).map
        (fun i => (i,
          position.lane * inst.lane_length + position.slice * inst.segment_length + i,
          position.lane * inst.lane_length +
            (position.slice * inst.segment_length + i + inst.lane_length - 1)
              % inst.lane_length)) := by
  unfold fill_segment_offsets
  apply for_loop_trace_eq_map _ _ (fun k s => segment_inv inst position N k s) _ _ _ _
    (segment_inv_start inst position N hc hmem)
  intro k s hk1 hk2 hinv
  have hk : k < inst.segment_length := by omega
  obtain ⟨_, _, hprev, _, _⟩ := step_prev_offset_of_inv inst position N k s hc hk hinv
  obtain ⟨pr, r, pb, rb, cb, _, _, _, _, _, _, _, _, _, _, hstep, hinv'⟩ :=
    segment_inv_step inst position (segment_data_independent inst position) N k s hc hk hinv
  refine ⟨?_, _, hstep, hinv'⟩
  show (k, s.curr_offset, step_prev_offset inst s) = _
  rw [hinv.2.1, hprev]

/-- Every iteration of the loop of `fill_segment` selects, without fault, a
pair `(ref_lane, ref_index)` with `ref_lane < lanes`, `ref_index <
lane_length` and `ref_offset = ref_lane * lane_length + ref_index` (no
wraparound) inside the region; the pair is what `segment_reference` gives for
some `pseudo_rand`. -/
theorem fill_segment_refs_in_range (inst : argon2_instance_t) (position : argon2_position_t)
    (N : Nat) (hc : segment_config inst position N) (hmem : inst.memory.length = N) :
    (fill_segment_refs inst position).length =
      inst.segment_length - segment_starting_index position ∧
    ∀ x, x ∈ fill_segment_refs inst position →
      segment_starting_index position ≤ x.1 ∧ x.1 < inst.segment_length ∧
      ∃ r, x.2 = .ok r ∧
        (∃ pseudo_rand, segment_reference inst position pseudo_rand x.1 = .ok r) ∧
        r.1 < inst.lanes ∧ r.2 < inst.lane_length ∧
        (r.1 * inst.lane_length + r.2) % 2 ^ 32 = r.1 * inst.lane_length + r.2 ∧
        r.1 * inst.lane_length + r.2 < N := by
  unfold fill_segment_refs
  apply for_loop_trace_all _ _ (fun k s => segment_inv inst position N k s) _ _ _ _
    (segment_inv_start inst position N hc hmem)
  intro k s hk1 hk2 hinv
  have hk : k < inst.segment_length := by omega
  obtain ⟨pr, r, pb, rb, cb, _, hr, hsr, hr1, hr2, hrm, hrN, _, _, _, hstep, hinv'⟩ :=
    segment_inv_step inst position (segment_data_independent inst position) N k s hc hk hinv
  exact ⟨⟨hk1, hk, r, hsr, ⟨_, hr⟩, hr1, hr2, hrm, hrN⟩, _, hstep, hinv'⟩

/-- The call `fill_segment(instance, position)` returns, and leaves unchanged
every block outside the part of the segment from `starting_index` on. -/
theorem fill_segment_frame (inst : argon2_instance_t) (position : argon2_position_t)
    (N : Nat) (hc : segment_config inst position N) (hmem : inst.memory.length = N) :
    ∃ mem, fill_segment inst position = .ok mem ∧ mem.length = N ∧
      ∀ j, (j < position.lane * inst.lane_length + position.slice * inst.segment_length
              + segment_starting_index position ∨
            position.lane * inst.lane_length + position.slice * inst.segment_length
              + inst.segment_length ≤ j) →
        mem[j]? = inst.memory[j]? := by
  have hll0 : inst.lane_length ≠ 0 := by
    obtain ⟨hsl, hll, _⟩ := hc
    omega
  have hloop := for_loop_invariant
    (fill_segment_step inst position (segment_data_independent inst position))
    (fun k s => segment_inv inst position N k s ∧
      ∀ j, (j < position.lane * inst.lane_length + position.slice * inst.segment_length
              + segment_starting_index position ∨
            position.lane * inst.lane_length + position.slice * inst.segment_length
              + k ≤ j) →
        s.memory[j]? = inst.memory[j]?)
    (inst.segment_length - segment_starting_index position)
    (segment_starting_index position) (segment_start inst position)
    ⟨segment_inv_start inst position N hc hmem, fun _ _ => rfl⟩
    (by
      intro k s hk1 hk2 ⟨hinv, hfr⟩
      have hk : k < inst.segment_length := by omega
      obtain ⟨pr, r, pb, rb, cb, _, _, _, _, _, _, _, _, _, _, hstep, hinv'⟩ :=
        segment_inv_step inst position (segment_data_independent inst position) N k s hc hk
          hinv
      refine ⟨_, hstep, hinv', ?_⟩
      intro j hj
      have hcur := hinv.2.1
      show (s.memory.set s.curr_offset _)[j]? = _
      rw [List.getElem?_set_ne (by omega), hfr j (by omega)])
  obtain ⟨s', hrun, hinv, hfr⟩ := hloop
  refine ⟨s'.memory, ?_, hinv.1, ?_⟩
  · rw [fill_segment_eq, if_neg hll0, hrun]
    rfl
  · intro j hj
    exact hfr j (by omega)

theorem segment_starting_index_eq (position : argon2_position_t) :
    segment_starting_index position =
      if position.pass = 0 ∧ position.slice = 0 then 2 else 0 := by
  unfold segment_starting_index
  by_cases h : position.pass = 0 ∧ position.slice = 0
  · simp [h]
  · simp [h]

/-- The remainder `(c - 1) mod n` over the integers, for `c < n`. -/
theorem cyclic_pred_int (c n : Nat) (hn : 1 ≤ n) :
    (((c + n - 1) % n : Nat) : Int) = ((c : Int) - 1) % (n : Int) := by
  have h : ((c + n - 1 : Nat) : Int) = (c : Int) - 1 + (n : Int) := by omega
  rw [Int.natCast_mod, h, Int.add_emod_self]

theorem reference_area_size_first (inst : argon2_instance_t) (q : argon2_position_t)
    (same_lane : Bool) (hp : q.pass = 0) (hs : q.slice = 0) (h2 : 2 ≤ q.index)
    (h32 : q.index < 2 ^ 32) : reference_area_size inst q same_lane = q.index - 1 := by
  unfold reference_area_size
  rw [if_pos hp, if_pos hs]
  omega

theorem start_position_first (inst : argon2_instance_t) (q : argon2_position_t)
    (hp : q.pass = 0) : start_position inst q = 0 := by
  unfold start_position
  rw [if_neg (fun h => h hp)]

/-- In pass 0, slice 0 the reference selected at block index `i ≥ 2` is in
the current lane, at an index `j ≤ i - 2`, for every `pseudo_rand`. -/
theorem first_slice_selection (inst : argon2_instance_t) (position : argon2_position_t)
    (hpass : position.pass = 0) (hslice : position.slice = 0)
    (hll : inst.lane_length = 4 * inst.segment_length)
    (hN32 : inst.lanes * inst.lane_length < 2 ^ 32)
    (hlane : position.lane < inst.lanes) :
    ∀ pseudo_rand i, 2 ≤ i → i < inst.segment_length →
      ∃ j, segment_reference inst position pseudo_rand i = .ok (position.lane, j) ∧
        j + 2 ≤ i := by
  intro pseudo_rand i h2 hi
  have hlanes0 : inst.lanes ≠ 0 := by omega
  have hll0 : inst.lane_length ≠ 0 := by omega
  have hll32 : inst.lane_length < 2 ^ 32 := by
    have := Nat.le_mul_of_pos_left inst.lane_length (Nat.pos_of_ne_zero hlanes0)
    omega
  have hrp := (relative_position_eq (i - 1) (pseudo_rand % 2 ^ 32) (by omega) (by omega)
    (Nat.mod_lt _ (by decide))).2
  refine ⟨relative_position (i - 1) (pseudo_rand % 2 ^ 32), ?_, by omega⟩
  unfold segment_reference
  rw [if_neg hlanes0]
  simp only [hpass, hslice, and_self, if_true, beq_self_eq_true]
  have hi32 : i < 2 ^ 32 := by omega
  have hrp32 : relative_position (i - 1) (pseudo_rand % 2 ^ 32) < 2 ^ 32 := by omega
  have hrpll : relative_position (i - 1) (pseudo_rand % 2 ^ 32) < inst.lane_length := by omega
  rw [index_alpha_eq, if_neg hll0, start_position_first _ _ rfl,
    reference_area_size_first inst
      { pass := 0, lane := position.lane, slice := 0, index := i } _ rfl rfl h2 hi32]
  simp only [Nat.zero_add]
  rw [Nat.mod_eq_of_lt hrp32, Nat.mod_eq_of_lt hrpll]

/-! ## Data-independent addressing -/

theorem segment_pseudo_rand_independent (s t : segment_state) (p q i : Nat)
    (h1 : s.input_block = t.input_block) (h2 : s.address_block = t.address_block) :
    segment_pseudo_rand true s p i = segment_pseudo_rand true t q i := by
  unfold segment_pseudo_rand
  rw [if_pos rfl, if_pos rfl, h1, h2]

theorem segment_reference_independent (inst1 inst2 : argon2_instance_t)
    (pos1 pos2 : argon2_position_t) (pseudo_rand i : Nat)
    (hlanes : inst1.lanes = inst2.lanes)
    (hsl : inst1.segment_length = inst2.segment_length)
    (hll : inst1.lane_length = inst2.lane_length)
    (hpass : pos1.pass = pos2.pass) (hlane : pos1.lane = pos2.lane)
    (hslice : pos1.slice = pos2.slice) :
    segment_reference inst1 pos1 pseudo_rand i = segment_reference inst2 pos2 pseudo_rand i := by
  unfold segment_reference index_alpha
  simp only [hlanes, hsl, hll, hpass, hlane, hslice]

theorem segment_data_independent_id (inst : argon2_instance_t) (position : argon2_position_t)
    (htype : inst.type = Argon2_id) :
    segment_data_independent inst position =
      decide (position.pass = 0 ∧ position.slice < 2) := by
  unfold segment_data_independent
  simp [htype, Argon2_id, Argon2_i, ARGON2_SYNC_POINTS]

/-- In the data-independent segments of Argon2id, the pairs `(ref_lane,
ref_index)` selected by the loop of `fill_segment` are the same for two
instances that agree on `lanes`, `segment_length`, `memory_blocks` and
`passes` and two positions that agree on lane and slice. -/
theorem fill_segment_refs_independent (inst1 inst2 : argon2_instance_t)
    (pos1 pos2 : argon2_position_t) (N : Nat)
    (hc1 : segment_config inst1 pos1 N) (hc2 : segment_config inst2 pos2 N)
    (hm1 : inst1.memory.length = N) (hm2 : inst2.memory.length = N)
    (ht1 : inst1.type = Argon2_id) (ht2 : inst2.type = Argon2_id)
    (hlanes : inst1.lanes = inst2.lanes)
    (hsl : inst1.segment_length = inst2.segment_length)
    (hmb : inst1.memory_blocks = inst2.memory_blocks)
    (hpasses : inst1.passes = inst2.passes)
    (hp1 : pos1.pass = 0) (hp2 : pos2.pass = 0) (hlane : pos1.lane = pos2.lane)
    (hslice : pos1.slice = pos2.slice) (hs2 : pos1.slice < 2) :
    fill_segment_refs inst1 pos1 = fill_segment_refs inst2 pos2 := by
  have hll : inst1.lane_length = inst2.lane_length := by
    rw [hc1.2.1, hc2.2.1, hsl]
  have hd1 : segment_data_independent inst1 pos1 = true := by
    rw [segment_data_independent_id inst1 pos1 ht1]
    exact decide_eq_true ⟨hp1, hs2⟩
  have hd2 : segment_data_independent inst2 pos2 = true := by
    rw [segment_data_independent_id inst2 pos2 ht2]
    exact decide_eq_true ⟨hp2, by omega⟩
  have hst : segment_starting_index pos1 = segment_starting_index pos2 := by
    rw [segment_starting_index_eq, segment_starting_index_eq, hp1, hp2, hslice]
  have hin : (segment_start inst1 pos1).input_block = (segment_start inst2 pos2).input_block := by
    unfold segment_start
    simp only [hd1, hd2, hp1, hp2, hlane, hslice, hmb, hpasses, ht1, ht2]
  have had : (segment_start inst1 pos1).address_block =
      (segment_start inst2 pos2).address_block := by
    unfold segment_start
    simp only [hd1, hd2, hp1, hp2, hlane, hslice, hmb, hpasses, ht1, ht2]
  unfold fill_segment_refs
  rw [hd1, hd2, hsl, hst]
  apply for_loop_trace_rel _ _ _ _
    (fun k s t => s.input_block = t.input_block ∧ s.address_block = t.address_block ∧
      segment_inv inst1 pos1 N k s ∧ segment_inv inst2 pos2 N k t)
  · refine ⟨hin, had, ?_, segment_inv_start inst2 pos2 N hc2 hm2⟩
    rw [← hst]
    exact segment_inv_start inst1 pos1 N hc1 hm1
  · intro k s t hk1 hk2 ⟨hib, hab, hi1, hi2⟩
    have hk : k < inst2.segment_length := by omega
    obtain ⟨pr1, r1, _, _, _, hpr1, _, hsr1, _, _, _, _, _, _, _, hstep1, hinv1⟩ :=
      segment_inv_step inst1 pos1 true N k s hc1 (by rw [hsl]; exact hk) hi1
    obtain ⟨pr2, r2, _, _, _, hpr2, _, hsr2, _, _, _, _, _, _, _, hstep2, hinv2⟩ :=
      segment_inv_step inst2 pos2 true N k t hc2 hk hi2
    have hpr : pr1 = pr2 := by
      have h := segment_pseudo_rand_independent s t (step_prev_offset inst1 s)
        (step_prev_offset inst2 t) k hib hab
      rw [hpr1, hpr2] at h
      exact Except.ok.inj h
    have hobs : step_reference inst1 pos1 true s k = step_reference inst2 pos2 true t k := by
      unfold step_reference
      rw [hpr1, hpr2, hpr]
      exact segment_reference_independent inst1 inst2 pos1 pos2 _ k hlanes hsl hll
        (by rw [hp1, hp2]) hlane hslice
    refine ⟨by rw [hobs], _, _, hstep1, hstep2, ?_, ?_, hinv1, hinv2⟩
    · show pr1.1 = pr2.1
      rw [hpr]
    · show pr1.2.1 = pr2.2.1
      rw [hpr]

/-! ## Reference selection: claims -/

/-- C15: for `segment_length ≥ 2`, `lane_length = 4 * segment_length < 2^31`,
every 32-bit `pseudo_rand` and every position with `slice < 4`, `index <
segment_length` (and `index ≥ 2` in slice 0 of pass 0), `index_alpha` with
`same_lane = true` returns `j < lane_length` that is neither the current
block's lane-relative index `c = slice * segment_length + index` nor its
cyclic predecessor `(c - 1) mod lane_length`; in pass 0 moreover `j ≤ c - 2`. -/
theorem index_alpha_same_lane (inst : argon2_instance_t) (position : argon2_position_t)
    (pseudo_rand : Nat) (hsl : 2 ≤ inst.segment_length)
    (hll : inst.lane_length = 4 * inst.segment_length) (h31 : inst.lane_length < 2 ^ 31)
    (hpr : pseudo_rand < 2 ^ 32) (hslice : position.slice < 4)
    (hidx : position.index < inst.segment_length)
    (hfirst : position.pass = 0 → position.slice = 0 → 2 ≤ position.index) :
    ∃ j, index_alpha inst position pseudo_rand true = .ok j ∧
      j < inst.lane_length ∧
      j ≠ position.slice * inst.segment_length + position.index ∧
      j ≠ (position.slice * inst.segment_length + position.index + inst.lane_length - 1)
        % inst.lane_length ∧
      (position.pass = 0 →
        j + 2 ≤ position.slice * inst.segment_length + position.index) := by
  have hcall : index_alpha_call inst position := ⟨hsl, hll, h31, hslice, hidx, hfirst⟩
  obtain ⟨rp, _, hrp, hres⟩ := index_alpha_run inst position pseudo_rand true hcall hpr
  have hras := reference_area_size_value inst position true hcall
  have hst := start_position_eq inst position hcall
  have hm3 : position.slice * inst.segment_length ≤ 3 * inst.segment_length :=
    Nat.mul_le_mul_right _ (by omega)
  have hm1 : position.slice ≠ 0 → inst.segment_length ≤
      position.slice * inst.segment_length := fun h =>
    Nat.le_mul_of_pos_left _ (Nat.pos_of_ne_zero h)
  have hclt : position.slice * inst.segment_length + position.index < inst.lane_length := by
    omega
  have hcp := cyclic_pred _ _ (by omega : 1 ≤ inst.lane_length) hclt
  refine ⟨_, hres, ?_⟩
  rw [hcp]
  generalize reference_area_size inst position true = ras at hras hrp
  generalize start_position inst position = st at hst
  by_cases hp : position.pass = 0
  · rw [if_pos hp] at hras hst
    by_cases hs : position.slice = 0
    · have := hfirst hp hs
      rw [if_pos hs] at hras
      simp only [hs, Nat.zero_mul, Nat.zero_add] at hclt ⊢
      split_ifs <;> omega
    · have := hm1 hs
      rw [if_neg hs, if_pos rfl] at hras
      split_ifs <;> omega
  · rw [if_neg hp, if_pos rfl] at hras
    rw [if_neg hp] at hst
    by_cases h3 : position.slice = 3
    · rw [if_pos h3] at hst
      simp only [h3] at hclt hm3 ⊢
      split_ifs <;> omega
    · rw [if_neg h3] at hst
      have hm2 : position.slice * inst.segment_length ≤ 2 * inst.segment_length :=
        Nat.mul_le_mul_right _ (by omega)
      split_ifs <;> omega

theorem index_alpha_same_lane_witness :
    (2 ≤ small_instance.segment_length ∧
     small_instance.lane_length = 4 * small_instance.segment_length ∧
     small_instance.lane_length < 2 ^ 31 ∧ 4000000000 < 2 ^ 32 ∧ 0 < 4 ∧
     0 < small_instance.segment_length ∧ ((1 : Nat) = 0 → (0 : Nat) = 0 → 2 ≤ 0)) ∧
    ∃ j, index_alpha small_instance { pass := 1, lane := 0, slice := 0, index := 0 }
        4000000000 true = .ok j ∧
      j < small_instance.lane_length ∧
      j ≠ 0 * small_instance.segment_length + 0 ∧
      j ≠ (0 * small_instance.segment_length + 0 + small_instance.lane_length - 1)
        % small_instance.lane_length ∧
      ((1 : Nat) = 0 → j + 2 ≤ 0 * small_instance.segment_length + 0) :=
  ⟨⟨by decide, by decide, by decide, by decide, by decide, by decide, by decide⟩,
   index_alpha_same_lane small_instance { pass := 1, lane := 0, slice := 0, index := 0 }
     4000000000 (by decide) (by decide) (by decide) (by decide) (by decide) (by decide)
     (by decide)⟩

/-- C16: for `segment_length ≥ 2`, `lane_length = 4 * segment_length < 2^31`,
every 32-bit `pseudo_rand` and every position with `pass ≥ 1` or `slice ≥ 1`,
`slice < 4`, `index < segment_length`, `index_alpha` with `same_lane = false`
returns `j < lane_length` outside `[slice * segment_length, (slice + 1) *
segment_length)`; in pass 0, `j < slice * segment_length`. -/
theorem index_alpha_cross_lane (inst : argon2_instance_t) (position : argon2_position_t)
    (pseudo_rand : Nat) (hsl : 2 ≤ inst.segment_length)
    (hll : inst.lane_length = 4 * inst.segment_length) (h31 : inst.lane_length < 2 ^ 31)
    (hpr : pseudo_rand < 2 ^ 32) (hpos : 1 ≤ position.pass ∨ 1 ≤ position.slice)
    (hslice : position.slice < 4) (hidx : position.index < inst.segment_length) :
    ∃ j, index_alpha inst position pseudo_rand false = .ok j ∧
      j < inst.lane_length ∧
      (j < position.slice * inst.segment_length ∨
        (position.slice + 1) * inst.segment_length ≤ j) ∧
      (position.pass = 0 → j < position.slice * inst.segment_length) := by
  have hcall : index_alpha_call inst position :=
    ⟨hsl, hll, h31, hslice, hidx, fun h0 h1 => by omega⟩
  obtain ⟨rp, _, hrp, hres⟩ := index_alpha_run inst position pseudo_rand false hcall hpr
  have hras := reference_area_size_value inst position false hcall
  have hst := start_position_eq inst position hcall
  have hm3 : position.slice * inst.segment_length ≤ 3 * inst.segment_length :=
    Nat.mul_le_mul_right _ (by omega)
  have hm1 : position.slice ≠ 0 → inst.segment_length ≤
      position.slice * inst.segment_length := fun h =>
    Nat.le_mul_of_pos_left _ (Nat.pos_of_ne_zero h)
  refine ⟨_, hres, ?_⟩
  rw [Nat.succ_mul]
  generalize reference_area_size inst position false = ras at hras hrp
  generalize start_position inst position = st at hst
  have hft : ¬ (false = true) := by decide
  by_cases hp : position.pass = 0
  · have hs : position.slice ≠ 0 := by omega
    have := hm1 hs
    rw [if_pos hp, if_neg hs, if_neg hft] at hras
    rw [if_pos hp] at hst
    by_cases h0 : position.index = 0
    · rw [if_pos h0] at hras
      split_ifs <;> omega
    · rw [if_neg h0] at hras
      split_ifs <;> omega
  · rw [if_neg hp, if_neg hft] at hras
    rw [if_neg hp] at hst
    have hras' : ras ≤ 3 * inst.segment_length := by
      rw [hras]; exact Nat.sub_le _ _
    by_cases h3 : position.slice = 3
    · rw [if_pos h3] at hst
      simp only [h3] at hm3 ⊢
      split_ifs <;> omega
    · rw [if_neg h3] at hst
      have hm2 : position.slice * inst.segment_length ≤ 2 * inst.segment_length :=
        Nat.mul_le_mul_right _ (by omega)
      split_ifs <;> omega

theorem index_alpha_cross_lane_witness :
    (2 ≤ small_instance.segment_length ∧
     small_instance.lane_length = 4 * small_instance.segment_length ∧
     small_instance.lane_length < 2 ^ 31 ∧ 4000000000 < 2 ^ 32 ∧
     ((1 : Nat) ≤ 1 ∨ (1 : Nat) ≤ 2) ∧ 2 < 4 ∧ 1 < small_instance.segment_length) ∧
    ∃ j, index_alpha small_instance { pass := 1, lane := 0, slice := 2, index := 1 }
        4000000000 false = .ok j ∧
      j < small_instance.lane_length ∧
      (j < 2 * small_instance.segment_length ∨ (2 + 1) * small_instance.segment_length ≤ j) ∧
      ((1 : Nat) = 0 → j < 2 * small_instance.segment_length) :=
  ⟨⟨by decide, by decide, by decide, by decide, by decide, by decide, by decide⟩,
   index_alpha_cross_lane small_instance { pass := 1, lane := 0, slice := 2, index := 1 }
     4000000000 (by decide) (by decide) (by decide) (by decide) (by decide) (by decide)
     (by decide)⟩

/-- C20: for `segment_length ≥ 2`, `lane_length = 4 * segment_length < 2^31`
and every position at which `fill_segment` calls `index_alpha` (`slice < 4`,
`index < segment_length`, `index ≥ 2` in slice 0 of pass 0; either value of
`same_lane`), the `uint32_t` value of `reference_area_size` equals the integer
value of its source expression (no 32-bit underflow) and is at least 1, and
for every 32-bit `pseudo_rand` the resulting `relative_position` is below
`reference_area_size`. -/
theorem reference_window_no_wrap (inst : argon2_instance_t) (position : argon2_position_t)
    (pseudo_rand : Nat) (same_lane : Bool) (hsl : 2 ≤ inst.segment_length)
    (hll : inst.lane_length = 4 * inst.segment_length) (h31 : inst.lane_length < 2 ^ 31)
    (hpr : pseudo_rand < 2 ^ 32) (hslice : position.slice < 4)
    (hidx : position.index < inst.segment_length)
    (hfirst : position.pass = 0 → position.slice = 0 → 2 ≤ position.index) :
    (reference_area_size inst position same_lane : Int) =
      reference_area_size_int inst position same_lane ∧
    1 ≤ reference_area_size inst position same_lane ∧
    0 ≤ relative_position (reference_area_size inst position same_lane) pseudo_rand ∧
    relative_position (reference_area_size inst position same_lane) pseudo_rand <
      reference_area_size inst position same_lane := by
  have hcall : index_alpha_call inst position := ⟨hsl, hll, h31, hslice, hidx, hfirst⟩
  obtain ⟨hint, h1, hlt⟩ := reference_area_size_exact inst position same_lane hcall
  exact ⟨hint, h1, Nat.zero_le _,
    (relative_position_eq _ pseudo_rand h1 (by omega) hpr).2⟩

theorem reference_window_no_wrap_witness :
    (2 ≤ small_instance.segment_length ∧
     small_instance.lane_length = 4 * small_instance.segment_length ∧
     small_instance.lane_length < 2 ^ 31 ∧ 4000000000 < 2 ^ 32 ∧ 1 < 4 ∧
     0 < small_instance.segment_length ∧ ((0 : Nat) = 0 → (1 : Nat) = 0 → 2 ≤ 0)) ∧
    ((reference_area_size small_instance { pass := 0, lane := 0, slice := 1, index := 0 }
        false : Int) =
      reference_area_size_int small_instance { pass := 0, lane := 0, slice := 1, index := 0 }
        false ∧
    1 ≤ reference_area_size small_instance { pass := 0, lane := 0, slice := 1, index := 0 }
        false ∧
    0 ≤ relative_position (reference_area_size small_instance
        { pass := 0, lane := 0, slice := 1, index := 0 } false) 4000000000 ∧
    relative_position (reference_area_size small_instance
        { pass := 0, lane := 0, slice := 1, index := 0 } false) 4000000000 <
      reference_area_size small_instance { pass := 0, lane := 0, slice := 1, index := 0 }
        false) :=
  ⟨⟨by decide, by decide, by decide, by decide, by decide, by decide, by decide⟩,
   reference_window_no_wrap small_instance { pass := 0, lane := 0, slice := 1, index := 0 }
     4000000000 false (by decide) (by decide) (by decide) (by decide) (by decide) (by decide)
     (by decide)⟩

/-- C11: for every instance with `lanes ≥ 1` (lanes of `lane_length ≥ 1`
blocks tiling a memory region of `lanes * lane_length < 2^32` blocks) and every
`hashlen`, `finalize` outputs `blake2b_long(hashlen, B)` where `B` is the
1024-byte little-endian serialisation of the word-wise XOR, over all lanes
`l < lanes`, of the blocks `memory[l * lane_length + lane_length - 1]`. -/
theorem finalize_xor_last_blocks (inst : argon2_instance_t) (hashlen : Nat)
    (hlanes : 1 ≤ inst.lanes) (hll : 1 ≤ inst.lane_length)
    (hN32 : inst.lanes * inst.lane_length < 2 ^ 32)
    (hmem : inst.memory.length = inst.lanes * inst.lane_length) :
    finalize inst hashlen =
      .ok (blake2b_long hashlen
        (block_bytes (xor_last_blocks inst.memory inst.lanes inst.lane_length))) := by
  obtain ⟨b, bh, hb, hrun, hbh⟩ := finalize_loop inst _ hll hlanes rfl hN32 hmem
  have hll0 : inst.lane_length ≠ 0 := by omega
  unfold finalize
  simp only [bind, Except.bind, pure, Except.pure, hb, hrun]
  rw [if_neg hll0, block_bytes_congr _ _ hbh]

theorem finalize_xor_last_blocks_witness :
    (1 ≤ two_lanes.lanes ∧ 1 ≤ two_lanes.lane_length ∧
     two_lanes.lanes * two_lanes.lane_length < 2 ^ 32 ∧
     two_lanes.memory.length = two_lanes.lanes * two_lanes.lane_length) ∧
    finalize two_lanes 4 =
      .ok (blake2b_long 4
        (block_bytes (xor_last_blocks two_lanes.memory two_lanes.lanes
          two_lanes.lane_length))) :=
  ⟨⟨by decide, by decide, by decide, by decide⟩,
   finalize_xor_last_blocks two_lanes 4 (by decide) (by decide) (by decide) (by decide)⟩

/-- C17: in a valid configuration (`lane_length = 4 * segment_length`, a
memory region of `lanes * lane_length < 2^32` blocks, `lane < lanes`, `slice <
4`), `fill_segment` returns; its loop writes exactly the blocks
`memory[lane * lane_length + slice * segment_length + i]` for `start ≤ i <
segment_length`, in this order, where `start = 2` if `pass = 0` and `slice =
0` and `start = 0` otherwise; every other block of the region is unchanged;
in particular the pass-0, slice-0 fill leaves the two blocks at the beginning
of the lane as they were. -/
theorem fill_segment_writes (inst : argon2_instance_t) (position : argon2_position_t)
    (hsl : 1 ≤ inst.segment_length) (hll : inst.lane_length = 4 * inst.segment_length)
    (hN32 : inst.lanes * inst.lane_length < 2 ^ 32)
    (hmem : inst.memory.length = inst.lanes * inst.lane_length)
    (hlane : position.lane < inst.lanes) (hslice : position.slice < 4) :
    segment_starting_index position =
      (if position.pass = 0 ∧ position.slice = 0 then 2 else 0) ∧
    (fill_segment_offsets inst position).map (fun x => x.2.1) =
      (List.range' (segment_starting_index position)
        (inst.segment_length - segment_starting_index position)).map
        (fun i => position.lane * inst.lane_length + position.slice * inst.segment_length
          + i) ∧
    ∃ mem, fill_segment inst position = .ok mem ∧ mem.length = inst.memory.length ∧
      (∀ j, (j < position.lane * inst.lane_length + position.slice * inst.segment_length
              + segment_starting_index position ∨
            position.lane * inst.lane_length + position.slice * inst.segment_length
              + inst.segment_length ≤ j) →
        mem[j]? = inst.memory[j]?) ∧
      (position.pass = 0 → position.slice = 0 →
        mem[position.lane * inst.lane_length]? =
          inst.memory[position.lane * inst.lane_length]? ∧
        mem[position.lane * inst.lane_length + 1]? =
          inst.memory[position.lane * inst.lane_length + 1]?) := by
  have hc : segment_config inst position (inst.lanes * inst.lane_length) :=
    ⟨hsl, hll, rfl, hN32, hlane, hslice⟩
  have hst := segment_starting_index_eq position
  obtain ⟨mem, hrun, hlen, hfr⟩ := fill_segment_frame inst position _ hc hmem
  refine ⟨hst, ?_, mem, hrun, by rw [hlen, hmem], hfr, ?_⟩
  · rw [fill_segment_offsets_eq inst position _ hc hmem, List.map_map]
    rfl
  · intro hp hs
    rw [if_pos ⟨hp, hs⟩] at hst
    constructor
    · exact hfr _ (Or.inl (by rw [hst, hs]; omega))
    · exact hfr _ (Or.inl (by rw [hst, hs]; omega))

theorem fill_segment_writes_witness :
    (1 ≤ two_lanes.segment_length ∧ two_lanes.lane_length = 4 * two_lanes.segment_length ∧
     two_lanes.lanes * two_lanes.lane_length < 2 ^ 32 ∧
     two_lanes.memory.length = two_lanes.lanes * two_lanes.lane_length ∧
     first_segment.lane < two_lanes.lanes ∧ first_segment.slice < 4) ∧
    (segment_starting_index first_segment =
      (if first_segment.pass = 0 ∧ first_segment.slice = 0 then 2 else 0) ∧
    (fill_segment_offsets two_lanes first_segment).map (fun x => x.2.1) =
      (List.range' (segment_starting_index first_segment)
        (two_lanes.segment_length - segment_starting_index first_segment)).map
        (fun i => first_segment.lane * two_lanes.lane_length +
          first_segment.slice * two_lanes.segment_length + i) ∧
    ∃ mem, fill_segment two_lanes first_segment = .ok mem ∧
      mem.length = two_lanes.memory.length ∧
      (∀ j, (j < first_segment.lane * two_lanes.lane_length +
                first_segment.slice * two_lanes.segment_length
              + segment_starting_index first_segment ∨
            first_segment.lane * two_lanes.lane_length +
                first_segment.slice * two_lanes.segment_length
              + two_lanes.segment_length ≤ j) →
        mem[j]? = two_lanes.memory[j]?) ∧
      (first_segment.pass = 0 → first_segment.slice = 0 →
        mem[first_segment.lane * two_lanes.lane_length]? =
          two_lanes.memory[first_segment.lane * two_lanes.lane_length]? ∧
        mem[first_segment.lane * two_lanes.lane_length + 1]? =
          two_lanes.memory[first_segment.lane * two_lanes.lane_length + 1]?)) :=
  ⟨⟨by decide, by decide, by decide, by decide, by decide, by decide⟩,
   fill_segment_writes two_lanes first_segment (by decide) (by decide) (by decide)
     (by decide) (by decide) (by decide)⟩

/-- C18: in a valid configuration (`lane_length = 4 * segment_length`, a
memory region of `lanes * lane_length < 2^32` blocks, `lane < lanes`, `slice <
4`; 32-bit wraparound arithmetic), the loop of `fill_segment` runs for the
counters `start ≤ i < segment_length`, and at iteration `i` the current block
is `lane * lane_length + slice * segment_length + i` and the block used as
`previous` is its cyclic predecessor in the lane, `prev_offset = lane *
lane_length + ((slice * segment_length + i - 1) mod lane_length)`: the
lane's last block when the current block is the lane's first, and
`curr_offset - 1` otherwise. -/
theorem fill_segment_previous (inst : argon2_instance_t) (position : argon2_position_t)
    (hsl : 1 ≤ inst.segment_length) (hll : inst.lane_length = 4 * inst.segment_length)
    (hN32 : inst.lanes * inst.lane_length < 2 ^ 32)
    (hmem : inst.memory.length = inst.lanes * inst.lane_length)
    (hlane : position.lane < inst.lanes) (hslice : position.slice < 4) :
    fill_segment_offsets inst position =
      (List.range' (segment_starting_index position)
        (inst.segment_length - segment_starting_index position)).map
        (fun i => (i,
          position.lane * inst.lane_length + position.slice * inst.segment_length + i,
          position.lane * inst.lane_length +
            (position.slice * inst.segment_length + i + inst.lane_length - 1)
              % inst.lane_length)) ∧
    ∀ i, i < inst.segment_length →
      (((position.slice * inst.segment_length + i + inst.lane_length - 1)
          % inst.lane_length : Nat) : Int) =
        ((position.slice * inst.segment_length + i : Nat) - 1 : Int)
          % (inst.lane_length : Int) ∧
      (position.slice * inst.segment_length + i = 0 →
        position.lane * inst.lane_length +
          (position.slice * inst.segment_length + i + inst.lane_length - 1)
            % inst.lane_length = position.lane * inst.lane_length + inst.lane_length - 1) ∧
      (position.slice * inst.segment_length + i ≠ 0 →
        position.lane * inst.lane_length +
          (position.slice * inst.segment_length + i + inst.lane_length - 1)
            % inst.lane_length + 1 =
          position.lane * inst.lane_length + position.slice * inst.segment_length + i) := by
  have hc : segment_config inst position (inst.lanes * inst.lane_length) :=
    ⟨hsl, hll, rfl, hN32, hlane, hslice⟩
  obtain ⟨_, hb2, _⟩ := segment_config_bounds inst position _ hc
  refine ⟨fill_segment_offsets_eq inst position _ hc hmem, ?_⟩
  intro i hi
  have hclt : position.slice * inst.segment_length + i < inst.lane_length := by omega
  have hcp := cyclic_pred _ _ (by omega : 1 ≤ inst.lane_length) hclt
  refine ⟨cyclic_pred_int _ _ (by omega), ?_, ?_⟩
  · intro h0
    rw [hcp, if_pos h0]
    omega
  · intro h0
    rw [hcp, if_neg h0]
    omega

theorem fill_segment_previous_witness :
    (1 ≤ two_lanes.segment_length ∧ two_lanes.lane_length = 4 * two_lanes.segment_length ∧
     two_lanes.lanes * two_lanes.lane_length < 2 ^ 32 ∧
     two_lanes.memory.length = two_lanes.lanes * two_lanes.lane_length ∧
     second_pass.lane < two_lanes.lanes ∧ second_pass.slice < 4) ∧
    (fill_segment_offsets two_lanes second_pass =
      (List.range' (segment_starting_index second_pass)
        (two_lanes.segment_length - segment_starting_index second_pass)).map
        (fun i => (i,
          second_pass.lane * two_lanes.lane_length +
            second_pass.slice * two_lanes.segment_length + i,
          second_pass.lane * two_lanes.lane_length +
            (second_pass.slice * two_lanes.segment_length + i + two_lanes.lane_length - 1)
              % two_lanes.lane_length)) ∧
    ∀ i, i < two_lanes.segment_length →
      (((second_pass.slice * two_lanes.segment_length + i + two_lanes.lane_length - 1)
          % two_lanes.lane_length : Nat) : Int) =
        ((second_pass.slice * two_lanes.segment_length + i : Nat) - 1 : Int)
          % (two_lanes.lane_length : Int) ∧
      (second_pass.slice * two_lanes.segment_length + i = 0 →
        second_pass.lane * two_lanes.lane_length +
          (second_pass.slice * two_lanes.segment_length + i + two_lanes.lane_length - 1)
            % two_lanes.lane_length =
          second_pass.lane * two_lanes.lane_length + two_lanes.lane_length - 1) ∧
      (second_pass.slice * two_lanes.segment_length + i ≠ 0 →
        second_pass.lane * two_lanes.lane_length +
          (second_pass.slice * two_lanes.segment_length + i + two_lanes.lane_length - 1)
            % two_lanes.lane_length + 1 =
          second_pass.lane * two_lanes.lane_length +
            second_pass.slice * two_lanes.segment_length + i)) :=
  ⟨⟨by decide, by decide, by decide, by decide, by decide, by decide⟩,
   fill_segment_previous two_lanes second_pass (by decide) (by decide) (by decide)
     (by decide) (by decide) (by decide)⟩

/-- C19: for every configuration with `1 ≤ lanes ≤ 2^24 - 1`, `segment_length
≥ 2`, `lane_length = 4 * segment_length` and `memory_blocks = lanes *
lane_length < 2^32` (a region of `memory_blocks` blocks of any content), every
pass, `lane < lanes` and `slice < 4`: at every iteration of the loop of
`fill_segment` (there are `segment_length - start` of them) `curr_offset`,
`prev_offset` and `ref_offset` are below `memory_blocks`, and `fill_segment`
returns without an out-of-range access; the block indices used by
`initialize` (`l * lane_length` and `l * lane_length + 1` for `l < lanes`)
and by `finalize` (`lane_length - 1` and `l * lane_length + lane_length - 1`
for `1 ≤ l < lanes`), as computed in 32 bits, are below `memory_blocks`;
`finalize` returns without an out-of-range access, and `initialize` makes no
access to a block outside the region: none with the array `blockhash` as
declared, and none when the array has the `BLAKE2B_OUTBYTES + 8` bytes that
the function uses, where it returns `ARGON2_OK`. -/
theorem block_indices_in_range (inst : argon2_instance_t) (position : argon2_position_t)
    (hl1 : 1 ≤ inst.lanes) (hl24 : inst.lanes ≤ 2 ^ 24 - 1)
    (hsl : 2 ≤ inst.segment_length) (hll : inst.lane_length = 4 * inst.segment_length)
    (hmb : inst.memory_blocks = inst.lanes * inst.lane_length)
    (hmb32 : inst.memory_blocks < 2 ^ 32)
    (hmem : inst.memory.length = inst.memory_blocks)
    (hlane : position.lane < inst.lanes) (hslice : position.slice < 4) :
    ((fill_segment_offsets inst position).length =
        inst.segment_length - segment_starting_index position ∧
      ∀ x, x ∈ fill_segment_offsets inst position →
        x.2.1 < inst.memory_blocks ∧ x.2.2 < inst.memory_blocks) ∧
    ((fill_segment_refs inst position).length =
        inst.segment_length - segment_starting_index position ∧
      ∀ x, x ∈ fill_segment_refs inst position →
        ∃ ref_lane ref_index, x.2 = .ok (ref_lane, ref_index) ∧
          (ref_lane * inst.lane_length + ref_index) % 2 ^ 32 < inst.memory_blocks) ∧
    (∃ mem, fill_segment inst position = .ok mem) ∧
    ((∀ l, l < inst.lanes →
        (l * inst.lane_length) % 2 ^ 32 < inst.memory_blocks ∧
        ((l * inst.lane_length) % 2 ^ 32 + 1) % 2 ^ 32 < inst.memory_blocks) ∧
      ∀ pwd salt, initialise inst pwd salt ≠ .error Fault.block_index_out_of_range ∧
        ∃ mem, initialise_sized (BLAKE2B_OUTBYTES + 8) inst pwd salt = .ok (ARGON2_OK, mem)) ∧
    (inst.lane_length - 1 < inst.memory_blocks ∧
      (∀ l, 1 ≤ l → l < inst.lanes →
        (l * inst.lane_length) % 2 ^ 32 + inst.lane_length - 1 < inst.memory_blocks) ∧
      ∀ outlen, ∃ out, finalize inst outlen = .ok out) := by
  have hN32 : inst.lanes * inst.lane_length < 2 ^ 32 := by rw [← hmb]; exact hmb32
  have hmem' : inst.memory.length = inst.lanes * inst.lane_length := by rw [hmem, hmb]
  have hc : segment_config inst position (inst.lanes * inst.lane_length) :=
    ⟨by omega, hll, rfl, hN32, hlane, hslice⟩
  obtain ⟨hb1, hb2, _⟩ := segment_config_bounds inst position _ hc
  have hlaneN : ∀ l, l < inst.lanes →
      l * inst.lane_length + inst.lane_length ≤ inst.lanes * inst.lane_length := by
    intro l hl
    rw [← Nat.succ_mul]
    exact Nat.mul_le_mul_right _ hl
  refine ⟨⟨?_, ?_⟩, ⟨?_, ?_⟩, ?_, ⟨?_, ?_⟩, ?_, ?_, ?_⟩
  · rw [fill_segment_offsets_eq inst position _ hc hmem', List.length_map,
      List.length_range']
  · intro x hx
    rw [fill_segment_offsets_eq inst position _ hc hmem'] at hx
    obtain ⟨i, hi, rfl⟩ := List.mem_map.mp hx
    have hi' := List.mem_range'_1.mp hi
    have hm : (position.slice * inst.segment_length + i + inst.lane_length - 1)
        % inst.lane_length < inst.lane_length := Nat.mod_lt _ (by omega)
    rw [hmb]
    constructor
    · show position.lane * inst.lane_length + position.slice * inst.segment_length + i < _
      omega
    · show position.lane * inst.lane_length + _ < _
      omega
  · exact (fill_segment_refs_in_range inst position _ hc hmem').1
  · intro x hx
    obtain ⟨_, _, r, hr, _, _, _, hrm, hrN⟩ :=
      (fill_segment_refs_in_range inst position _ hc hmem').2 x hx
    exact ⟨r.1, r.2, hr, by rw [hrm, hmb]; exact hrN⟩
  · obtain ⟨mem, hrun, _⟩ := fill_segment_frame inst position _ hc hmem'
    exact ⟨mem, hrun⟩
  · intro l hl
    have h := hlaneN l hl
    rw [Nat.mod_eq_of_lt (by omega), Nat.mod_eq_of_lt (by omega), hmb]
    omega
  · intro pwd salt
    obtain ⟨mem, hrun, _⟩ := initialise_ok (BLAKE2B_OUTBYTES + 8) inst pwd salt _
      (Nat.le_refl _) (by omega) rfl hN32 hmem'
    refine ⟨?_, mem, hrun⟩
    rw [initialise_fault inst pwd salt hl1]
    intro h
    cases h
  · have h := hlaneN 0 (by omega)
    rw [hmb]
    omega
  · intro l _ hl
    have h := hlaneN l hl
    rw [Nat.mod_eq_of_lt (by omega), hmb]
    omega
  · intro outlen
    obtain ⟨out, hrun, _⟩ := finalize_ok inst outlen _ (by omega) hl1 rfl hN32 hmem'
    exact ⟨out, hrun⟩

theorem block_indices_in_range_witness :
    (1 ≤ two_lanes.lanes ∧ two_lanes.lanes ≤ 2 ^ 24 - 1 ∧ 2 ≤ two_lanes.segment_length ∧
     two_lanes.lane_length = 4 * two_lanes.segment_length ∧
     two_lanes.memory_blocks = two_lanes.lanes * two_lanes.lane_length ∧
     two_lanes.memory_blocks < 2 ^ 32 ∧ two_lanes.memory.length = two_lanes.memory_blocks ∧
     second_pass.lane < two_lanes.lanes ∧ second_pass.slice < 4) ∧
    (((fill_segment_offsets two_lanes second_pass).length =
        two_lanes.segment_length - segment_starting_index second_pass ∧
      ∀ x, x ∈ fill_segment_offsets two_lanes second_pass →
        x.2.1 < two_lanes.memory_blocks ∧ x.2.2 < two_lanes.memory_blocks) ∧
    ((fill_segment_refs two_lanes second_pass).length =
        two_lanes.segment_length - segment_starting_index second_pass ∧
      ∀ x, x ∈ fill_segment_refs two_lanes second_pass →
        ∃ ref_lane ref_index, x.2 = .ok (ref_lane, ref_index) ∧
          (ref_lane * two_lanes.lane_length + ref_index) % 2 ^ 32
            < two_lanes.memory_blocks) ∧
    (∃ mem, fill_segment two_lanes second_pass = .ok mem) ∧
    ((∀ l, l < two_lanes.lanes →
        (l * two_lanes.lane_length) % 2 ^ 32 < two_lanes.memory_blocks ∧
        ((l * two_lanes.lane_length) % 2 ^ 32 + 1) % 2 ^ 32 < two_lanes.memory_blocks) ∧
      ∀ pwd salt, initialise two_lanes pwd salt ≠ .error Fault.block_index_out_of_range ∧
        ∃ mem, initialise_sized (BLAKE2B_OUTBYTES + 8) two_lanes pwd salt =
          .ok (ARGON2_OK, mem)) ∧
    (two_lanes.lane_length - 1 < two_lanes.memory_blocks ∧
      (∀ l, 1 ≤ l → l < two_lanes.lanes →
        (l * two_lanes.lane_length) % 2 ^ 32 + two_lanes.lane_length - 1
          < two_lanes.memory_blocks) ∧
      ∀ outlen, ∃ out, finalize two_lanes outlen = .ok out)) :=
  ⟨⟨by decide, by decide, by decide, by decide, by decide, by decide, by decide, by decide,
    by decide⟩,
   block_indices_in_range two_lanes second_pass (by decide) (by decide) (by decide)
     (by decide) (by decide) (by decide) (by decide) (by decide) (by decide)⟩

/-- C12: in pass 0, slice 0, for every lane of a valid configuration (`lanes ≥
1`, `lane_length = 4 * segment_length`, a region of `lanes * lane_length <
2^32` blocks) and every block index `i` with `2 ≤ i < segment_length`, the
reference selected by `fill_segment` is `(ref_lane, ref_index) =
(position.lane, j)` with `j ≤ i - 2`, whatever the pseudo-random value; and
this holds of every pair that the loop of `fill_segment` selects. -/
theorem first_slice_reference (inst : argon2_instance_t) (position : argon2_position_t)
    (hpass : position.pass = 0) (hslice : position.slice = 0)
    (hll : inst.lane_length = 4 * inst.segment_length)
    (hN32 : inst.lanes * inst.lane_length < 2 ^ 32)
    (hmem : inst.memory.length = inst.lanes * inst.lane_length)
    (hlane : position.lane < inst.lanes) :
    (∀ pseudo_rand i, 2 ≤ i → i < inst.segment_length →
      ∃ j, segment_reference inst position pseudo_rand i = .ok (position.lane, j) ∧
        j + 2 ≤ i) ∧
    (fill_segment_refs inst position).length = inst.segment_length - 2 ∧
    ∀ x, x ∈ fill_segment_refs inst position →
      2 ≤ x.1 ∧ x.1 < inst.segment_length ∧
      ∃ j, x.2 = .ok (position.lane, j) ∧ j + 2 ≤ x.1 := by
  have hsel := first_slice_selection inst position hpass hslice hll hN32 hlane
  refine ⟨hsel, ?_⟩
  by_cases hsl : 1 ≤ inst.segment_length
  · have hc : segment_config inst position (inst.lanes * inst.lane_length) :=
      ⟨hsl, hll, rfl, hN32, hlane, by omega⟩
    have hst : segment_starting_index position = 2 := by
      rw [segment_starting_index_eq, if_pos ⟨hpass, hslice⟩]
    obtain ⟨hlen, hall⟩ := fill_segment_refs_in_range inst position _ hc hmem
    rw [hst] at hlen hall
    refine ⟨hlen, ?_⟩
    intro x hx
    obtain ⟨h2, hlt, r, hr, ⟨pr, hpr⟩, _⟩ := hall x hx
    obtain ⟨j, hj, hle⟩ := hsel pr x.1 h2 hlt
    refine ⟨h2, hlt, j, ?_, hle⟩
    rw [hr, ← hpr, hj]
  · have h0 : inst.segment_length = 0 := by omega
    have hnil : fill_segment_refs inst position = [] := by
      unfold fill_segment_refs
      rw [h0, Nat.zero_sub]
      rfl
    rw [hnil, h0]
    exact ⟨rfl, fun x hx => by cases hx⟩

theorem first_slice_reference_witness :
    (first_segment.pass = 0 ∧ first_segment.slice = 0 ∧
     two_lanes.lane_length = 4 * two_lanes.segment_length ∧
     two_lanes.lanes * two_lanes.lane_length < 2 ^ 32 ∧
     two_lanes.memory.length = two_lanes.lanes * two_lanes.lane_length ∧
     first_segment.lane < two_lanes.lanes) ∧
    ((∀ pseudo_rand i, 2 ≤ i → i < two_lanes.segment_length →
      ∃ j, segment_reference two_lanes first_segment pseudo_rand i =
          .ok (first_segment.lane, j) ∧ j + 2 ≤ i) ∧
    (fill_segment_refs two_lanes first_segment).length = two_lanes.segment_length - 2 ∧
    ∀ x, x ∈ fill_segment_refs two_lanes first_segment →
      2 ≤ x.1 ∧ x.1 < two_lanes.segment_length ∧
      ∃ j, x.2 = .ok (first_segment.lane, j) ∧ j + 2 ≤ x.1) :=
  ⟨⟨by decide, by decide, by decide, by decide, by decide, by decide⟩,
   first_slice_reference two_lanes first_segment (by decide) (by decide) (by decide)
     (by decide) (by decide) (by decide)⟩

/-- C13: data-independent addressing is independent of memory contents.  For
two Argon2id instances in a valid configuration (`lane_length = 4 *
segment_length`, a region of `lanes * lane_length < 2^32` blocks) that agree
on `lanes`, `segment_length`, `memory_blocks` and `passes`, whatever their
memory contents, and two positions with the same lane and slice: in pass 0
and slice 0 or 1, the sequence of pairs `(ref_lane, ref_index)` selected by
the loop of `fill_segment` (one pair per iteration, `segment_length - start`
of them) is the same for both; for `pass ≥ 1` or `slice ≥ 2` addressing is
data-dependent, and the pseudo-random value of an iteration is word 0 of the
block `memory[prev_offset]`. -/
theorem data_independent_addressing (inst1 inst2 : argon2_instance_t)
    (pos1 pos2 : argon2_position_t)
    (ht1 : inst1.type = Argon2_id) (ht2 : inst2.type = Argon2_id)
    (hlanes : inst1.lanes = inst2.lanes)
    (hsl : inst1.segment_length = inst2.segment_length)
    (hmb : inst1.memory_blocks = inst2.memory_blocks)
    (hpasses : inst1.passes = inst2.passes)
    (hsl1 : 1 ≤ inst1.segment_length)
    (hll1 : inst1.lane_length = 4 * inst1.segment_length)
    (hll2 : inst2.lane_length = 4 * inst2.segment_length)
    (hN32 : inst1.lanes * inst1.lane_length < 2 ^ 32)
    (hm1 : inst1.memory.length = inst1.lanes * inst1.lane_length)
    (hm2 : inst2.memory.length = inst2.lanes * inst2.lane_length)
    (hlane1 : pos1.lane < inst1.lanes) (hlane : pos1.lane = pos2.lane)
    (hslice : pos1.slice = pos2.slice) :
    (pos1.pass = 0 → pos2.pass = 0 → pos1.slice < 2 →
      fill_segment_refs inst1 pos1 = fill_segment_refs inst2 pos2 ∧
      (fill_segment_refs inst1 pos1).length =
        inst1.segment_length - segment_starting_index pos1) ∧
    ((pos1.pass ≠ 0 ∨ 2 ≤ pos1.slice) →
      segment_data_independent inst1 pos1 = false ∧
      ∀ (s : segment_state) (i : Nat),
        segment_pseudo_rand (segment_data_independent inst1 pos1) s
            (step_prev_offset inst1 s) i =
          (read_block s.memory (step_prev_offset inst1 s)).map
            (fun b => (s.input_block, s.address_block, b.getD 0 0)) ∧
        step_reference inst1 pos1 (segment_data_independent inst1 pos1) s i =
          (read_block s.memory (step_prev_offset inst1 s)).bind
            (fun b => segment_reference inst1 pos1 (b.getD 0 0) i)) := by
  have hll : inst1.lane_length = inst2.lane_length := by rw [hll1, hll2, hsl]
  constructor
  · intro hp1 hp2 hs2
    have hc1 : segment_config inst1 pos1 (inst1.lanes * inst1.lane_length) :=
      ⟨hsl1, hll1, rfl, hN32, hlane1, by omega⟩
    have hc2 : segment_config inst2 pos2 (inst1.lanes * inst1.lane_length) :=
      ⟨by omega, hll2, by rw [hlanes, hll], hN32, by omega, by omega⟩
    exact ⟨fill_segment_refs_independent inst1 inst2 pos1 pos2 _ hc1 hc2 hm1
        (by rw [hm2, hlanes, hll]) ht1 ht2 hlanes hsl hmb hpasses hp1 hp2 hlane hslice hs2,
      (fill_segment_refs_in_range inst1 pos1 _ hc1 hm1).1⟩
  · intro hdep
    have hd : segment_data_independent inst1 pos1 = false := by
      rw [segment_data_independent_id inst1 pos1 ht1]
      exact decide_eq_false (fun h => by omega)
    refine ⟨hd, ?_⟩
    intro s i
    rw [hd]
    unfold step_reference segment_pseudo_rand
    cases read_block s.memory (step_prev_offset inst1 s) with
    | error e => exact ⟨rfl, rfl⟩
    | ok b => exact ⟨rfl, rfl⟩

theorem data_independent_addressing_witness :
    (two_lanes.type = Argon2_id ∧ two_lanes_zeroed.type = Argon2_id ∧
     two_lanes.lanes = two_lanes_zeroed.lanes ∧
     two_lanes.segment_length = two_lanes_zeroed.segment_length ∧
     two_lanes.memory_blocks = two_lanes_zeroed.memory_blocks ∧
     two_lanes.passes = two_lanes_zeroed.passes ∧
     1 ≤ two_lanes.segment_length ∧
     two_lanes.lane_length = 4 * two_lanes.segment_length ∧
     two_lanes_zeroed.lane_length = 4 * two_lanes_zeroed.segment_length ∧
     two_lanes.lanes * two_lanes.lane_length < 2 ^ 32 ∧
     two_lanes.memory.length = two_lanes.lanes * two_lanes.lane_length ∧
     two_lanes_zeroed.memory.length = two_lanes_zeroed.lanes * two_lanes_zeroed.lane_length ∧
     first_segment.lane < two_lanes.lanes ∧ first_segment.lane = first_segment.lane ∧
     first_segment.slice = first_segment.slice) ∧
    ((first_segment.pass = 0 → first_segment.pass = 0 → first_segment.slice < 2 →
      fill_segment_refs two_lanes first_segment =
        fill_segment_refs two_lanes_zeroed first_segment ∧
      (fill_segment_refs two_lanes first_segment).length =
        two_lanes.segment_length - segment_starting_index first_segment) ∧
    ((first_segment.pass ≠ 0 ∨ 2 ≤ first_segment.slice) →
      segment_data_independent two_lanes first_segment = false ∧
      ∀ (s : segment_state) (i : Nat),
        segment_pseudo_rand (segment_data_independent two_lanes first_segment) s
            (step_prev_offset two_lanes s) i =
          (read_block s.memory (step_prev_offset two_lanes s)).map
            (fun b => (s.input_block, s.address_block, b.getD 0 0)) ∧
        step_reference two_lanes first_segment
            (segment_data_independent two_lanes first_segment) s i =
          (read_block s.memory (step_prev_offset two_lanes s)).bind
            (fun b => segment_reference two_lanes first_segment (b.getD 0 0) i))) :=
  ⟨⟨by decide, by decide, by decide, by decide, by decide, by decide, by decide, by decide,
    by decide, by decide, by decide, by decide, by decide, by decide, by decide⟩,
   data_independent_addressing two_lanes two_lanes_zeroed first_segment first_segment
     (by decide) (by decide) (by decide) (by decide) (by decide) (by decide) (by decide)
     (by decide) (by decide) (by decide) (by decide) (by decide) (by decide) (by decide)
     (by decide)⟩

/-- C14 (the run on the known-answer input): the call `argon2id_hash_raw(2,
65536, 1, "password", 8, "somesalt", 8, hash, 32)` stops in `initialize`, at
the first store of the lane loop, an access outside the 64-byte array
`blockhash`.  With an array of `BLAKE2B_OUTBYTES + 8` bytes the call returns
`ARGON2_OK` and writes 32 bytes; it makes 2 passes over one lane of 65536
blocks (segments of 16384 blocks); and every block written with `with_xor =
1`, as in the whole second pass, is the same whatever content `old` the
target block held from the first pass.  The 32 output bytes are not evaluated
here. -/
theorem known_answer_run :
    argon2id_hash_raw 2 65536 1 [0x70, 0x61, 0x73, 0x73, 0x77, 0x6f, 0x72, 0x64]
        [0x73, 0x6f, 0x6d, 0x65, 0x73, 0x61, 0x6c, 0x74] false 32 true =
      .error Fault.array_index_out_of_range ∧
    (∃ out, argon2id_hash_raw_sized (BLAKE2B_OUTBYTES + 8) 2 65536 1
        [0x70, 0x61, 0x73, 0x73, 0x77, 0x6f, 0x72, 0x64]
        [0x73, 0x6f, 0x6d, 0x65, 0x73, 0x61, 0x6c, 0x74] false 32 true =
          .ok (ARGON2_OK, out) ∧ out.length = 32) ∧
    (derive_instance 2 65536 1).map (fun inst => (inst.passes, inst.memory_blocks,
        inst.segment_length, inst.lane_length, inst.lanes, inst.type)) =
      .ok (2, 65536, 16384, 65536, 1, Argon2_id) ∧
    (∀ prev ref old old1 : block, fill_block prev ref old 1 = fill_block prev ref old1 1) :=
  ⟨hash_raw_fault_without_wrap 2 65536 1 _ _ 32 (by decide) (by decide) (by decide)
      (by decide) (by decide) (by decide),
   hash_raw_ok_without_wrap (BLAKE2B_OUTBYTES + 8) 2 65536 1 _ _ 32 (Nat.le_refl _)
      (by decide) (by decide) (by decide) (by decide) (by decide) (by decide),
   by decide, fun _ _ _ _ => rfl⟩

/-! ## The local array `blockhash` of `initialize`: bounds -/

theorem write_bytes_of_le (size : Nat) (dst : List Nat) (off : Nat) (src : List Nat)
    (h : off + src.length ≤ size) :
    write_bytes size dst off src = some (memcpy dst off src src.length) := by
  unfold write_bytes
  rw [if_pos h]

theorem write_bytes_of_lt (size : Nat) (dst : List Nat) (off : Nat) (src : List Nat)
    (h : size < off + src.length) : write_bytes size dst off src = none := by
  unfold write_bytes
  rw [if_neg (by omega)]

/-- The first statement of the loop body, `store32(blockhash +
BLAKE2B_OUTBYTES, 0)`, writes the bytes 64..67: outside every array of fewer
than 68 bytes. -/
theorem initialise_step_checked_none (size : Nat) (inst : argon2_instance_t)
    (st : List Nat × List block) (l : Nat) (h : size < BLAKE2B_OUTBYTES + 4) :
    initialise_step_checked size inst st l = none := by
  unfold initialise_step_checked
  rw [write_bytes_of_lt size st.1 BLAKE2B_OUTBYTES (store32 0) (by rw [store32_length]; exact h)]
  rfl

/-- With a local array of fewer than 68 bytes, every call of `initialize` on
an instance with at least one lane makes an access outside the array. -/
theorem initialise_checked_none (size : Nat) (inst : argon2_instance_t) (pwd salt : List Nat)
    (h : size < BLAKE2B_OUTBYTES + 4) (hl : 1 ≤ inst.lanes) :
    initialise_checked size inst pwd salt = none := by
  unfold initialise_checked
  cases hw : write_bytes size [] 0 (initial_hash inst pwd salt) with
  | none => rfl
  | some bh =>
    obtain ⟨n, hn⟩ : ∃ n, inst.lanes = n + 1 := ⟨inst.lanes - 1, by omega⟩
    simp only [hn, checked_loop, initialise_step_checked_none size inst _ 0 h]
    rfl

/-- The checked body gives `none` exactly where the body of `initialize`
faults. -/
theorem initialise_step_checked_eq (size : Nat) (inst : argon2_instance_t)
    (st : List Nat × List block) (l : Nat) :
    initialise_step_checked size inst st l =
      (initialise_step_sized size inst st l).toOption := by
  unfold initialise_step_checked initialise_step_sized store_bytes load_bytes
  simp only [bind, Option.bind, Except.bind, pure, Except.pure]
  cases write_bytes size st.1 BLAKE2B_OUTBYTES (store32 0) with
  | none => rfl
  | some b1 =>
    simp only []
    cases write_bytes size b1 (BLAKE2B_OUTBYTES + 4) (store32 l) with
    | none => rfl
    | some b2 =>
      simp only []
      cases read_bytes size b2 (BLAKE2B_OUTBYTES + 8) with
      | none => rfl
      | some i1 =>
        simp only []
        cases write_block st.2 (l * inst.lane_length % 2 ^ 32)
            (block_of_bytes (blake2b_long ARGON2_BLOCK_SIZE i1)) with
        | error e => rfl
        | ok m =>
          simp only [Except.toOption]
          cases write_bytes size b2 BLAKE2B_OUTBYTES (store32 1) with
          | none => rfl
          | some b3 =>
            simp only []
            cases read_bytes size b3 (BLAKE2B_OUTBYTES + 8) with
            | none => rfl
            | some i2 =>
              simp only []
              cases write_block m ((l * inst.lane_length % 2 ^ 32 + 1) % 2 ^ 32)
                  (block_of_bytes (blake2b_long ARGON2_BLOCK_SIZE i2)) with
              | error e => rfl
              | ok m1 => rfl

theorem checked_loop_eq {σ : Type} (b1 : σ → Nat → Option σ) (b2 : σ → Nat → Except Fault σ)
    (h : ∀ s i, b1 s i = (b2 s i).toOption) : ∀ (n i : Nat) (s : σ),
    checked_loop b1 n i s = (for_loop b2 n i s).toOption := by
  intro n
  induction n with
  | zero => intro i s; rfl
  | succ n ih =>
    intro i s
    rw [checked_loop, for_loop, h]
    cases b2 s i with
    | error e => rfl
    | ok s1 => exact ih (i + 1) s1

/-- The checked function gives `none` exactly where `initialize` faults. -/
theorem initialise_checked_eq (size : Nat) (inst : argon2_instance_t) (pwd salt : List Nat) :
    initialise_checked size inst pwd salt = (initialise_sized size inst pwd salt).toOption := by
  unfold initialise_checked initialise_sized store_bytes
  simp only [bind, Option.bind, Except.bind, pure, Except.pure]
  cases write_bytes size [] 0 (initial_hash inst pwd salt) with
  | none => rfl
  | some b =>
    simp only [checked_loop_eq _ _ (initialise_step_checked_eq size inst)]
    cases for_loop (initialise_step_sized size inst) inst.lanes 0 (b, inst.memory) with
    | error e => rfl
    | ok st =>
      simp only [Except.toOption]
      cases write_bytes size st.1 0 (List.replicate size 0) with
      | none => rfl
      | some z => rfl

/-- C21 (failing input): the local array `blockhash` of `initialize` is
declared with `BLAKE2B_OUTBYTES = 64` bytes.  On the instance that
`argon2id_hash_raw(1, 8, 1, ...)` passes to `initialize` (one lane of eight
zeroed blocks), with an empty password and a salt of 8 zero bytes, the first
statement of the lane loop, `store32(blockhash + BLAKE2B_OUTBYTES, 0)`, writes
the bytes 64..67, outside the array, so the run with checked accesses stops
there; the read of `BLAKE2B_OUTBYTES + 8 = 72` bytes by `blake2b_long` is
outside the array too.  With an array of 72 bytes every access is inside and
the function returns `ARGON2_OK`. -/
theorem blockhash_out_of_bounds :
    blockhash_size = 64 ∧
    (derive_instance 1 8 1).map
        (fun inst => { inst with memory := List.replicate inst.memory_blocks zero_block }) =
      .ok small_instance ∧
    write_bytes blockhash_size (initial_hash small_instance [] (List.replicate 8 0))
      BLAKE2B_OUTBYTES (store32 0) = none ∧
    (∀ buf : List Nat, read_bytes blockhash_size buf (BLAKE2B_OUTBYTES + 8) = none) ∧
    initialise_checked blockhash_size small_instance [] (List.replicate 8 0) = none ∧
    ∃ mem, initialise_checked (BLAKE2B_OUTBYTES + 8) small_instance []
      (List.replicate 8 0) = some (ARGON2_OK, mem) := by
  refine ⟨rfl, rfl, write_bytes_of_lt _ _ _ _ (by decide), fun _ => rfl,
    initialise_checked_none _ _ _ _ (by decide) (by decide), ?_⟩
  obtain ⟨mem, hrun, _⟩ := initialise_ok (BLAKE2B_OUTBYTES + 8) small_instance []
    (List.replicate 8 0) 8 (Nat.le_refl _) (by decide) (by decide) (by decide) (by decide)
  exact ⟨mem, by rw [initialise_checked_eq, hrun]; rfl⟩

end Argon2
